import Mathlib

/-!
# query.c: token grammar codec and streaming binder

A shallow embedding of `src/query.c`.  Bytes are natural numbers below 256 and
a byte string is a `List Nat`.  A call of `die` ends the run; it is the
`Except.error` outcome, tagged with the call site.  The C library, libowfat
and the SQL engine are outside the repository:

* the multi-byte decoder, the wide character classes, `localeconv` and
  `strtod` depend on the process locale and are the fields of `Locale`;
* `strtoul`, `strtoll`, `scan_fromhex`, `fmt_tohex`, `fmt_longlong` and
  `buffer_getline_sa` are fixed functions, written out below after their
  documented behaviour on an LP64 platform (64-bit `unsigned long` and
  `long long`, 32-bit `int`);
* a prepared statement is the number of parameters it needs and the trace of
  the engine calls made on it; a bind call is refused exactly when its index
  is outside `1 .. needed`.  Values bound with `SQLITE_STATIC` are recorded
  by content at the time of the call.
-/

namespace Query

/-! ## Outcomes -/

/-- The call sites of `die`, one constructor per diagnostic. -/
inductive Fatal where
  /-- Invalid multi-byte character in input -/
  | invalidMultibyte
  /-- Invalid nibble in blob -/
  | invalidNibble
  /-- No single quotation mark at end of text -/
  | noClosingQuote
  /-- Incomplete multi-byte character inside quoted text -/
  | incompleteInQuoted
  /-- Unescaped quotation mark inside quoted text -/
  | unescapedQuote
  /-- Failed to bind text -/
  | bindText
  /-- Invalid blob token length -/
  | blobLength
  /-- No closing brace at end of blob -/
  | noClosingBrace
  /-- Failed to bind blob -/
  | bindBlob
  /-- No closing bracket at end of zero blob -/
  | noClosingBracket
  /-- Invalid zero blob length -/
  | invalidZeroLength
  /-- Zero blob length out of range -/
  | zeroLengthRange
  /-- Failed to bind zero blob -/
  | bindZero
  /-- Invalid numeric value -/
  | invalidNumeric
  /-- Floating-point value out of range -/
  | floatRange
  /-- Failed to bind floating-point value -/
  | bindFloat
  /-- Integer value out of range -/
  | integerRange
  /-- Failed to bind integer value -/
  | bindInteger
  /-- Failed to bind null value -/
  | bindNull
  /-- Failed to bind text value -/
  | bindTextValue
  /-- Incomplete multi-byte character at end of token -/
  | incompleteAtTokenEnd
  /-- Unknown token -/
  | unknownToken
  /-- Unmatched quotation mark in input line -/
  | unmatchedQuote
  deriving DecidableEq, Repr

/-- How a run of the streaming code ends early: by `die`; or it does not end,
`stall`, when the scanning loop of `bindStream` repeats rounds of width 0, in
which the cursor stays where it is, and the decoder does not reject the bytes
it is given again. -/
inductive Halt where
  | die (e : Fatal)
  | stall
  deriving DecidableEq, Repr

/-! ## Locale -/

/-- Result of `mbrtowc(wide, string, length, NULL)`. -/
inductive MbResult where
  /-- `(size_t) -2`: the bytes are the start of a character that is cut off -/
  | incomplete
  /-- `(size_t) -1`: the bytes are no valid character -/
  | invalid
  /-- `0`: the null wide character was decoded -/
  | null
  /-- The first `width` bytes decode to `wide` -/
  | char (wide width : Nat)
  deriving DecidableEq, Repr

/-- What the process locale supplies. -/
structure Locale where
  /-- Decoder of the first character of a byte span -/
  mbrtowc : List Nat → MbResult
  /-- A span of no bytes holds no character -/
  mbrtowc_nil : mbrtowc [] = MbResult.incomplete
  /-- The count returned is positive and at most the length given -/
  mbrtowc_width : ∀ s wide width, mbrtowc s = MbResult.char wide width →
    1 ≤ width ∧ width ≤ s.length
  iswdigit : Nat → Bool
  iswalpha : Nat → Bool
  iswcntrl : Nat → Bool
  iswspace : Nat → Bool
  /-- The string `localeconv()->decimal_point` -/
  decimal_point : List Nat
  /-- The string `localeconv()->positive_sign` -/
  positive_sign : List Nat
  /-- The string `localeconv()->negative_sign` -/
  negative_sign : List Nat
  /-- The function `strtod` on a C string: the offset of the end pointer,
  whether `errno` was set, and the bit pattern of the double -/
  strtod : List Nat → Nat × Bool × Nat
  /-- The function `gcvt(value, 8, buf)` on the bit pattern of a double -/
  gcvt : Nat → List Nat

/-- The three symbols `radix`, `psign`, `nsign`. -/
structure Symbols where
  radix : Nat
  psign : Nat
  nsign : Nat
  deriving DecidableEq, Repr

/-- The static initialisers of the three symbols: `.`, `+`, `-`. -/
def Symbols.initial : Symbols := ⟨46, 43, 45⟩

/-- The function `extractWide`: the decoded character and the width consumed.
Width 0 reports an incomplete character; then `wide` is not written and the
first component is a placeholder no caller may look at. -/
def extractWide (L : Locale) (string : List Nat) : Except Fatal (Nat × Nat) :=
  match L.mbrtowc string with
  | .incomplete => .ok (0, 0)
  | .invalid => .error .invalidMultibyte
  | .null => .ok (0, 1)
  | .char wide width => .ok (wide, width)

/-- A C string read from a byte list: the bytes before the first NUL. -/
def cstr (s : List Nat) : List Nat := s.takeWhile (fun b => b != 0)

/-- The function `cram`: replace `wide` by the first character of a non-empty
string. -/
def cram (L : Locale) (wide : Nat) (string : List Nat) : Except Fatal Nat :=
  match cstr string with
  | [] => .ok wide
  | b :: bs =>
    match extractWide L (b :: bs) with
    | .error e => .error e
    | .ok (w, width) => if width = 0 then .ok wide else .ok w

/-- The function `locale`: the symbols after start-up. -/
def locale (L : Locale) : Except Fatal Symbols :=
  match cram L Symbols.initial.radix L.decimal_point with
  | .error e => .error e
  | .ok r =>
    match cram L Symbols.initial.psign L.positive_sign with
    | .error e => .error e
    | .ok p =>
      match cram L Symbols.initial.nsign L.negative_sign with
      | .error e => .error e
      | .ok n => .ok ⟨r, p, n⟩

deriving instance DecidableEq for Except

/-! ## Values and the engine -/

/-- A value handed to one of the `sqlite3_bind_*` calls. -/
inductive Value where
  | null
  /-- The `sqlite3_int64` argument -/
  | integer (v : Int)
  /-- The bit pattern of the `double` argument -/
  | float (bits : Nat)
  | text (bytes : List Nat)
  | blob (bytes : List Nat)
  /-- The `int` argument of `sqlite3_bind_zeroblob` -/
  | zeroblob (n : Int)
  deriving DecidableEq, Repr

/-- Engine calls made on a statement. -/
inductive Event where
  | bind (index : Nat) (v : Value)
  /-- The statement was stepped until `SQLITE_DONE` (`fetchRows`) -/
  | exec
  | reset
  | begin
  | finalize
  | commit
  deriving DecidableEq, Repr

/-- A prepared statement: `sqlite3_bind_parameter_count` and the calls made so
far. -/
structure Stmt where
  needed : Nat
  trace : List Event
  deriving DecidableEq, Repr

/-- The struct `param`. -/
structure Param where
  stmt : Stmt
  index : Nat
  deriving DecidableEq, Repr

/-- Any `sqlite3_bind_*` call: refused when the index is out of range. -/
def sqlite3_bind (param : Param) (v : Value) : Option Stmt :=
  if 1 ≤ param.index ∧ param.index ≤ param.stmt.needed then
    some ⟨param.stmt.needed, param.stmt.trace ++ [Event.bind param.index v]⟩
  else none

/-- A bind call followed by `die` with the given diagnostic on refusal. -/
def bindOrDie (e : Fatal) (param : Param) (v : Value) : Except Fatal Stmt :=
  match sqlite3_bind param v with
  | some stmt => .ok stmt
  | none => .error e

/-! ## Hexadecimal digits (libowfat) -/

/-- The function `scan_fromhex`: the value of a hexadecimal digit, or -1. -/
def scan_fromhex (c : Nat) : Int :=
  if 48 ≤ c ∧ c ≤ 57 then (c - 48 : Nat)
  else if 65 ≤ c ∧ c ≤ 70 then (c - 65 + 10 : Nat)
  else if 97 ≤ c ∧ c ≤ 102 then (c - 97 + 10 : Nat)
  else -1

/-- The function `fmt_tohex`: the lower-case digit of a value below 16. -/
def fmt_tohex (c : Nat) : Nat :=
  if c ≥ 10 then c - 10 + 97 else c + 48

/-- The function `scanNibble`. -/
def scanNibble (nibble : Nat) : Except Fatal Nat :=
  let ret := scan_fromhex nibble
  if ret < 0 then .error .invalidNibble else .ok (ret.toNat % 256)

/-- The function `scanOctet` on the two bytes `octet[0]`, `octet[1]`. -/
def scanOctet (octet0 octet1 : Nat) : Except Fatal Nat :=
  match scanNibble octet0 with
  | .error e => .error e
  | .ok hi =>
    match scanNibble octet1 with
    | .error e => .error e
    | .ok lo => .ok ((hi <<< 4 ||| lo) % 256)

/-! ## Blob tokens -/

/-- The loop of `bindBlob`: `count` more rounds from `iter`, each reading the
bytes at `2 * iter + 1` and `2 * iter + 2` of the token storage and writing
their octet at `iter` of the same storage. -/
def bindBlobLoop : Nat → Nat → List Nat → Except Fatal (List Nat)
  | 0, _, buf => .ok buf
  | count + 1, iter, buf =>
    match scanOctet (buf.getD (iter * 2 + 1) 0) (buf.getD (iter * 2 + 2) 0) with
    | .error e => .error e
    | .ok octet => bindBlobLoop count (iter + 1) (buf.set iter octet)

/-- The part of `bindBlob` before the bind call: the decoded bytes. -/
def blobValue (token : List Nat) : Except Fatal (List Nat) :=
  if token.length % 2 ≠ 0 then .error .blobLength
  else if token.length < 2 ∨ token.getD (token.length - 1) 0 ≠ 125 then
    .error .noClosingBrace
  else
    let binlen := token.length / 2 - 1
    match bindBlobLoop binlen 0 token with
    | .error e => .error e
    | .ok binary => .ok (binary.take binlen)

/-- The function `bindBlob`. -/
def bindBlob (param : Param) (token : List Nat) : Except Fatal Stmt :=
  match blobValue token with
  | .error e => .error e
  | .ok binary => bindOrDie .bindBlob param (.blob binary)

/-! ## Integer literals (`strtoul`, `strtoll` with base 0) -/

/-- The class `isspace` that `strtoul` and `strtoll` skip. -/
def isspace (c : Nat) : Bool := c == 32 || (decide (9 ≤ c) && decide (c ≤ 13))

/-- The value of a byte as a digit `0-9`, `a-z`, `A-Z`; 36 for any other
byte. -/
def digitValue (c : Nat) : Nat :=
  if 48 ≤ c ∧ c ≤ 57 then c - 48
  else if 97 ≤ c ∧ c ≤ 122 then c - 97 + 10
  else if 65 ≤ c ∧ c ≤ 90 then c - 65 + 10
  else 36

/-- The longest run of digits of `base` at the start of `s`, read onto the
accumulator: the value and the number of digits. -/
def scanDigits (base : Nat) : List Nat → Nat → Nat → Nat × Nat
  | [], acc, n => (acc, n)
  | c :: s, acc, n =>
    if digitValue c < base then scanDigits base s (acc * base + digitValue c) (n + 1)
    else (acc, n)

/-- Whether `s` starts with `0x` or `0X` and a hexadecimal digit. -/
def hexIntro (s : List Nat) : Bool :=
  match s with
  | 48 :: x :: d :: _ => (x == 120 || x == 88) && decide (digitValue d < 16)
  | _ => false

/-- The subject sequence of an integer conversion. -/
structure Scanned where
  negative : Bool
  /-- The value of the digits, unbounded -/
  magnitude : Nat
  /-- The offset of the end pointer; 0 when nothing was converted -/
  stop : Nat
  deriving DecidableEq, Repr

/-- The digits of a conversion with base 0 after white space and sign: the
base from the leading characters, then the longest run of digits; the value
and the number of characters read, 0 when there is no digit. -/
def scanBody (s : List Nat) : Nat × Nat :=
  let base := if hexIntro s then 16 else if s.head? == some 48 then 8 else 10
  let skip := if hexIntro s then 2 else 0
  let r := scanDigits base (s.drop skip) 0 0
  if r.2 = 0 then (0, 0) else (r.1, skip + r.2)

/-- The common part of `strtoul` and `strtoll` with base 0: white space, an
optional sign, the base from the leading characters, the digits. -/
def scanInteger (s : List Nat) : Scanned :=
  let ws := (s.takeWhile isspace).length
  let s1 := s.drop ws
  let negative := s1.head? == some 45
  let sg := if s1.head? == some 45 || s1.head? == some 43 then 1 else 0
  let r := scanBody (s1.drop sg)
  if r.2 = 0 then ⟨negative, 0, 0⟩ else ⟨negative, r.1, ws + sg + r.2⟩

/-- Largest `unsigned long`. -/
def ULONG_MAX : Nat := 2 ^ 64 - 1

/-- Largest `long long`. -/
def LLONG_MAX : Int := 2 ^ 63 - 1

/-- Smallest `long long`. -/
def LLONG_MIN : Int := -(2 ^ 63)

/-- The function `strtoul(s, &end, 0)`: the value, the offset of `end`, and
whether `errno` was set to `ERANGE`. -/
def strtoul (s : List Nat) : Nat × Nat × Bool :=
  let r := scanInteger s
  if r.magnitude > ULONG_MAX then (ULONG_MAX, r.stop, true)
  else if r.negative then ((2 ^ 64 - r.magnitude) % 2 ^ 64, r.stop, false)
  else (r.magnitude, r.stop, false)

/-- The function `strtoll(s, &end, 0)`: the value, the offset of `end`, and
whether `errno` was set to `ERANGE`. -/
def strtoll (s : List Nat) : Int × Nat × Bool :=
  let r := scanInteger s
  if r.negative then
    if (r.magnitude : Int) > 2 ^ 63 then (LLONG_MIN, r.stop, true)
    else (-(r.magnitude : Int), r.stop, false)
  else
    if (r.magnitude : Int) > LLONG_MAX then (LLONG_MAX, r.stop, true)
    else ((r.magnitude : Int), r.stop, false)

/-- Conversion of an `unsigned long` to `int`: the low 32 bits, signed. -/
def toInt32 (n : Nat) : Int :=
  if n % 2 ^ 32 < 2 ^ 31 then (n % 2 ^ 32 : Nat) else (n % 2 ^ 32 : Nat) - 2 ^ 32

/-- The `int` value `~0` converted to `unsigned long` for a comparison. -/
def allOnes : Nat := ((-1 : Int) % 2 ^ 64).toNat

/-! ## Zero blob, numeric and keyword tokens -/

/-- The function `bindZero`. -/
def bindZero (param : Param) (token : List Nat) : Except Fatal Stmt :=
  if token.length < 2 ∨ token.getD (token.length - 1) 0 ≠ 93 then
    .error .noClosingBracket
  else
    let string := token.drop 1
    let length := token.length - 2
    let r := strtoul string
    if r.2.1 ≠ length then .error .invalidZeroLength
    else if r.1 > allOnes then .error .zeroLengthRange
    else bindOrDie .bindZero param (.zeroblob (toInt32 r.1))

/-- The function `bindNumeric`. -/
def bindNumeric (L : Locale) (param : Param) (token : List Nat) : Except Fatal Stmt :=
  let r := strtoll token
  if r.2.1 ≠ token.length then
    let f := L.strtod token
    if f.1 ≠ token.length then .error .invalidNumeric
    else if f.2.1 then .error .floatRange
    else bindOrDie .bindFloat param (.float f.2.2)
  else if r.2.2 then .error .integerRange
  else bindOrDie .bindInteger param (.integer r.1)

/-- The function `str_equal` of libowfat: equality of C strings. -/
def str_equal (a b : List Nat) : Bool := cstr a == cstr b

/-- The function `bindKeyword`. -/
def bindKeyword (param : Param) (token : List Nat) : Except Fatal Stmt :=
  if str_equal token [110, 105, 108] then bindOrDie .bindNull param .null
  else bindOrDie .bindTextValue param (.text token)

/-! ## Quoted text tokens -/

/-- The call `memmove(string + dst, string + src, n)`. -/
def memmove (string : List Nat) (dst src n : Nat) : List Nat :=
  string.take dst ++ ((string.drop src).take n ++ string.drop (dst + n))

/-- The loop of `bindQuoted` over the clipped string, at most `fuel` rounds:
the storage, the pending flag and `head` when `tail` has reached `length`.
Every round moves `tail` forward, so `length` rounds are enough. -/
def bindQuotedLoop (L : Locale) (length : Nat) :
    Nat → List Nat → Bool → Nat → Nat → Except Fatal (List Nat × Bool × Nat)
  | 0, string, quote, head, _ => .ok (string, quote, head)
  | fuel + 1, string, quote, head, tail =>
    if tail < length then
      match extractWide L ((string.drop tail).take (length - tail)) with
      | .error e => .error e
      | .ok (wide, width) =>
        if width = 0 then .error .incompleteInQuoted
        else if quote then
          if wide = 39 then bindQuotedLoop L length fuel string false head (tail + width)
          else .error .unescapedQuote
        else
          bindQuotedLoop L length fuel (memmove string head tail width) (wide == 39)
            (head + width) (tail + width)
    else .ok (string, quote, head)

/-- The function `bindQuoted`. -/
def bindQuoted (L : Locale) (param : Param) (token : List Nat) : Except Fatal Stmt :=
  if token.length < 2 ∨ token.getD (token.length - 1) 0 ≠ 39 then
    .error .noClosingQuote
  else
    let string := token.drop 1
    let length := token.length - 2
    match bindQuotedLoop L length length string false 0 0 with
    | .error e => .error e
    | .ok (string, quote, head) =>
      if quote then .error .unescapedQuote
      else bindOrDie .bindText param (.text (string.take head))

/-! ## Token dispatch -/

/-- The function `bindToken`. -/
def bindToken (L : Locale) (S : Symbols) (param : Param) (token : List Nat) :
    Except Fatal Stmt :=
  match extractWide L token with
  | .error e => .error e
  | .ok (wide, width) =>
    if width = 0 then .error .incompleteAtTokenEnd
    else if wide = 39 then bindQuoted L param token
    else if wide = 123 then bindBlob param token
    else if wide = 91 then bindZero param token
    else if L.iswdigit wide || wide == S.radix || wide == S.psign || wide == S.nsign then
      bindNumeric L param token
    else if L.iswalpha wide then bindKeyword param token
    else .error .unknownToken

/-- The loop of `bindVector` from index `iter` over the entries left. -/
def bindVectorLoop (L : Locale) (S : Symbols) (offset : Nat) :
    List (List Nat) → Nat → Stmt → Except Fatal Stmt
  | [], _, stmt => .ok stmt
  | entry :: vector, iter, stmt =>
    match bindToken L S ⟨stmt, iter + offset + 1⟩ (cstr entry) with
    | .error e => .error e
    | .ok stmt1 => bindVectorLoop L S offset vector (iter + 1) stmt1

/-- The function `bindVector`. -/
def bindVector (L : Locale) (S : Symbols) (stmt : Stmt) (offset : Nat)
    (vector : List (List Nat)) : Except Fatal Stmt :=
  bindVectorLoop L S offset vector 0 stmt

/-! ## Streaming binder -/

/-- The function `buffer_getline_sa` on the bytes left on standard input: the
bytes appended to the buffer (up to and with the first newline), the bytes
left, and whether a newline was found (return value 1, else 0 at end of
input). -/
def getline : List Nat → List Nat × List Nat × Bool
  | [] => ([], [], false)
  | b :: rest =>
    if b = 10 then ([10], rest, true)
    else ((b :: (getline rest).1), (getline rest).2.1, (getline rest).2.2)

/-- The locals of `bindStream` with the buffer `sa` and the statement. -/
structure Scan where
  /-- The bytes `sa->s` of length `sa->len` -/
  string : List Nat
  quote : Bool
  head : Nat
  tail : Nat
  iter : Nat
  stmt : Stmt
  deriving DecidableEq, Repr

/-- The inner loop of `bindStream`, `while (tail < length)`, at most `fuel`
rounds.  Every round of a width other than 0 moves `tail` forward, so `length`
rounds are enough.  A round of width 0 stores nothing in `wide` and adds 0 to
`tail`; the loop has no test for it and goes round again, and the next call
of `mbrtowc`, whose conversion state (the pointer given is `NULL`) holds the
bytes of the cut character, is given the same bytes a second time: it decodes
those bytes repeated.  When it rejects them `extractWide` dies there; when it
does not, no progress is made, the outcome `Halt.stall`.  What the round of
width 0 does with the unset `wide` before that is left out: it can change
`quote` and `head`, and it calls `bindToken` only when the value found in
`wide` is a control or space character while a token is in progress. -/
def scanLine (L : Locale) (S : Symbols) (offset : Nat) : Nat → Scan → Except Halt Scan
  | 0, s => .ok s
  | fuel + 1, s =>
    if s.tail < s.string.length then
      match extractWide L (s.string.drop s.tail) with
      | .error e => .error (.die e)
      | .ok (wide, width) =>
        if width = 0 then
          match L.mbrtowc (s.string.drop s.tail ++ s.string.drop s.tail) with
          | .invalid => .error (.die .invalidMultibyte)
          | _ => .error .stall
        else if s.quote then
          scanLine L S offset fuel
            ⟨s.string, if wide = 39 then false else s.quote, s.head, s.tail + width,
              s.iter, s.stmt⟩
        else if wide = 39 then
          scanLine L S offset fuel ⟨s.string, true, s.head, s.tail + width, s.iter, s.stmt⟩
        else if L.iswcntrl wide || L.iswspace wide then
          if s.head < s.tail then
            let string := s.string.set s.tail 0
            let token := (string.drop s.head).take (s.tail - s.head)
            match bindToken L S ⟨s.stmt, s.iter + 1 + offset⟩ token with
            | .error e => .error (.die e)
            | .ok stmt =>
              scanLine L S offset fuel
                ⟨string, s.quote, s.tail + width, s.tail + width, s.iter + 1, stmt⟩
          else
            scanLine L S offset fuel
              ⟨s.string, s.quote, s.tail + width, s.tail + width, s.iter, s.stmt⟩
        else
          scanLine L S offset fuel
            ⟨s.string, s.quote, s.head, s.tail + width, s.iter, s.stmt⟩
    else .ok s

/-- The outer loop of `bindStream`, `do ... while (ret && quote)`, at most
`fuel` rounds: the value of `ret`, the locals and the input left.  Every round
that is repeated has read a newline, so one round more than there are bytes of
input is enough. -/
def readLines (L : Locale) (S : Symbols) (offset : Nat) :
    Nat → Scan → List Nat → Except Halt (Bool × Scan × List Nat)
  | 0, s, input => .ok (false, s, input)
  | fuel + 1, s, input =>
    let string := s.string ++ (getline input).1
    match scanLine L S offset string.length
        ⟨string, s.quote, s.head, s.tail, s.iter, s.stmt⟩ with
    | .error h => .error h
    | .ok s1 =>
      if (getline input).2.2 && s1.quote then readLines L S offset fuel s1 (getline input).2.1
      else .ok ((getline input).2.2, s1, (getline input).2.1)

/-- The last loop of `bindStream`, `while (iter < number)`: `count` null binds
after `iter`. -/
def padNull (offset : Nat) : Nat → Nat → Stmt → Except Fatal Stmt
  | 0, _, stmt => .ok stmt
  | count + 1, iter, stmt =>
    match bindOrDie .bindNull ⟨stmt, iter + 1 + offset⟩ .null with
    | .error e => .error e
    | .ok stmt1 => padNull offset count (iter + 1) stmt1

/-- The function `bindStream`: the return value, the statement and the input
left. -/
def bindStream (L : Locale) (S : Symbols) (stmt : Stmt) (offset number : Nat)
    (input : List Nat) : Except Halt (Bool × Stmt × List Nat) :=
  match readLines L S offset (input.length + 1) ⟨[], false, 0, 0, 0, stmt⟩ input with
  | .error h => .error h
  | .ok (ret, s, rest) =>
    if s.quote then .error (.die .unmatchedQuote)
    else
      match padNull offset (number - s.iter) s.iter s.stmt with
      | .error e => .error (.die e)
      | .ok stmt1 => .ok (ret, stmt1, rest)

/-! ## Row encoder -/

/-- Decimal digits of a number, most significant first, at most `fuel` of
them. -/
def fmtDigits : Nat → Nat → List Nat
  | 0, _ => []
  | fuel + 1, n => if n < 10 then [n + 48] else fmtDigits fuel (n / 10) ++ [n % 10 + 48]

/-- The function `fmt_ulonglong` of libowfat. -/
def fmt_ulonglong (n : Nat) : List Nat := fmtDigits 20 n

/-- The function `fmt_longlong` of libowfat. -/
def fmt_longlong (v : Int) : List Nat :=
  if v < 0 then 45 :: fmt_ulonglong (-v).toNat else fmt_ulonglong v.toNat

/-- The function `printInteger`: the bytes written. -/
def printInteger (value : Int) : List Nat := fmt_longlong value

/-- The function `printFloat`: the bytes written. -/
def printFloat (L : Locale) (bits : Nat) : List Nat := cstr (L.gcvt bits)

/-- The loop of `printText` over the C string `value`, at most `fuel` rounds:
the bytes written so far and the cursors. -/
def printTextLoop (value : List Nat) : Nat → Nat → Nat → List Nat → List Nat × Nat × Nat
  | 0, head, tail, out => (out, head, tail)
  | fuel + 1, head, tail, out =>
    if value.getD tail 0 ≠ 0 then
      if value.getD tail 0 = 39 then
        printTextLoop value fuel tail (tail + 1)
          (out ++ (value.drop head).take (tail - head) ++ [39])
      else printTextLoop value fuel head (tail + 1) out
    else (out, head, tail)

/-- The function `printText`: the bytes written for the C string `value`. -/
def printText (value : List Nat) : List Nat :=
  let r := printTextLoop value value.length 0 0 [39]
  (if r.2.1 < r.2.2 then r.1 ++ (value.drop r.2.1).take (r.2.2 - r.2.1) else r.1) ++ [39]

/-- The function `printNull`: the bytes `nil`. -/
def printNull : List Nat := [110, 105, 108]

/-- The function `printOctet`. -/
def printOctet (octet : Nat) : List Nat := [fmt_tohex (octet >>> 4), fmt_tohex (octet &&& 15)]

/-- The loop of `printBlob` over the first `length` bytes of `value`. -/
def printBlobLoop : Nat → List Nat → List Nat
  | 0, _ => []
  | _, [] => []
  | length + 1, b :: value => printOctet b ++ printBlobLoop length value

/-- The function `printBlob`. -/
def printBlob (value : List Nat) (length : Nat) : List Nat :=
  [123] ++ printBlobLoop length value ++ [125]

/-- The function `printValue` on a column value; a zero blob is stored as a
blob of that many zero bytes. -/
def printValue (L : Locale) : Value → List Nat
  | .integer v => printInteger v
  | .float bits => printFloat L bits
  | .text bytes => printText bytes
  | .null => printNull
  | .blob bytes => printBlob bytes bytes.length
  | .zeroblob n => printBlob (List.replicate n.toNat 0) n.toNat

/-- The loop of `fetchColumns` from column `col`. -/
def fetchColumnsLoop (L : Locale) : Nat → List Value → List Nat
  | _, [] => []
  | col, v :: row =>
    (if col ≠ 0 then [9] else []) ++ printValue L v ++ fetchColumnsLoop L (col + 1) row

/-- The function `fetchColumns`: one row, tab separated, newline ended. -/
def fetchColumns (L : Locale) (row : List Value) : List Nat :=
  fetchColumnsLoop L 0 row ++ [10]

/-! ## Execution driver -/

/-- The function `fetchRows` on the statement: one execution to exhaustion.
The rows it prints depend on the data base and are left out. -/
def fetchRows (stmt : Stmt) : Stmt := ⟨stmt.needed, stmt.trace ++ [Event.exec]⟩

/-- The call `sqlite3_reset`. -/
def sqlite3_reset (stmt : Stmt) : Stmt := ⟨stmt.needed, stmt.trace ++ [Event.reset]⟩

/-- The loop of `sqlWalk`, `while (bindStream(...))`, at most `fuel` rounds.
Every round that is repeated has read a newline, so one round more than there
are bytes of input is enough. -/
def sqlWalkLoop (L : Locale) (S : Symbols) (number : Nat) :
    Nat → Stmt → List Nat → Except Halt (Stmt × List Nat)
  | 0, stmt, input => .ok (stmt, input)
  | fuel + 1, stmt, input =>
    match bindStream L S stmt number (stmt.needed - number) input with
    | .error h => .error h
    | .ok (ret, stmt1, rest) =>
      if ret then sqlWalkLoop L S number fuel (sqlite3_reset (fetchRows stmt1)) rest
      else .ok (stmt1, rest)

/-- The function `sqlWalk`: the statement and the input left. -/
def sqlWalk (L : Locale) (S : Symbols) (stmt : Stmt) (number : Nat) (input : List Nat) :
    Except Halt (Stmt × List Nat) :=
  if stmt.needed > number then sqlWalkLoop L S number (input.length + 1) stmt input
  else .ok (fetchRows stmt, input)

/-- The function `sqlQuery` on a statement already prepared. -/
def sqlQuery (L : Locale) (S : Symbols) (stmt : Stmt) (vector : List (List Nat))
    (input : List Nat) : Except Halt (Stmt × List Nat) :=
  match bindVector L S stmt 0 vector with
  | .error e => .error (.die e)
  | .ok stmt1 =>
    match sqlWalk L S ⟨stmt1.needed, stmt1.trace ++ [Event.begin]⟩ vector.length input with
    | .error h => .error h
    | .ok (stmt2, rest) =>
      .ok (⟨stmt2.needed, stmt2.trace ++ [Event.finalize, Event.commit]⟩, rest)

/-! ## A concrete locale: UTF-8 with the classes of the C locale -/

/-- Whether a byte is a UTF-8 continuation byte. -/
def isCont (b : Nat) : Bool := decide (128 ≤ b) && decide (b < 192)

/-- The last byte of a UTF-8 sequence of `width` bytes whose bytes before it
give `acc`. -/
def utf8Last (acc width : Nat) : List Nat → MbResult
  | [] => .incomplete
  | b :: _ => if isCont b then .char (acc * 64 + (b - 128)) width else .invalid

/-- A middle byte of a UTF-8 sequence of `width` bytes, `more` bytes before the
last one. -/
def utf8Middle (acc width : Nat) : Nat → List Nat → MbResult
  | 0, s => utf8Last acc width s
  | _ + 1, [] => .incomplete
  | more + 1, b :: rest =>
    if isCont b then utf8Middle (acc * 64 + (b - 128)) width more rest else .invalid

/-- The second byte of a UTF-8 sequence of three or four bytes, which has to
be at least `low` and below `high`. -/
def utf8Second (b0 offset low high width : Nat) : List Nat → MbResult
  | [] => .incomplete
  | b1 :: rest =>
    if low ≤ b1 ∧ b1 < high then
      utf8Middle ((b0 - offset) * 64 + (b1 - 128)) width (width - 3) rest
    else .invalid

/-- The decoder `mbrtowc` of a UTF-8 locale: no overlong forms, no surrogates,
nothing above U+10FFFF. -/
def utf8Decode : List Nat → MbResult
  | [] => .incomplete
  | b0 :: rest =>
    if b0 = 0 then .null
    else if b0 < 128 then .char b0 1
    else if b0 < 194 then .invalid
    else if b0 < 224 then utf8Last (b0 - 192) 2 rest
    else if b0 < 240 then
      utf8Second b0 224 (if b0 = 224 then 160 else 128) (if b0 = 237 then 160 else 192) 3 rest
    else if b0 < 245 then
      utf8Second b0 240 (if b0 = 240 then 144 else 128) (if b0 = 244 then 144 else 192) 4 rest
    else .invalid

/-- The longest run of decimal digits at the start of a string. -/
def decimalRun (s : List Nat) : Nat := (s.takeWhile (fun c => decide (48 ≤ c) && decide (c ≤ 57))).length

/-- The end pointer of `strtod` for decimal literals with `.` as the radix;
the range check and the value are left out (no error, bit pattern 0). -/
def plainStrtod (s : List Nat) : Nat × Bool × Nat :=
  let ws := (s.takeWhile isspace).length
  let s1 := s.drop ws
  let sg := if s1.head? == some 45 || s1.head? == some 43 then 1 else 0
  let s2 := s1.drop sg
  let n1 := decimalRun s2
  let s3 := s2.drop n1
  let dot := if s3.head? == some 46 then 1 else 0
  let n2 := if dot = 1 then decimalRun (s3.drop 1) else 0
  if n1 + n2 = 0 then (0, false, 0)
  else
    let s4 := s3.drop (dot + n2)
    let e := if s4.head? == some 101 || s4.head? == some 69 then 1 else 0
    let s5 := s4.drop e
    let esg := if s5.head? == some 45 || s5.head? == some 43 then 1 else 0
    let n3 := decimalRun (s5.drop esg)
    if e = 1 ∧ n3 ≠ 0 then (ws + sg + n1 + dot + n2 + e + esg + n3, false, 0)
    else (ws + sg + n1 + dot + n2, false, 0)

/-- A UTF-8 locale whose character classes, symbols and number formats are
those of the C locale; the text of a double is not modelled. -/
def utf8 : Locale where
  mbrtowc := utf8Decode
  mbrtowc_nil := rfl
  mbrtowc_width := by
    intro s wide width h
    have last : ∀ (acc n : Nat) (t : List Nat), utf8Last acc n t = MbResult.char wide width →
        width = n ∧ 1 ≤ t.length := by
      intro acc n t ht
      cases t with
      | nil => cases ht
      | cons b t =>
        simp only [utf8Last] at ht
        split at ht
        · injection ht with h1 h2
          exact ⟨h2.symm, by simp⟩
        · cases ht
    have middle : ∀ (more acc n : Nat) (t : List Nat),
        utf8Middle acc n more t = MbResult.char wide width →
        width = n ∧ more + 1 ≤ t.length := by
      intro more
      induction more with
      | zero =>
        intro acc n t ht
        simp only [utf8Middle] at ht
        exact last acc n t ht
      | succ more ih =>
        intro acc n t ht
        cases t with
        | nil => cases ht
        | cons b t =>
          simp only [utf8Middle] at ht
          split at ht
          · have := ih _ n t ht
            exact ⟨this.1, by simp; omega⟩
          · cases ht
    have second : ∀ (b0 offset low high n : Nat) (t : List Nat),
        utf8Second b0 offset low high n t = MbResult.char wide width →
        width = n ∧ n - 3 + 2 ≤ t.length := by
      intro b0 offset low high n t ht
      cases t with
      | nil => cases ht
      | cons b t =>
        simp only [utf8Second] at ht
        split at ht
        · have := middle _ _ n t ht
          exact ⟨this.1, by simp; omega⟩
        · cases ht
    cases s with
    | nil => cases h
    | cons b0 rest =>
      simp only [utf8Decode] at h
      split_ifs at h
      all_goals first
        | (injection h with h1 h2
           subst h2
           simp)
        | (have h9 := last _ _ _ h
           simp only [List.length_cons]
           omega)
        | (have h9 := second _ _ _ _ _ _ h
           simp only [List.length_cons]
           omega)
  iswdigit := fun c => decide (48 ≤ c) && decide (c ≤ 57)
  iswalpha := fun c => (decide (65 ≤ c) && decide (c ≤ 90)) || (decide (97 ≤ c) && decide (c ≤ 122))
  iswcntrl := fun c => decide (c < 32) || c == 127
  iswspace := fun c => c == 32 || (decide (9 ≤ c) && decide (c ≤ 13))
  decimal_point := [46]
  positive_sign := []
  negative_sign := []
  strtod := plainStrtod
  gcvt := fun _ => []

/-! ## Reference notions the properties are stated with -/

/-- A hexadecimal digit, upper or lower case. -/
def IsHexDigit (c : Nat) : Prop :=
  (48 ≤ c ∧ c ≤ 57) ∨ (65 ≤ c ∧ c ≤ 70) ∨ (97 ≤ c ∧ c ≤ 102)

instance (c : Nat) : Decidable (IsHexDigit c) := by
  unfold IsHexDigit
  infer_instance

/-- The value of a hexadecimal digit. -/
def hexDigit (c : Nat) : Nat :=
  if c ≤ 57 then c - 48 else if c ≤ 70 then c - 55 else c - 87

/-- A digit with `A-F` replaced by `a-f`. -/
def lowerHex (c : Nat) : Nat :=
  if 65 ≤ c ∧ c ≤ 70 then c + 32 else c

/-- The characters of a byte string, each with the bytes that encode it, read
one after the other with `extractWide`, at most `fuel` of them; `none` when
some position holds no complete valid character. -/
def decodeCharsAux (L : Locale) : Nat → List Nat → Option (List (Nat × List Nat))
  | 0, _ => some []
  | fuel + 1, s =>
    if s = [] then some []
    else
      match extractWide L s with
      | .error _ => none
      | .ok (wide, width) =>
        if width = 0 then none
        else
          match decodeCharsAux L fuel (s.drop width) with
          | none => none
          | some chars => some ((wide, s.take width) :: chars)

/-- The characters of a byte string made of complete valid characters. -/
def decodeChars (L : Locale) (s : List Nat) : Option (List (Nat × List Nat)) :=
  decodeCharsAux L s.length s

/-- Every quote in a run of characters is one half of a doubled pair. -/
def quotesPaired : List Nat → Bool
  | [] => true
  | wide :: rest =>
    if wide = 39 then
      match rest with
      | [] => false
      | next :: rest2 => next == 39 && quotesPaired rest2
    else quotesPaired rest

/-- The bytes of a run of characters with the second quote of each doubled
pair left out. -/
def collapseQuotes : List (Nat × List Nat) → List Nat
  | [] => []
  | (wide, bytes) :: rest =>
    if wide = 39 then
      match rest with
      | [] => bytes
      | _ :: rest2 => bytes ++ collapseQuotes rest2
    else bytes ++ collapseQuotes rest

/-- A text with every quote byte doubled. -/
def doubleQuotes : List Nat → List Nat
  | [] => []
  | b :: rest => if b = 39 then 39 :: 39 :: doubleQuotes rest else b :: doubleQuotes rest

/-- The normalized quoting of a text: an opening quote, the text with every
quote doubled, a closing quote. -/
def normalQuote (value : List Nat) : List Nat := 39 :: doubleQuotes value ++ [39]

/-- The quote character of the locale is the single byte 39, and that byte
is part of no other character. -/
def QuoteIsByte (L : Locale) : Prop :=
  ∀ s wide width, extractWide L s = .ok (wide, width) → width ≠ 0 →
    (wide = 39 → s.take width = [39]) ∧ (wide ≠ 39 → 39 ∉ s.take width)

/-- The sign of an integer literal. -/
inductive Sign where
  | none
  | plus
  | minus
  deriving DecidableEq, Repr

/-- The three forms of an integer literal: decimal, octal (a leading `0`) and
hexadecimal (a leading `0x` or `0X`). -/
inductive LitForm where
  | decimal
  | octal
  | hexLower
  | hexUpper
  deriving DecidableEq, Repr

/-- An integer literal: optional sign, form, and the digits after the
leading characters of the form. -/
structure IntLiteral where
  sign : Sign
  form : LitForm
  digits : List Nat
  deriving DecidableEq, Repr

/-- The radix of a form. -/
def LitForm.radix : LitForm → Nat
  | .decimal => 10
  | .octal => 8
  | .hexLower => 16
  | .hexUpper => 16

/-- The leading characters of a form. -/
def LitForm.intro : LitForm → List Nat
  | .decimal => []
  | .octal => [48]
  | .hexLower => [48, 120]
  | .hexUpper => [48, 88]

/-- The characters of a sign. -/
def Sign.text : Sign → List Nat
  | .none => []
  | .plus => [43]
  | .minus => [45]

/-- The token text of a literal. -/
def IntLiteral.text (lit : IntLiteral) : List Nat :=
  lit.sign.text ++ (lit.form.intro ++ lit.digits)

/-- The digits fit the form: a decimal literal has a first digit other than
`0`, an octal literal has octal digits after its `0` (none for the literal
`0`), a hexadecimal literal has at least one digit. -/
def IntLiteral.WellFormed (lit : IntLiteral) : Prop :=
  match lit.form with
  | .decimal => lit.digits ≠ [] ∧ lit.digits.head? ≠ some 48 ∧
      ∀ c ∈ lit.digits, 48 ≤ c ∧ c ≤ 57
  | .octal => ∀ c ∈ lit.digits, 48 ≤ c ∧ c ≤ 55
  | .hexLower => lit.digits ≠ [] ∧ ∀ c ∈ lit.digits, IsHexDigit c
  | .hexUpper => lit.digits ≠ [] ∧ ∀ c ∈ lit.digits, IsHexDigit c

instance (lit : IntLiteral) : Decidable lit.WellFormed := by
  unfold IntLiteral.WellFormed
  split <;> infer_instance

/-- The number a run of digits denotes in a radix. -/
def digitsValue (radix : Nat) (digits : List Nat) : Nat :=
  digits.foldl (fun acc c => acc * radix + hexDigit c) 0

/-- The value of a literal. -/
def IntLiteral.value (lit : IntLiteral) : Int :=
  match lit.sign with
  | .minus => -(digitsValue lit.form.radix lit.digits : Int)
  | _ => (digitsValue lit.form.radix lit.digits : Int)

/-- The statement after one more bind call. -/
def bound (stmt : Stmt) (index : Nat) (v : Value) : Stmt :=
  ⟨stmt.needed, stmt.trace ++ [Event.bind index v]⟩

/-- The value a token stands for: what bindToken binds to the only slot of a
statement with one parameter. -/
def tokenValue (L : Locale) (S : Symbols) (token : List Nat) : Except Fatal Value :=
  match bindToken L S ⟨⟨1, []⟩, 1⟩ token with
  | .error e => .error e
  | .ok stmt =>
    match stmt.trace with
    | [Event.bind _ v] => .ok v
    | _ => .error .unknownToken

/-- The bind calls of a run of values on consecutive slots from `first`. -/
def bindEvents (first : Nat) : List Value → List Event
  | [] => []
  | v :: vs => Event.bind first v :: bindEvents (first + 1) vs

/-- The bind calls that set `count` consecutive slots from `first` to null. -/
def nullEvents (first count : Nat) : List Event :=
  bindEvents first (List.replicate count Value.null)

/-- The bytes of a run of characters, each given with its value and the bytes
that encode it. -/
def bytesOf : List (Nat × List Nat) → List Nat
  | [] => []
  | c :: cs => c.2 ++ bytesOf cs

/-- The bytes `c.2` are one complete character of value `c.1` whatever
follows them, and the newline byte is part of no other character than the
newline. -/
def ValidChar (L : Locale) (c : Nat × List Nat) : Prop :=
  c.2 ≠ [] ∧ (10 ∈ c.2 → c.2 = [10]) ∧
    ∀ rest, extractWide L (c.2 ++ rest) = .ok (c.1, c.2.length)

/-- The characters of a string of bytes below 128, one byte each. -/
def ascii (s : List Nat) : List (Nat × List Nat) := s.map (fun b => (b, [b]))

/-- The stream lexer on one character, after section 4.9 of the
specification: inside a quote a quote ends it; outside, a quote opens one, a
control or space character ends the token in progress, any other character
joins it.  The new quote flag, the bytes of the token in progress, and the
token that was completed, if any. -/
def lexChar (L : Locale) (quote : Bool) (pending : List Nat) (c : Nat × List Nat) :
    Bool × List Nat × Option (List Nat) :=
  if quote then (if c.1 = 39 then false else true, pending ++ c.2, none)
  else if c.1 = 39 then (true, pending ++ c.2, none)
  else if L.iswcntrl c.1 || L.iswspace c.1 then
    (false, [], if pending = [] then none else some pending)
  else (false, pending ++ c.2, none)

/-- The stream lexer over a run of characters: the completed tokens in
order, the quote flag and the token in progress at the end. -/
def lexChars (L : Locale) : Bool → List Nat → List (Nat × List Nat) →
    List (List Nat) × Bool × List Nat
  | quote, pending, [] => ([], quote, pending)
  | quote, pending, c :: cs =>
    match (lexChar L quote pending c).2.2 with
    | none => lexChars L (lexChar L quote pending c).1 (lexChar L quote pending c).2.1 cs
    | some t =>
      (t :: (lexChars L (lexChar L quote pending c).1 (lexChar L quote pending c).2.1 cs).1,
        (lexChars L (lexChar L quote pending c).1 (lexChar L quote pending c).2.1 cs).2)

/-- What the lexer makes of one record. -/
structure Lexed where
  /-- The completed tokens in order -/
  tokens : List (List Nat)
  /-- Whether a quote is open where the record ends -/
  quote : Bool
  /-- The bytes of a token in progress where the record ends -/
  pending : List Nat
  /-- Whether the record ended at a newline (else at the end of input) -/
  ret : Bool
  /-- The characters after the record -/
  rest : List (Nat × List Nat)
  deriving DecidableEq, Repr

/-- A record with one more token in front. -/
def Lexed.push (t : Option (List Nat)) (r : Lexed) : Lexed :=
  match t with
  | none => r
  | some t => ⟨t :: r.tokens, r.quote, r.pending, r.ret, r.rest⟩

/-- The stream lexer over one record, after section 4.9 of the
specification: characters are read up to the first newline met while no
quote is open, or to the end of input. -/
def lexRecord (L : Locale) : Bool → List Nat → List (Nat × List Nat) → Lexed
  | quote, pending, [] => ⟨[], quote, pending, false, []⟩
  | quote, pending, c :: cs =>
    Lexed.push (lexChar L quote pending c).2.2
      (if c.2 = [10] ∧ (lexChar L quote pending c).1 = false then
        ⟨[], false, (lexChar L quote pending c).2.1, true, cs⟩
      else lexRecord L (lexChar L quote pending c).1 (lexChar L quote pending c).2.1 cs)

/-- Binding a run of tokens to the slots after `iter`, in order. -/
def bindTokens (L : Locale) (S : Symbols) (offset : Nat) :
    List (List Nat) → Nat → Stmt → Except Fatal Stmt
  | [], _, stmt => .ok stmt
  | t :: ts, iter, stmt =>
    match bindToken L S ⟨stmt, iter + 1 + offset⟩ t with
    | .error e => .error e
    | .ok stmt1 => bindTokens L S offset ts (iter + 1) stmt1

/-- The stream source, after section 4.9 of the specification, on input made
of complete characters: the tokens of one record are bound in order, an open
quote at the end is fatal, the slots left are set to null. -/
def streamRecord (L : Locale) (S : Symbols) (stmt : Stmt) (offset number : Nat)
    (cs : List (Nat × List Nat)) : Except Halt (Bool × Stmt × List Nat) :=
  match bindTokens L S offset (lexRecord L false [] cs).tokens 0 stmt with
  | .error e => .error (.die e)
  | .ok stmt1 =>
    if (lexRecord L false [] cs).quote then .error (.die .unmatchedQuote)
    else
      match padNull offset (number - (lexRecord L false [] cs).tokens.length)
          (lexRecord L false [] cs).tokens.length stmt1 with
      | .error e => .error (.die e)
      | .ok stmt2 =>
        .ok ((lexRecord L false [] cs).ret, stmt2, bytesOf (lexRecord L false [] cs).rest)

/-- A token of the input with the value it stands for and the blank
characters that follow it. -/
structure Field where
  token : List (Nat × List Nat)
  value : Value
  gap : List (Nat × List Nat)
  deriving DecidableEq, Repr

/-- A line of input: blank characters, then fields. -/
structure Line where
  lead : List (Nat × List Nat)
  fields : List Field
  deriving DecidableEq, Repr

/-- The characters of a run of fields. -/
def fieldsChars : List Field → List (Nat × List Nat)
  | [] => []
  | f :: fs => f.token ++ (f.gap ++ fieldsChars fs)

/-- The characters of a line. -/
def Line.chars (l : Line) : List (Nat × List Nat) := l.lead ++ fieldsChars l.fields

/-- The characters of a run of lines. -/
def linesChars : List Line → List (Nat × List Nat)
  | [] => []
  | l :: ls => l.chars ++ linesChars ls

/-- A control or space character that is not the quote. -/
def isGapChar (L : Locale) (c : Nat × List Nat) : Bool :=
  c.1 != 39 && (L.iswcntrl c.1 || L.iswspace c.1)

/-- A character that is no quote, control or space character. -/
def isPlainChar (L : Locale) (c : Nat × List Nat) : Bool :=
  c.1 != 39 && !(L.iswcntrl c.1 || L.iswspace c.1)

/-- A field is a non-empty unquoted token that stands for its value, followed
by at least one blank character. -/
def Field.Ok (L : Locale) (S : Symbols) (f : Field) : Prop :=
  f.token ≠ [] ∧ (∀ c ∈ f.token, isPlainChar L c = true) ∧
    f.gap ≠ [] ∧ (∀ c ∈ f.gap, isGapChar L c = true) ∧
    tokenValue L S (bytesOf f.token) = .ok f.value

instance (L : Locale) (S : Symbols) (f : Field) : Decidable (f.Ok L S) := by
  unfold Field.Ok
  infer_instance

/-- A line of whitespace-separated unquoted tokens. -/
def Line.Ok (L : Locale) (S : Symbols) (l : Line) : Prop :=
  (∀ c ∈ l.lead, isGapChar L c = true) ∧ ∀ f ∈ l.fields, f.Ok L S

instance (L : Locale) (S : Symbols) (l : Line) : Decidable (l.Ok L S) := by
  unfold Line.Ok
  infer_instance

/-- The line ends with a newline and has no other. -/
def Line.Ended (l : Line) : Prop :=
  (l.chars.getLast?.map Prod.snd) = some [10] ∧ ∀ c ∈ l.chars.dropLast, c.2 ≠ [10]

instance (l : Line) : Decidable l.Ended := by
  unfold Line.Ended
  infer_instance

/-- The line has no newline. -/
def Line.Open (l : Line) : Prop := ∀ c ∈ l.chars, c.2 ≠ [10]

instance (l : Line) : Decidable l.Open := by
  unfold Line.Open
  infer_instance

/-- The values of the fields of a line. -/
def Line.values (l : Line) : List Value := l.fields.map Field.value

/-- The engine calls of one record that is executed: its binds on the slots
after `number`, the execution, the reset. -/
def recordEvents (number : Nat) (l : Line) : List Event :=
  bindEvents (number + 1) l.values ++ [Event.exec, Event.reset]

/-- The engine calls of a run of records that are executed. -/
def walkEvents (number : Nat) : List Line → List Event
  | [] => []
  | l :: ls => recordEvents number l ++ walkEvents number ls

/-- The locals of `bindStream` stand for a lexer state: the buffer is some
bytes done with, the token in progress from `head` to `tail`, and the bytes
`rest` not yet read. -/
def Scan.Stands (s : Scan) (rest : List Nat) (quote : Bool) (pending : List Nat)
    (iter : Nat) (stmt : Stmt) : Prop :=
  ∃ done, s.string = done ++ (pending ++ rest) ∧ s.head = done.length ∧
    s.tail = done.length + pending.length ∧
    s.quote = quote ∧ s.iter = iter ∧ s.stmt = stmt

/-- A token that is no blob literal: its length is odd or below 2, its last
byte is not the closing brace, or a byte between its first and its last is no
hexadecimal digit. -/
def BlobMalformed (token : List Nat) : Prop :=
  token.length % 2 = 1 ∨ token.length < 2 ∨ token.getLast? ≠ some 125 ∨
    ∃ c ∈ (token.drop 1).take (token.length - 2), ¬ IsHexDigit c

instance (token : List Nat) : Decidable (BlobMalformed token) := by
  unfold BlobMalformed
  infer_instance

/-- The parsers a token can be handed to, and none of them. -/
inductive TokenClass where
  | quoted
  | blob
  | zero
  | numeric
  | keyword
  | unknown
  deriving DecidableEq, Repr

/-- The token classifier, after section 4.2 of the specification: the parser
chosen for the first character of a token. -/
def classify (L : Locale) (S : Symbols) (wide : Nat) : TokenClass :=
  if wide = 39 then .quoted
  else if wide = 123 then .blob
  else if wide = 91 then .zero
  else if L.iswdigit wide = true ∨ wide = S.radix ∨ wide = S.psign ∨ wide = S.nsign then
    .numeric
  else if L.iswalpha wide = true then .keyword
  else .unknown

/-- The parser of a class on a token; no parser is the fatal "unknown
token". -/
def parse (L : Locale) (cls : TokenClass) (param : Param) (token : List Nat) :
    Except Fatal Stmt :=
  match cls with
  | .quoted => bindQuoted L param token
  | .blob => bindBlob param token
  | .zero => bindZero param token
  | .numeric => bindNumeric L param token
  | .keyword => bindKeyword param token
  | .unknown => .error .unknownToken

/-- The locale reads every byte from 1 to 127 as the character of that
number, whatever follows it, knows the ten digits as digits, and the letter
`n` as a letter and no digit. -/
def Locale.Ascii (L : Locale) : Prop :=
  (∀ b rest, 1 ≤ b → b < 128 → L.mbrtowc (b :: rest) = MbResult.char b 1) ∧
  (∀ c, 48 ≤ c → c ≤ 57 → L.iswdigit c = true) ∧
  L.iswdigit 110 = false ∧ L.iswalpha 110 = true

/-- The column values the row encoder writes back as a token of the same
value: null, an integer of 64 bits, a text of complete characters without NUL
byte, a blob. -/
def Value.Plain (L : Locale) : Value → Prop
  | .null => True
  | .integer v => LLONG_MIN ≤ v ∧ v ≤ LLONG_MAX
  | .text bytes => 0 ∉ bytes ∧ ∃ cs, bytes = bytesOf cs ∧ ∀ c ∈ cs, ValidChar L c
  | .blob bytes => ∀ b ∈ bytes, b < 256
  | .float _ => False
  | .zeroblob _ => False

/-- The cursor `tail` after one round of the scanning loop of `bindStream`
that runs to its end: `width = extractWide(&wide, string + tail, length -
tail)` and then `tail += width`. -/
def nextTail (L : Locale) (s : Scan) : Except Fatal Nat :=
  match extractWide L (s.string.drop s.tail) with
  | .error e => .error e
  | .ok (_, width) => .ok (s.tail + width)

/-- The diagnostic with which the parser of an unquoted token dies when the
engine refuses the bind call for the value of the token: "Failed to bind null
value", "... integer value", "... floating-point value", "... text value",
"... blob", "... zero blob". -/
def refusal : Value → Fatal
  | .null => .bindNull
  | .integer _ => .bindInteger
  | .float _ => .bindFloat
  | .text _ => .bindTextValue
  | .blob _ => .bindBlob
  | .zeroblob _ => .bindZero

/-! # Properties -/

/-! ## Blob tokens -/

theorem hexDigit_lt (c : Nat) (h : IsHexDigit c) : hexDigit c < 16 := by
  unfold IsHexDigit at h
  unfold hexDigit
  split_ifs <;> omega

theorem scan_fromhex_hex (c : Nat) (h : IsHexDigit c) : scan_fromhex c = (hexDigit c : Int) := by
  unfold IsHexDigit at h
  unfold scan_fromhex hexDigit
  split_ifs <;> omega

theorem scanNibble_hex (c : Nat) (h : IsHexDigit c) : scanNibble c = .ok (hexDigit c) := by
  have h1 := hexDigit_lt c h
  unfold scanNibble
  rw [scan_fromhex_hex c h]
  have h2 : ¬ ((hexDigit c : Int) < 0) := by omega
  simp only [h2, if_false, Int.toNat_ofNat]
  congr 1
  omega

theorem octet_arith : ∀ hi < 16, ∀ lo < 16, (hi <<< 4 ||| lo) % 256 = 16 * hi + lo := by
  decide

theorem scanOctet_hex (a b : Nat) (ha : IsHexDigit a) (hb : IsHexDigit b) :
    scanOctet a b = .ok (16 * hexDigit a + hexDigit b) := by
  unfold scanOctet
  rw [scanNibble_hex a ha, scanNibble_hex b hb]
  simp only []
  rw [octet_arith _ (hexDigit_lt a ha) _ (hexDigit_lt b hb)]

theorem getD_set_ne (buf : List Nat) (i j v : Nat) (h : j ≠ i) :
    (buf.set i v).getD j 0 = buf.getD j 0 := by
  simp [List.getD_eq_getElem?_getD, List.getElem?_set, Ne.symm h]

theorem getD_set_self (buf : List Nat) (i v : Nat) (h : i < buf.length) :
    (buf.set i v).getD i 0 = v := by
  simp [List.getD_eq_getElem?_getD, List.getElem?_set, h]

/-- The in-place loop: when the storage from `iter` on still holds the token,
the rounds left decode it, leave what was written before and keep the
length. -/
theorem bindBlobLoop_spec (orig : List Nat) (n : Nat)
    (hlen : 2 * n + 2 ≤ orig.length)
    (hdig : ∀ j, 1 ≤ j → j ≤ 2 * n → IsHexDigit (orig.getD j 0)) :
    ∀ count iter buf, iter + count = n → buf.length = orig.length →
      (∀ j, iter ≤ j → buf.getD j 0 = orig.getD j 0) →
      ∃ out, bindBlobLoop count iter buf = .ok out ∧ out.length = orig.length ∧
        (∀ j, j < iter → out.getD j 0 = buf.getD j 0) ∧
        (∀ j, iter ≤ j → j < n →
          out.getD j 0 = 16 * hexDigit (orig.getD (2 * j + 1) 0)
            + hexDigit (orig.getD (2 * j + 2) 0)) := by
  intro count
  induction count with
  | zero =>
    intro iter buf hn hl _
    refine ⟨buf, rfl, hl, fun _ _ => rfl, ?_⟩
    intro j h1 h2
    omega
  | succ count ih =>
    intro iter buf hn hl hun
    unfold bindBlobLoop
    have e1 : buf.getD (iter * 2 + 1) 0 = orig.getD (2 * iter + 1) 0 := by
      rw [hun _ (by omega)]; congr 1; omega
    have e2 : buf.getD (iter * 2 + 2) 0 = orig.getD (2 * iter + 2) 0 := by
      rw [hun _ (by omega)]; congr 1; omega
    rw [e1, e2, scanOctet_hex _ _ (hdig _ (by omega) (by omega)) (hdig _ (by omega) (by omega))]
    simp only []
    obtain ⟨out, ho, hol, hlow, hhi⟩ := ih (iter + 1)
      (buf.set iter (16 * hexDigit (orig.getD (2 * iter + 1) 0)
        + hexDigit (orig.getD (2 * iter + 2) 0))) (by omega)
      (by simpa using hl)
      (fun j hj => by rw [getD_set_ne buf iter j _ (by omega)]; exact hun j (by omega))
    refine ⟨out, ho, hol, ?_, ?_⟩
    · intro j hj
      rw [hlow j (by omega), getD_set_ne buf iter j _ (by omega)]
    · intro j h1 h2
      by_cases hj : j = iter
      · subst hj
        rw [hlow j (by omega), getD_set_self buf j _ (by omega)]
      · exact hhi j (by omega) h2

/-- The bytes a token of hexadecimal digits between two bytes decodes to. -/
theorem blobValue_hex (open_ : Nat) (h : List Nat) (n : Nat) (hlen : h.length = 2 * n)
    (hdig : ∀ c ∈ h, IsHexDigit c) :
    ∃ bytes, blobValue (open_ :: h ++ [125]) = .ok bytes ∧ bytes.length = n ∧
      ∀ i, i < n → bytes.getD i 0
        = 16 * hexDigit (h.getD (2 * i) 0) + hexDigit (h.getD (2 * i + 1) 0) := by
  have hl : (open_ :: h ++ [125]).length = 2 * n + 2 := by simp [hlen]
  have hget : ∀ j, 1 ≤ j → j ≤ 2 * n → (open_ :: h ++ [125]).getD j 0 = h.getD (j - 1) 0 := by
    intro j h1 h2
    obtain ⟨k, rfl⟩ : ∃ k, j = k + 1 := ⟨j - 1, by omega⟩
    have hk : k < h.length := by omega
    simp [List.getD_eq_getElem?_getD, List.getElem?_append_left hk]
  have hd : ∀ j, 1 ≤ j → j ≤ 2 * n → IsHexDigit ((open_ :: h ++ [125]).getD j 0) := by
    intro j h1 h2
    rw [hget j h1 h2]
    have hk : j - 1 < h.length := by omega
    rw [List.getD_eq_getElem?_getD, List.getElem?_eq_getElem hk]
    exact hdig _ (List.getElem_mem hk)
  obtain ⟨out, ho, hol, -, hhi⟩ := bindBlobLoop_spec (open_ :: h ++ [125]) n (by omega) hd
    n 0 (open_ :: h ++ [125]) (by omega) rfl (fun _ _ => rfl)
  have hlast : (open_ :: h ++ [125]).getD ((open_ :: h ++ [125]).length - 1) 0 = 125 := by
    rw [hl]
    have : 2 * n + 2 - 1 = h.length + 1 := by omega
    rw [this]
    simp [List.getD_eq_getElem?_getD]
  unfold blobValue
  rw [hlast, hl]
  have h1 : (2 * n + 2) % 2 = 0 := by omega
  have h2 : (2 * n + 2) / 2 - 1 = n := by omega
  have h3 : ¬ (2 * n + 2 < 2) := by omega
  simp only [h1, h2, h3, ne_eq, not_true_eq_false, if_false, or_self]
  rw [ho]
  refine ⟨out.take n, rfl, ?_, ?_⟩
  · simp; omega
  · intro i hi
    have := hhi i (Nat.zero_le _) hi
    rw [hget _ (by omega) (by omega), hget _ (by omega) (by omega)] at this
    have e : (out.take n).getD i 0 = out.getD i 0 := by
      simp [List.getD_eq_getElem?_getD, List.getElem?_take, hi]
    rw [e, this]
    congr 2


theorem bindOrDie_ok (e : Fatal) (param : Param) (v : Value) (hlo : 1 ≤ param.index)
    (hhi : param.index ≤ param.stmt.needed) :
    bindOrDie e param v = .ok (bound param.stmt param.index v) := by
  simp [bindOrDie, sqlite3_bind, hlo, hhi, bound]

theorem list_eq_of_getD (a b : List Nat) (hl : a.length = b.length)
    (h : ∀ i, i < a.length → a.getD i 0 = b.getD i 0) : a = b := by
  apply List.ext_getElem hl
  intro i h1 h2
  have := h i h1
  simpa [List.getD_eq_getElem?_getD, List.getElem?_eq_getElem h1,
    List.getElem?_eq_getElem h2] using this

theorem nibbles_of_octet : ∀ x < 16, ∀ y < 16,
    (16 * x + y) >>> 4 = x ∧ (16 * x + y) &&& 15 = y := by
  decide

theorem fmt_tohex_hexDigit (c : Nat) (h : IsHexDigit c) : fmt_tohex (hexDigit c) = lowerHex c := by
  unfold IsHexDigit at h
  unfold fmt_tohex hexDigit lowerHex
  split_ifs <;> omega

set_option maxRecDepth 4096 in
theorem octet_of_nibbles : ∀ b < 256,
    16 * hexDigit (fmt_tohex (b >>> 4)) + hexDigit (fmt_tohex (b &&& 15)) = b := by
  decide

set_option maxRecDepth 4096 in
theorem fmt_tohex_isHex : ∀ b < 256,
    IsHexDigit (fmt_tohex (b >>> 4)) ∧ IsHexDigit (fmt_tohex (b &&& 15)) := by
  decide

theorem printBlobLoop_decoded : ∀ (n : Nat) (bytes h : List Nat), h.length = 2 * n →
    bytes.length = n → (∀ c ∈ h, IsHexDigit c) →
    (∀ i, i < n → bytes.getD i 0
      = 16 * hexDigit (h.getD (2 * i) 0) + hexDigit (h.getD (2 * i + 1) 0)) →
    printBlobLoop n bytes = h.map lowerHex := by
  intro n
  induction n with
  | zero =>
    intro bytes h hl hb _ _
    have : h = [] := List.eq_nil_of_length_eq_zero (by omega)
    subst this
    simp [printBlobLoop]
  | succ n ih =>
    intro bytes h hl hb hdig hval
    match bytes, h, hl, hb with
    | b :: bt, a :: c :: ht, hl, hb =>
      have ha : IsHexDigit a := hdig a (by simp)
      have hc : IsHexDigit c := hdig c (by simp)
      have h0 := hval 0 (by omega)
      simp only [List.getD_cons_zero, Nat.mul_zero, Nat.zero_add, List.getD_cons_succ] at h0
      have hn := nibbles_of_octet _ (hexDigit_lt a ha) _ (hexDigit_lt c hc)
      unfold printBlobLoop printOctet
      rw [h0, hn.1, hn.2, fmt_tohex_hexDigit a ha, fmt_tohex_hexDigit c hc]
      rw [ih bt ht (by simp at hl; omega) (by simp at hb; omega)
        (fun x hx => hdig x (by simp [hx]))
        (fun i hi => by
          have := hval (i + 1) (by omega)
          simpa [Nat.mul_add, List.getD_cons_succ] using this)]
      simp

theorem printBlobLoop_hex : ∀ (bytes : List Nat), (∀ b ∈ bytes, b < 256) →
    (printBlobLoop bytes.length bytes).length = 2 * bytes.length ∧
    (∀ c ∈ printBlobLoop bytes.length bytes, IsHexDigit c) ∧
    ∀ i, i < bytes.length →
      16 * hexDigit ((printBlobLoop bytes.length bytes).getD (2 * i) 0)
        + hexDigit ((printBlobLoop bytes.length bytes).getD (2 * i + 1) 0) = bytes.getD i 0 := by
  intro bytes
  induction bytes with
  | nil => intro _; simp [printBlobLoop]
  | cons b bt ih =>
    intro hb
    obtain ⟨i1, i2, i3⟩ := ih (fun x hx => hb x (by simp [hx]))
    have hb0 : b < 256 := hb b (by simp)
    have hx := fmt_tohex_isHex b hb0
    simp only [List.length_cons, printBlobLoop, printOctet, List.cons_append, List.nil_append]
    refine ⟨by simp [i1]; omega, ?_, ?_⟩
    · intro c hc
      simp only [List.mem_cons] at hc
      rcases hc with rfl | rfl | hc
      · exact hx.1
      · exact hx.2
      · exact i2 c hc
    · intro i hi
      cases i with
      | zero => simpa using octet_of_nibbles b hb0
      | succ i =>
        have := i3 i (by omega)
        simpa [Nat.mul_add, List.getD_cons_succ] using this


/-- C3: for every token made of an opening brace, 2n hexadecimal digits h
(either case) and a closing brace, bindBlob binds a blob of exactly n bytes
whose i-th byte is 16 * hex(h[2i]) + hex(h[2i+1]); the loop decodes over the
storage of the token itself, round i writing position i after reading
positions 2i+1 and 2i+2. -/
theorem bindBlob_decodes (h : List Nat) (n : Nat) (param : Param)
    (hlen : h.length = 2 * n) (hdig : ∀ c ∈ h, IsHexDigit c)
    (hlo : 1 ≤ param.index) (hhi : param.index ≤ param.stmt.needed) :
    ∃ bytes, bindBlob param (123 :: h ++ [125])
        = .ok (bound param.stmt param.index (.blob bytes)) ∧
      bytes.length = n ∧
      ∀ i, i < n → bytes.getD i 0
        = 16 * hexDigit (h.getD (2 * i) 0) + hexDigit (h.getD (2 * i + 1) 0) := by
  obtain ⟨bytes, hv, hl, hb⟩ := blobValue_hex 123 h n hlen hdig
  refine ⟨bytes, ?_, hl, hb⟩
  unfold bindBlob
  rw [hv]
  exact bindOrDie_ok _ _ _ hlo hhi

/-- C3 at the token `{0A}` on a statement with one parameter. -/
theorem bindBlob_decodes_witness :
    ([48, 65] : List Nat).length = 2 * 1 ∧ (∀ c ∈ ([48, 65] : List Nat), IsHexDigit c) ∧
    ∃ bytes, bindBlob ⟨⟨1, []⟩, 1⟩ (123 :: [48, 65] ++ [125])
        = .ok (bound ⟨1, []⟩ 1 (.blob bytes)) ∧
      bytes.length = 1 ∧
      ∀ i, i < 1 → bytes.getD i 0
        = 16 * hexDigit (([48, 65] : List Nat).getD (2 * i) 0)
          + hexDigit (([48, 65] : List Nat).getD (2 * i + 1) 0) :=
  ⟨rfl, by decide,
    bindBlob_decodes [48, 65] 1 ⟨⟨1, []⟩, 1⟩ rfl (by decide) (by decide) (by decide)⟩

/-- C10: decoding a token of an even number of hexadecimal digits h between
braces and encoding the bytes with printBlob gives h between braces with A-F
in lower case; and decoding what printBlob writes for any bytes gives back
those bytes. -/
theorem blob_roundtrip (h : List Nat) (n : Nat) (value : List Nat) (param : Param)
    (hlen : h.length = 2 * n) (hdig : ∀ c ∈ h, IsHexDigit c)
    (hval : ∀ b ∈ value, b < 256)
    (hlo : 1 ≤ param.index) (hhi : param.index ≤ param.stmt.needed) :
    (∃ bytes, bindBlob param (123 :: h ++ [125])
        = .ok (bound param.stmt param.index (.blob bytes)) ∧
      printBlob bytes bytes.length = 123 :: h.map lowerHex ++ [125]) ∧
    bindBlob param (printBlob value value.length)
      = .ok (bound param.stmt param.index (.blob value)) := by
  constructor
  · obtain ⟨bytes, hv, hl, hb⟩ := blobValue_hex 123 h n hlen hdig
    refine ⟨bytes, ?_, ?_⟩
    · unfold bindBlob
      rw [hv]
      exact bindOrDie_ok _ _ _ hlo hhi
    · unfold printBlob
      rw [hl, printBlobLoop_decoded n bytes h hlen hl hdig hb]
      simp
  · obtain ⟨p1, p2, p3⟩ := printBlobLoop_hex value hval
    obtain ⟨bytes, hv, hl, hb⟩ :=
      blobValue_hex 123 (printBlobLoop value.length value) value.length p1 p2
    have e : bytes = value := by
      apply list_eq_of_getD _ _ hl
      intro i hi
      rw [hb i (by omega), p3 i (by omega)]
    subst e
    unfold bindBlob printBlob
    have e2 : [123] ++ printBlobLoop bytes.length bytes ++ [125]
        = 123 :: printBlobLoop bytes.length bytes ++ [125] := by simp
    rw [e2, hv]
    exact bindOrDie_ok _ _ _ hlo hhi

/-- C10 at the digits `0A` and the bytes 10, 255. -/
theorem blob_roundtrip_witness :
    ([48, 65] : List Nat).length = 2 * 1 ∧ (∀ c ∈ ([48, 65] : List Nat), IsHexDigit c) ∧
    (∀ b ∈ ([10, 255] : List Nat), b < 256) ∧
    ((∃ bytes, bindBlob ⟨⟨1, []⟩, 1⟩ (123 :: [48, 65] ++ [125])
        = .ok (bound ⟨1, []⟩ 1 (.blob bytes)) ∧
      printBlob bytes bytes.length = 123 :: ([48, 65] : List Nat).map lowerHex ++ [125]) ∧
    bindBlob ⟨⟨1, []⟩, 1⟩ (printBlob [10, 255] ([10, 255] : List Nat).length)
      = .ok (bound ⟨1, []⟩ 1 (.blob [10, 255]))) :=
  ⟨rfl, by decide, by decide,
    blob_roundtrip [48, 65] 1 [10, 255] ⟨⟨1, []⟩, 1⟩ rfl (by decide) (by decide)
      (by decide) (by decide)⟩


/-! ## Integer tokens -/
theorem scanDigits_run (base : Nat) : ∀ (ds rest : List Nat) (acc n : Nat),
    (∀ c ∈ ds, digitValue c < base ∧ digitValue c = hexDigit c) →
    (∀ c, rest.head? = some c → ¬ digitValue c < base) →
    scanDigits base (ds ++ rest) acc n
      = (ds.foldl (fun a c => a * base + hexDigit c) acc, n + ds.length) := by
  intro ds
  induction ds with
  | nil =>
    intro rest acc n _ hr
    cases rest with
    | nil => simp [scanDigits]
    | cons c rest =>
      have := hr c rfl
      simp [scanDigits, this]
  | cons d ds ih =>
    intro rest acc n hd hr
    have h1 := hd d (by simp)
    have e : scanDigits base (d :: ds ++ rest) acc n
        = scanDigits base (ds ++ rest) (acc * base + digitValue d) (n + 1) := by
      simp [scanDigits, h1.1]
    rw [e, ih rest _ _ (fun c hc => hd c (by simp [hc])) hr, h1.2]
    simp only [List.foldl_cons, List.length_cons]
    congr 1
    omega

theorem digitValue_dec (c : Nat) (h : 48 ≤ c ∧ c ≤ 57) :
    digitValue c < 10 ∧ digitValue c = hexDigit c := by
  unfold digitValue hexDigit
  split_ifs <;> omega

theorem digitValue_oct (c : Nat) (h : 48 ≤ c ∧ c ≤ 55) :
    digitValue c < 8 ∧ digitValue c = hexDigit c := by
  unfold digitValue hexDigit
  split_ifs <;> omega

theorem digitValue_hex (c : Nat) (h : IsHexDigit c) :
    digitValue c < 16 ∧ digitValue c = hexDigit c := by
  unfold IsHexDigit at h
  unfold digitValue hexDigit
  split_ifs <;> omega

/-- The digits of a well-formed literal are read to the end. -/
theorem scanBody_literal (form : LitForm) (digits : List Nat)
    (hwf : (IntLiteral.mk Sign.none form digits).WellFormed) :
    scanBody (form.intro ++ digits)
      = (digitsValue form.radix digits, (form.intro ++ digits).length) ∧
    ∃ d rest, form.intro ++ digits = d :: rest ∧ 48 ≤ d ∧ d ≤ 57 := by
  unfold IntLiteral.WellFormed at hwf
  cases form
  · simp only at hwf
    obtain ⟨hne, h0, hd⟩ := hwf
    obtain ⟨d, ds, rfl⟩ := List.exists_cons_of_ne_nil hne
    have hd0 := hd d (by simp)
    have hd48 : d ≠ 48 := by simpa using h0
    have hrun := scanDigits_run 10 (d :: ds) [] 0 0 (fun c hc => digitValue_dec c (hd c hc))
      (by simp)
    simp only [List.append_nil] at hrun
    have hx : hexIntro (d :: ds) = false := by
      unfold hexIntro
      split
      · rename_i heq; simp at heq; omega
      · rfl
    refine ⟨?_, d, ds, rfl, hd0⟩
    simp [scanBody, LitForm.intro, LitForm.radix, hx, hd48, hrun, digitsValue]
  · simp only at hwf
    have hrun := scanDigits_run 8 (48 :: digits) [] 0 0
      (fun c hc => digitValue_oct c (by
        simp only [List.mem_cons] at hc
        rcases hc with rfl | hc
        · omega
        · exact hwf c hc))
      (by simp)
    simp only [List.append_nil] at hrun
    have hx : hexIntro (48 :: digits) = false := by
      unfold hexIntro
      split
      · rename_i x d t heq
        simp at heq
        have := hwf x (by simp [heq])
        simp; omega
      · rfl
    refine ⟨?_, 48, digits, rfl, by omega, by omega⟩
    simp [scanBody, LitForm.intro, LitForm.radix, hx, hrun, digitsValue, hexDigit]
  · simp only at hwf
    obtain ⟨hne, hd⟩ := hwf
    obtain ⟨d, ds, rfl⟩ := List.exists_cons_of_ne_nil hne
    have hrun := scanDigits_run 16 (d :: ds) [] 0 0 (fun c hc => digitValue_hex c (hd c hc))
      (by simp)
    simp only [List.append_nil] at hrun
    have hx : hexIntro (48 :: 120 :: d :: ds) = true := by
      simp [hexIntro, (digitValue_hex d (hd d (by simp))).1]
    refine ⟨?_, 48, 120 :: d :: ds, rfl, by omega, by omega⟩
    simp [scanBody, LitForm.intro, LitForm.radix, hx, hrun, digitsValue]
    omega
  · simp only at hwf
    obtain ⟨hne, hd⟩ := hwf
    obtain ⟨d, ds, rfl⟩ := List.exists_cons_of_ne_nil hne
    have hrun := scanDigits_run 16 (d :: ds) [] 0 0 (fun c hc => digitValue_hex c (hd c hc))
      (by simp)
    simp only [List.append_nil] at hrun
    have hx : hexIntro (48 :: 88 :: d :: ds) = true := by
      simp [hexIntro, (digitValue_hex d (hd d (by simp))).1]
    refine ⟨?_, 48, 88 :: d :: ds, rfl, by omega, by omega⟩
    simp [scanBody, LitForm.intro, LitForm.radix, hx, hrun, digitsValue]
    omega

theorem wellFormed_sign (lit : IntLiteral) (hwf : lit.WellFormed) :
    (IntLiteral.mk Sign.none lit.form lit.digits).WellFormed := by
  unfold IntLiteral.WellFormed at hwf ⊢
  exact hwf

/-- The conversion of the text of a well-formed literal reads all of it. -/
theorem scanInteger_literal (lit : IntLiteral) (hwf : lit.WellFormed) :
    scanInteger lit.text
      = ⟨decide (lit.sign = Sign.minus), digitsValue lit.form.radix lit.digits,
          lit.text.length⟩ := by
  obtain ⟨hb, d, rest, hcons, hd1, hd2⟩ :=
    scanBody_literal lit.form lit.digits (wellFormed_sign lit hwf)
  have hsp : isspace d = false := by
    unfold isspace; simp; omega
  have hd45 : d ≠ 45 := by omega
  have hd43 : d ≠ 43 := by omega
  have hlen : (lit.form.intro ++ lit.digits).length ≠ 0 := by rw [hcons]; simp
  obtain ⟨sign, form, digits⟩ := lit
  simp only at hb hcons hlen
  have hr : digitsValue form.radix digits
      = digitsValue (IntLiteral.mk sign form digits).form.radix
          (IntLiteral.mk sign form digits).digits := rfl
  rw [← hr]
  simp only [IntLiteral.text]
  generalize form.intro ++ digits = body at hb hcons hlen
  subst hcons
  cases sign
  · simp only [Sign.text, List.nil_append, scanInteger]
    simp [List.takeWhile, hsp, hd45, hd43, hb]
  · simp only [Sign.text, scanInteger]
    simp [List.takeWhile, isspace, hb]
    omega
  · simp only [Sign.text, scanInteger]
    simp [List.takeWhile, isspace, hb]
    omega

/-- C4: for every token that is in its entirety an integer literal, bindNumeric
binds the integer equal to the value of the literal when that value lies in
[-2^63, 2^63 - 1] and is fatal with the range diagnosis otherwise; it binds
no other value and does not turn to the floating-point parse. -/
theorem bindNumeric_integer (L : Locale) (lit : IntLiteral) (param : Param)
    (hwf : lit.WellFormed) (hlo : 1 ≤ param.index) (hhi : param.index ≤ param.stmt.needed) :
    bindNumeric L param lit.text
      = if LLONG_MIN ≤ lit.value ∧ lit.value ≤ LLONG_MAX then
          .ok (bound param.stmt param.index (.integer lit.value))
        else .error .integerRange := by
  have hs := scanInteger_literal lit hwf
  have hb := bindOrDie_ok Fatal.bindInteger param
  unfold bindNumeric strtoll
  rw [hs]
  simp only [LLONG_MAX, LLONG_MIN, IntLiteral.value]
  cases hsg : lit.sign <;>
    simp only [decide_False, decide_True, Bool.false_eq_true, if_false, if_true,
      reduceCtorEq] <;>
    split_ifs <;> (try dsimp only at *) <;>
    first
      | omega
      | exact hb _ hlo hhi
      | contradiction


/-- C4 at the literal 9223372036854775808, one past the largest value: the
token is fatal with the range diagnosis. -/
theorem bindNumeric_integer_witness :
    (IntLiteral.mk Sign.none LitForm.decimal
        [57, 50, 50, 51, 51, 55, 50, 48, 51, 54, 56, 53, 52, 55, 55, 53, 56, 48, 56]).WellFormed ∧
    bindNumeric utf8 ⟨⟨1, []⟩, 1⟩
        (IntLiteral.mk Sign.none LitForm.decimal
          [57, 50, 50, 51, 51, 55, 50, 48, 51, 54, 56, 53, 52, 55, 55, 53, 56, 48, 56]).text
      = if LLONG_MIN ≤ (IntLiteral.mk Sign.none LitForm.decimal
              [57, 50, 50, 51, 51, 55, 50, 48, 51, 54, 56, 53, 52, 55, 55, 53, 56, 48,
                56]).value ∧
            (IntLiteral.mk Sign.none LitForm.decimal
              [57, 50, 50, 51, 51, 55, 50, 48, 51, 54, 56, 53, 52, 55, 55, 53, 56, 48,
                56]).value ≤ LLONG_MAX then
          .ok (bound ⟨1, []⟩ 1 (.integer (IntLiteral.mk Sign.none LitForm.decimal
              [57, 50, 50, 51, 51, 55, 50, 48, 51, 54, 56, 53, 52, 55, 55, 53, 56, 48,
                56]).value))
        else .error .integerRange :=
  ⟨by decide,
    bindNumeric_integer utf8 _ ⟨⟨1, []⟩, 1⟩ (by decide) (by decide) (by decide)⟩

/-! ## Zero blob tokens -/

theorem strtoul_le (s : List Nat) : (strtoul s).1 ≤ allOnes := by
  have ha : allOnes = 2 ^ 64 - 1 := by decide
  unfold strtoul
  simp only [ULONG_MAX]
  split_ifs <;> simp only [ha] <;> omega

/-- C5, the code at the token `[4294967301]` (2^32 + 5): bindZero binds a zero
blob of the wrapped length 5 instead of dying with "length out of range"; and
for no token at all does bindZero end with that diagnosis, because the
comparison `binlen > ~0` is made at the width of `unsigned long`, where no
value exceeds the right-hand side. -/
theorem bindZero_wraps_length :
    bindZero ⟨⟨1, []⟩, 1⟩ [91, 52, 50, 57, 52, 57, 54, 55, 51, 48, 49, 93]
      = .ok (bound ⟨1, []⟩ 1 (.zeroblob 5)) ∧
    ∀ (param : Param) (token : List Nat),
      bindZero param token ≠ .error .zeroLengthRange := by
  refine ⟨by rfl, ?_⟩
  intro param token
  unfold bindZero
  have h := strtoul_le (token.drop 1)
  have h2 : ¬ ((strtoul (token.drop 1)).1 > allOnes) := by omega
  simp only [h2, if_false]
  unfold bindOrDie
  split_ifs <;> try simp
  split <;> simp


/-! ## Quoted text tokens -/

theorem extractWide_width (L : Locale) (s : List Nat) (wide width : Nat) (hs : s ≠ [])
    (h : extractWide L s = .ok (wide, width)) : width ≤ s.length := by
  unfold extractWide at h
  split at h
  · injection h with h; injection h with h1 h2; omega
  · cases h
  · injection h with h; injection h with h1 h2
    have : 0 < s.length := List.length_pos.mpr hs
    omega
  · rename_i w wd heq
    injection h with h; injection h with h1 h2
    have := (L.mbrtowc_width s w wd heq).2
    omega

theorem decodeCharsAux_fuel (L : Locale) : ∀ (fuel : Nat) (s : List Nat), s.length ≤ fuel →
    decodeCharsAux L fuel s = decodeCharsAux L s.length s := by
  intro fuel
  induction fuel using Nat.strong_induction_on with
  | _ fuel ih =>
    intro s hs
    cases s with
    | nil => cases fuel <;> simp [decodeCharsAux]
    | cons b t =>
      obtain ⟨f, rfl⟩ : ∃ f, fuel = f + 1 := ⟨fuel - 1, by simp at hs; omega⟩
      simp only [List.length_cons, decodeCharsAux]
      simp only [reduceCtorEq, if_false]
      cases hx : extractWide L (b :: t) with
      | error e => rfl
      | ok r =>
        obtain ⟨wide, width⟩ := r
        simp only
        by_cases hw : width = 0
        · simp [hw]
        · simp only [hw, if_false]
          have hl : ((b :: t).drop width).length ≤ t.length := by
            simp only [List.length_drop, List.length_cons]; omega
          rw [ih f (by omega) _ (by simp at hs; omega), ih t.length (by simp at hs; omega) _ hl]

theorem decodeChars_nil (L : Locale) : decodeChars L [] = some [] := by
  simp [decodeChars, decodeCharsAux]

/-- One step of decoding. -/
theorem decodeChars_step (L : Locale) (s : List Nat) (hs : s ≠ []) :
    decodeChars L s =
      match extractWide L s with
      | .error _ => none
      | .ok (wide, width) =>
        if width = 0 then none
        else
          match decodeChars L (s.drop width) with
          | none => none
          | some chars => some ((wide, s.take width) :: chars) := by
  obtain ⟨b, t, rfl⟩ := List.exists_cons_of_ne_nil hs
  unfold decodeChars
  simp only [List.length_cons, decodeCharsAux, reduceCtorEq, if_false]
  cases hx : extractWide L (b :: t) with
  | error e => rfl
  | ok r =>
    obtain ⟨wide, width⟩ := r
    simp only
    by_cases hw : width = 0
    · simp [hw]
    · simp only [hw, if_false]
      have hl : ((b :: t).drop width).length ≤ t.length := by
        simp only [List.length_drop, List.length_cons]; omega
      rw [decodeCharsAux_fuel L t.length _ hl]

theorem decodeChars_nil_inv (L : Locale) (s : List Nat) (h : decodeChars L s = some []) :
    s = [] := by
  by_contra hs
  rw [decodeChars_step L s hs] at h
  split at h
  · cases h
  · split at h
    · cases h
    · split at h <;> cases h

theorem decodeChars_cons_inv (L : Locale) (s : List Nat) (w : Nat) (b : List Nat)
    (cs : List (Nat × List Nat)) (h : decodeChars L s = some ((w, b) :: cs)) :
    ∃ width, extractWide L s = .ok (w, width) ∧ width ≠ 0 ∧ width ≤ s.length ∧
      b = s.take width ∧ decodeChars L (s.drop width) = some cs := by
  have hs : s ≠ [] := by
    rintro rfl
    rw [decodeChars_nil] at h
    cases h
  rw [decodeChars_step L s hs] at h
  split at h
  · cases h
  · rename_i wide width hx
    split at h
    · cases h
    · rename_i hw
      split at h
      · cases h
      · rename_i chars hc
        injection h with h
        injection h with h1 h2
        injection h1 with h3 h4
        subst h3 h4 h2
        exact ⟨width, hx, hw, extractWide_width L s _ _ hs hx, rfl, hc⟩

theorem memmove_length (string : List Nat) (head tail width : Nat) (h1 : head ≤ tail)
    (h2 : tail + width ≤ string.length) :
    (memmove string head tail width).length = string.length := by
  simp only [memmove, List.length_append, List.length_take, List.length_drop]
  omega

theorem memmove_take (string : List Nat) (head tail width : Nat) (h1 : head ≤ tail)
    (h2 : tail + width ≤ string.length) :
    (memmove string head tail width).take (head + width)
      = string.take head ++ (string.drop tail).take width := by
  unfold memmove
  rw [← List.append_assoc]
  have hl : (string.take head ++ (string.drop tail).take width).length = head + width := by
    simp only [List.length_append, List.length_take, List.length_drop]; omega
  exact List.take_left' hl

theorem memmove_drop (string : List Nat) (head tail width : Nat) (h1 : head ≤ tail)
    (h2 : tail + width ≤ string.length) :
    (memmove string head tail width).drop (tail + width) = string.drop (tail + width) := by
  unfold memmove
  rw [← List.append_assoc]
  have hl : (string.take head ++ (string.drop tail).take width).length = head + width := by
    simp only [List.length_append, List.length_take, List.length_drop]; omega
  have e : tail + width = (head + width) + (tail - head) := by omega
  rw [e, ← List.drop_drop, List.drop_left' hl, List.drop_drop]

theorem window_length (string : List Nat) (length tail : Nat) (h : length ≤ string.length) :
    ((string.drop tail).take (length - tail)).length = length - tail := by
  simp only [List.length_take, List.length_drop]
  omega

theorem window_drop (string : List Nat) (length tail width : Nat) :
    ((string.drop tail).take (length - tail)).drop width
      = (string.drop (tail + width)).take (length - (tail + width)) := by
  rw [List.drop_take, List.drop_drop]
  congr 1
  omega

theorem window_take (string : List Nat) (length tail width : Nat)
    (h : width ≤ length - tail) :
    ((string.drop tail).take (length - tail)).take width = (string.drop tail).take width := by
  rw [List.take_take]
  congr 1
  omega

theorem quotesPaired_other (w : Nat) (rest : List Nat) (h : w ≠ 39) :
    quotesPaired (w :: rest) = quotesPaired rest := by
  rw [quotesPaired.eq_def]
  simp only [h, if_false]

theorem collapseQuotes_other (w : Nat) (b : List Nat) (rest : List (Nat × List Nat))
    (h : w ≠ 39) : collapseQuotes ((w, b) :: rest) = b ++ collapseQuotes rest := by
  rw [collapseQuotes.eq_def]
  simp only [h, if_false]

/-- The loop of bindQuoted from a state with no quote pending, over the
characters left in the clipped string. -/
theorem bindQuotedLoop_spec (L : Locale) (length : Nat) :
    ∀ (n : Nat) (chars : List (Nat × List Nat)), chars.length ≤ n →
    ∀ (fuel : Nat) (string : List Nat) (head tail : Nat),
      head ≤ tail → tail ≤ length → length ≤ string.length → length - tail ≤ fuel →
      decodeChars L ((string.drop tail).take (length - tail)) = some chars →
      (quotesPaired (chars.map Prod.fst) = true →
        ∃ string1, bindQuotedLoop L length fuel string false head tail
            = .ok (string1, false, head + (collapseQuotes chars).length) ∧
          string1.take (head + (collapseQuotes chars).length)
            = string.take head ++ collapseQuotes chars) ∧
      (quotesPaired (chars.map Prod.fst) = false →
        bindQuotedLoop L length fuel string false head tail = .error .unescapedQuote ∨
        ∃ string1 head1, bindQuotedLoop L length fuel string false head tail
            = .ok (string1, true, head1)) := by
  intro n
  induction n with
  | zero =>
    intro chars hn fuel string head tail h1 h2 h3 h4 hdec
    have : chars = [] := List.eq_nil_of_length_eq_zero (by omega)
    subst this
    have hs := decodeChars_nil_inv L _ hdec
    have hl := window_length string length tail h3
    rw [hs] at hl
    simp only [List.length_nil] at hl
    have ht : ¬ tail < length := by omega
    constructor
    · intro _
      refine ⟨string, ?_, by simp [collapseQuotes]⟩
      cases fuel <;> simp [bindQuotedLoop, ht, collapseQuotes]
    · intro hq
      simp [quotesPaired] at hq
  | succ n ih =>
    intro chars hn fuel string head tail h1 h2 h3 h4 hdec
    cases chars with
    | nil =>
      exact ih [] (by simp) fuel string head tail h1 h2 h3 h4 hdec
    | cons c cs =>
      obtain ⟨w, b⟩ := c
      obtain ⟨width, hx, hw, hwl, hb, hcs⟩ := decodeChars_cons_inv L _ w b cs hdec
      have hl := window_length string length tail h3
      rw [hl] at hwl
      have ht : tail < length := by omega
      obtain ⟨f, rfl⟩ : ∃ f, fuel = f + 1 := ⟨fuel - 1, by omega⟩
      have hwin := window_drop string length tail width
      have hbt : b = (string.drop tail).take width := by
        rw [hb, window_take string length tail width hwl]
      have hblen : b.length = width := by
        rw [hbt]; simp only [List.length_take, List.length_drop]; omega
      have hml := memmove_length string head tail width h1 (by omega)
      have hmt := memmove_take string head tail width h1 (by omega)
      have hmd := memmove_drop string head tail width h1 (by omega)
      have hstep : bindQuotedLoop L length (f + 1) string false head tail
          = bindQuotedLoop L length f (memmove string head tail width) (w == 39)
              (head + width) (tail + width) := by
        rw [bindQuotedLoop]
        simp only [ht, if_true, hx, hw, if_false, Bool.false_eq_true]
      rw [hstep]
      have hcs1 : decodeChars L
          (((memmove string head tail width).drop (tail + width)).take
            (length - (tail + width))) = some cs := by
        rw [hmd, ← hwin]; exact hcs
      by_cases hq : w = 39
      · -- a quote: the next character decides
        subst hq
        simp only [beq_self_eq_true, List.map_cons]
        cases cs with
        | nil =>
          have hs := decodeChars_nil_inv L _ hcs1
          have hl2 := window_length (memmove string head tail width) length (tail + width)
            (by omega)
          rw [hs] at hl2
          simp only [List.length_nil] at hl2
          have ht2 : ¬ tail + width < length := by omega
          constructor
          · intro hp
            simp [quotesPaired] at hp
          · intro _
            right
            refine ⟨memmove string head tail width, head + width, ?_⟩
            cases f <;> simp [bindQuotedLoop, ht2]
        | cons c2 cs2 =>
          obtain ⟨w2, b2⟩ := c2
          obtain ⟨width2, hx2, hw2, hwl2, hb2, hcs2⟩ :=
            decodeChars_cons_inv L _ w2 b2 cs2 hcs1
          have hl2 := window_length (memmove string head tail width) length (tail + width)
            (by omega)
          rw [hl2] at hwl2
          have ht2 : tail + width < length := by omega
          obtain ⟨g, rfl⟩ : ∃ g, f = g + 1 := ⟨f - 1, by omega⟩
          by_cases hq2 : w2 = 39
          · subst hq2
            have hstep2 : bindQuotedLoop L length (g + 1) (memmove string head tail width)
                true (head + width) (tail + width)
                = bindQuotedLoop L length g (memmove string head tail width) false
                    (head + width) (tail + width + width2) := by
              rw [bindQuotedLoop]
              simp only [ht2, if_true, hx2, hw2, if_false]
            rw [hstep2]
            have hwin2 := window_drop (memmove string head tail width) length (tail + width)
              width2
            obtain ⟨ih1, ih2⟩ := ih cs2 (by simp at hn; omega) g
              (memmove string head tail width) (head + width) (tail + width + width2)
              (by omega) (by omega) (by omega) (by omega) (by rw [← hwin2]; exact hcs2)
            have hp : quotesPaired (39 :: 39 :: cs2.map Prod.fst)
                = quotesPaired (cs2.map Prod.fst) := by
              simp [quotesPaired]
            have hc : collapseQuotes ((39, b) :: (39, b2) :: cs2)
                = b ++ collapseQuotes cs2 := by
              simp [collapseQuotes]
            simp only [List.map_cons]
            rw [hp, hc]
            constructor
            · intro hpp
              obtain ⟨string1, e1, e2⟩ := ih1 hpp
              refine ⟨string1, ?_, ?_⟩
              · rw [e1]; simp only [List.length_append, hblen]
                congr 3; omega
              · have e3 : head + (b ++ collapseQuotes cs2).length
                    = head + width + (collapseQuotes cs2).length := by
                  simp only [List.length_append, hblen]; omega
                rw [e3, e2, hmt, hbt, List.append_assoc]
            · intro hpp
              exact ih2 hpp
          · have hstep2 : bindQuotedLoop L length (g + 1) (memmove string head tail width)
                true (head + width) (tail + width) = .error .unescapedQuote := by
              rw [bindQuotedLoop]
              simp only [ht2, if_true, hx2, hw2, if_false, hq2]
            rw [hstep2]
            constructor
            · intro hp
              simp [quotesPaired, hq2] at hp
            · intro _
              left; rfl
      · -- any other character is kept
        have hbeq : (w == 39) = false := by simpa using hq
        rw [hbeq]
        obtain ⟨ih1, ih2⟩ := ih cs (by simp at hn; omega) f
          (memmove string head tail width) (head + width) (tail + width)
          (by omega) (by omega) (by omega) (by omega) hcs1
        have hp : quotesPaired (((w, b) :: cs).map Prod.fst)
            = quotesPaired (cs.map Prod.fst) := quotesPaired_other w _ hq
        have hc : collapseQuotes ((w, b) :: cs) = b ++ collapseQuotes cs :=
          collapseQuotes_other w b cs hq
        rw [hp, hc]
        constructor
        · intro hpp
          obtain ⟨string1, e1, e2⟩ := ih1 hpp
          refine ⟨string1, ?_, ?_⟩
          · rw [e1]; simp only [List.length_append, hblen]
            congr 3; omega
          · have e3 : head + (b ++ collapseQuotes cs).length
                = head + width + (collapseQuotes cs).length := by
              simp only [List.length_append, hblen]; omega
            rw [e3, e2, hmt, hbt, List.append_assoc]
        · intro hpp
          exact ih2 hpp

theorem getLast_eq_getD (token : List Nat) (h : token ≠ []) :
    token.getLast? = some (token.getD (token.length - 1) 0) := by
  have hl : token.length - 1 < token.length := by
    have := List.length_pos.mpr h
    omega
  rw [List.getLast?_eq_getElem?, List.getD_eq_getElem?_getD, List.getElem?_eq_getElem hl]
  rfl

/-- What bindQuoted does with a token whose interior decodes to `chars`. -/
theorem bindQuoted_chars (L : Locale) (param : Param) (token : List Nat)
    (chars : List (Nat × List Nat))
    (hchars : decodeChars L ((token.drop 1).take (token.length - 2)) = some chars) :
    bindQuoted L param token
      = if token.length < 2 ∨ token.getLast? ≠ some 39 then .error .noClosingQuote
        else if quotesPaired (chars.map Prod.fst) then
          bindOrDie .bindText param (.text (collapseQuotes chars))
        else .error .unescapedQuote := by
  unfold bindQuoted
  by_cases hlen : token.length < 2
  · simp [hlen]
  · have hne : token ≠ [] := by
      rintro rfl
      simp at hlen
    rw [getLast_eq_getD token hne]
    by_cases hq : token.getD (token.length - 1) 0 = 39
    · have c1 : ¬ (token.length < 2 ∨ token.getD (token.length - 1) 0 ≠ 39) := by
        rintro (h | h)
        · exact hlen h
        · exact h hq
      have c2 : ¬ (token.length < 2 ∨ some (token.getD (token.length - 1) 0) ≠ some 39) := by
        rintro (h | h)
        · exact hlen h
        · exact h (by rw [hq])
      rw [if_neg c1, if_neg c2]
      dsimp only
      obtain ⟨p1, p2⟩ := bindQuotedLoop_spec L (token.length - 2) chars.length chars
        (Nat.le_refl _) (token.length - 2) (token.drop 1) 0 0 (Nat.le_refl _) (Nat.zero_le _)
        (by simp; omega) (by omega) (by simpa using hchars)
      cases hp : quotesPaired (chars.map Prod.fst)
      · rcases p2 hp with e | ⟨string1, head1, e⟩
        · rw [e]; simp
        · rw [e]; simp
      · obtain ⟨string1, e1, e2⟩ := p1 hp
        rw [e1]
        simp only [Bool.false_eq_true, if_false, if_true, e2, List.take_zero, List.nil_append]
    · have c1 : (token.length < 2 ∨ token.getD (token.length - 1) 0 ≠ 39) := Or.inr hq
      have c2 : (token.length < 2 ∨ some (token.getD (token.length - 1) 0) ≠ some 39) := by
        right
        intro h
        injection h with h
        exact hq h
      rw [if_pos c1, if_pos c2]

/-- C2: for every token whose interior (the bytes between the first and the
last) is made of complete valid characters, bindQuoted succeeds exactly when
the token has at least 2 bytes, ends with a quote and every quote of the
interior is one half of a doubled pair; it then binds as text the interior
with each pair collapsed to one quote, the length being that of the
compacted bytes.  A token with no closing quote is fatal with "No single
quotation mark at end of text", a lone quote in the interior with
"Unescaped quotation mark inside quoted text". -/
theorem bindQuoted_spec (L : Locale) (param : Param) (token : List Nat)
    (chars : List (Nat × List Nat))
    (hchars : decodeChars L ((token.drop 1).take (token.length - 2)) = some chars)
    (hlo : 1 ≤ param.index) (hhi : param.index ≤ param.stmt.needed) :
    bindQuoted L param token
      = if token.length < 2 ∨ token.getLast? ≠ some 39 then .error .noClosingQuote
        else if quotesPaired (chars.map Prod.fst) then
          .ok (bound param.stmt param.index (.text (collapseQuotes chars)))
        else .error .unescapedQuote := by
  rw [bindQuoted_chars L param token chars hchars, bindOrDie_ok _ _ _ hlo hhi]

/-- C2 at the token `'it''s'` in the UTF-8 locale: the text `it's` is bound. -/
theorem bindQuoted_spec_witness :
    decodeChars utf8 ((([39, 105, 116, 39, 39, 115, 39] : List Nat).drop 1).take
        (([39, 105, 116, 39, 39, 115, 39] : List Nat).length - 2))
      = some [(105, [105]), (116, [116]), (39, [39]), (39, [39]), (115, [115])] ∧
    bindQuoted utf8 ⟨⟨1, []⟩, 1⟩ [39, 105, 116, 39, 39, 115, 39]
      = if ([39, 105, 116, 39, 39, 115, 39] : List Nat).length < 2
            ∨ ([39, 105, 116, 39, 39, 115, 39] : List Nat).getLast? ≠ some 39 then
          .error .noClosingQuote
        else if quotesPaired
            (([(105, [105]), (116, [116]), (39, [39]), (39, [39]), (115, [115])] :
              List (Nat × List Nat)).map Prod.fst) then
          .ok (bound ⟨1, []⟩ 1 (.text (collapseQuotes
            [(105, [105]), (116, [116]), (39, [39]), (39, [39]), (115, [115])])))
        else .error .unescapedQuote :=
  ⟨by rfl, bindQuoted_spec utf8 ⟨⟨1, []⟩, 1⟩ [39, 105, 116, 39, 39, 115, 39] _ (by rfl)
    (by decide) (by decide)⟩



/-! ## Text encoder and the round trip of quoted text -/

theorem getD_drop_cons (value : List Nat) (tail : Nat) (h : tail < value.length) :
    value.drop tail = value.getD tail 0 :: value.drop (tail + 1) := by
  rw [List.getD_eq_getElem?_getD, List.getElem?_eq_getElem h]
  simp

theorem take_succ_drop (value : List Nat) (head tail : Nat) (h1 : head ≤ tail)
    (h2 : tail < value.length) :
    (value.drop head).take (tail + 1 - head)
      = (value.drop head).take (tail - head) ++ [value.getD tail 0] := by
  have e : tail + 1 - head = (tail - head) + 1 := by omega
  have hl : tail - head < (value.drop head).length := by
    simp only [List.length_drop]; omega
  rw [e, List.take_succ, List.getElem?_eq_getElem hl]
  simp only [Option.toList_some, List.getElem_drop]
  rw [List.getD_eq_getElem?_getD, List.getElem?_eq_getElem h2]
  simp only [Option.getD_some]
  congr 3
  omega

/-- The loop of printText followed by the last flush: what is written is the
output so far, the pending segment and the rest with its quotes doubled. -/
theorem printTextLoop_spec (value : List Nat) (hnul : 0 ∉ value) :
    ∀ (fuel head tail : Nat) (out : List Nat), head ≤ tail → tail ≤ value.length →
      value.length - tail ≤ fuel →
      (if (printTextLoop value fuel head tail out).2.1
            < (printTextLoop value fuel head tail out).2.2 then
          (printTextLoop value fuel head tail out).1
            ++ (value.drop (printTextLoop value fuel head tail out).2.1).take
              ((printTextLoop value fuel head tail out).2.2
                - (printTextLoop value fuel head tail out).2.1)
        else (printTextLoop value fuel head tail out).1)
        = out ++ (value.drop head).take (tail - head) ++ doubleQuotes (value.drop tail) := by
  intro fuel
  induction fuel with
  | zero =>
    intro head tail out h1 h2 h3
    have ht : tail = value.length := by omega
    subst ht
    simp only [printTextLoop, List.drop_length, doubleQuotes, List.append_nil]
    split_ifs with h
    · rfl
    · have : head = value.length := by omega
      subst this
      simp
  | succ fuel ih =>
    intro head tail out h1 h2 h3
    by_cases ht : tail = value.length
    · subst ht
      have hz : value.getD value.length 0 = 0 := by
        simp [List.getD_eq_getElem?_getD]
      simp only [printTextLoop, hz, ne_eq, not_true_eq_false, if_false, List.drop_length,
        doubleQuotes, List.append_nil]
      split_ifs with h
      · rfl
      · have : head = value.length := by omega
        subst this
        simp
    · have hlt : tail < value.length := by omega
      have hmem : value.getD tail 0 ∈ value := by
        rw [List.getD_eq_getElem?_getD, List.getElem?_eq_getElem hlt]
        exact List.getElem_mem hlt
      have hnz : value.getD tail 0 ≠ 0 := by
        intro h
        rw [h] at hmem
        exact hnul hmem
      have hd := getD_drop_cons value tail hlt
      by_cases hq : value.getD tail 0 = 39
      · have key : printTextLoop value (fuel + 1) head tail out
            = printTextLoop value fuel tail (tail + 1)
                (out ++ (value.drop head).take (tail - head) ++ [39]) := by
          simp only [printTextLoop, hq]
          rfl
        have e1 : (value.drop tail).take (tail + 1 - tail) = [39] := by
          rw [hd, hq]; simp
        rw [key, ih tail (tail + 1) _ (by omega) (by omega) (by omega), e1]
        conv_rhs => rw [hd, hq]
        simp [doubleQuotes]
      · have key : printTextLoop value (fuel + 1) head tail out
            = printTextLoop value fuel head (tail + 1) out := by
          simp only [printTextLoop, hnz, ne_eq, not_false_eq_true, if_true, hq, if_false]
        rw [key, ih head (tail + 1) _ (by omega) (by omega) (by omega),
          take_succ_drop value head tail h1 hlt]
        conv_rhs => rw [hd]
        simp only [doubleQuotes, hq, if_false, List.append_assoc, List.singleton_append]

theorem printText_normal (value : List Nat) (hnul : 0 ∉ value) :
    printText value = normalQuote value := by
  unfold printText normalQuote
  have := printTextLoop_spec value hnul value.length 0 0 [39] (Nat.le_refl _) (Nat.zero_le _)
    (by omega)
  simp only at this ⊢
  rw [this]
  simp


theorem utf8Last_char (acc n : Nat) (t : List Nat) (wide width : Nat)
    (h : utf8Last acc n t = MbResult.char wide width) (ha : 2 ≤ acc) :
    width = n ∧ 128 ≤ wide ∧ ∀ b ∈ t.take 1, 128 ≤ b := by
  cases t with
  | nil => cases h
  | cons b t =>
    simp only [utf8Last, isCont] at h
    split at h
    · rename_i hc
      injection h with h1 h2
      simp only [Bool.and_eq_true, decide_eq_true_eq] at hc
      refine ⟨h2.symm, by omega, ?_⟩
      intro x hx
      simp only [List.take_succ_cons, List.take_zero, List.mem_singleton] at hx
      omega
    · cases h

theorem utf8Middle_char : ∀ (more acc n : Nat) (t : List Nat) (wide width : Nat),
    utf8Middle acc n more t = MbResult.char wide width → 2 ≤ acc →
    width = n ∧ 128 ≤ wide ∧ ∀ b ∈ t.take (more + 1), 128 ≤ b := by
  intro more
  induction more with
  | zero =>
    intro acc n t wide width h ha
    simp only [utf8Middle] at h
    exact utf8Last_char acc n t wide width h ha
  | succ more ih =>
    intro acc n t wide width h ha
    cases t with
    | nil => cases h
    | cons b t =>
      simp only [utf8Middle, isCont] at h
      split at h
      · rename_i hc
        simp only [Bool.and_eq_true, decide_eq_true_eq] at hc
        obtain ⟨i1, i2, i3⟩ := ih _ n t wide width h (by omega)
        refine ⟨i1, i2, ?_⟩
        intro x hx
        simp only [List.take_succ_cons, List.mem_cons] at hx
        rcases hx with rfl | hx
        · omega
        · exact i3 x hx
      · cases h

theorem utf8Second_char (b0 offset low high n : Nat) (t : List Nat) (wide width : Nat)
    (h : utf8Second b0 offset low high n t = MbResult.char wide width)
    (hl : 128 ≤ low) (ha : 2 ≤ (b0 - offset) * 64 + (low - 128)) :
    width = n ∧ 128 ≤ wide ∧ ∀ b ∈ t.take (n - 3 + 2), 128 ≤ b := by
  cases t with
  | nil => cases h
  | cons b t =>
    simp only [utf8Second] at h
    split at h
    · rename_i hc
      obtain ⟨i1, i2, i3⟩ := utf8Middle_char _ _ n t wide width h (by omega)
      refine ⟨i1, i2, ?_⟩
      intro x hx
      simp only [List.take_succ_cons, List.mem_cons] at hx
      rcases hx with rfl | hx
      · omega
      · exact i3 x hx
    · cases h

/-- A character of the UTF-8 decoder is either one byte below 128 that is
its own value, or has a value of at least 128 and bytes of at least 128. -/
theorem utf8Decode_char (s : List Nat) (wide width : Nat)
    (h : utf8Decode s = MbResult.char wide width) :
    (width = 1 ∧ wide < 128 ∧ s.take width = [wide]) ∨
    (128 ≤ wide ∧ ∀ b ∈ s.take width, 128 ≤ b) := by
  rcases s with _ | ⟨b0, rest⟩
  · cases h
  · simp only [utf8Decode] at h
    by_cases c0 : b0 = 0
    · simp only [c0, if_true] at h
      cases h
    · by_cases c1 : b0 < 128
      · simp only [c0, c1, if_true, if_false] at h
        injection h with h1 h2
        subst h1 h2
        left
        simp [c1]
      · by_cases c2 : b0 < 194
        · simp only [c0, c1, c2, if_true, if_false] at h
          cases h
        · right
          by_cases c3 : b0 < 224
          · simp only [c0, c1, c2, c3, if_true, if_false] at h
            obtain ⟨i1, i2, i3⟩ := utf8Last_char _ _ _ _ _ h (by omega)
            subst i1
            refine ⟨i2, ?_⟩
            intro x hx
            simp only [List.take_succ_cons, List.mem_cons] at hx
            rcases hx with rfl | hx
            · omega
            · exact i3 x hx
          · by_cases c4 : b0 < 240
            · simp only [c0, c1, c2, c3, c4, if_true, if_false] at h
              obtain ⟨i1, i2, i3⟩ := utf8Second_char _ _ _ _ _ _ _ _ h
                (by split_ifs <;> omega) (by split_ifs <;> omega)
              subst i1
              refine ⟨i2, ?_⟩
              intro x hx
              simp only [List.take_succ_cons, List.mem_cons] at hx
              rcases hx with rfl | hx
              · omega
              · exact i3 x hx
            · by_cases c5 : b0 < 245
              · simp only [c0, c1, c2, c3, c4, c5, if_true, if_false] at h
                obtain ⟨i1, i2, i3⟩ := utf8Second_char _ _ _ _ _ _ _ _ h
                  (by split_ifs <;> omega) (by split_ifs <;> omega)
                subst i1
                refine ⟨i2, ?_⟩
                intro x hx
                simp only [List.take_succ_cons, List.mem_cons] at hx
                rcases hx with rfl | hx
                · omega
                · exact i3 x hx
              · simp only [c0, c1, c2, c3, c4, c5, if_true, if_false] at h
                cases h

theorem utf8Decode_null (b0 : Nat) (rest : List Nat)
    (h : utf8Decode (b0 :: rest) = MbResult.null) : b0 = 0 := by
  by_contra c0
  have hl : ∀ acc n t, utf8Last acc n t ≠ MbResult.null := by
    intro acc n t
    cases t with
    | nil => simp [utf8Last]
    | cons b t => simp only [utf8Last]; split <;> simp
  have hm : ∀ more acc n t, utf8Middle acc n more t ≠ MbResult.null := by
    intro more
    induction more with
    | zero => intro acc n t; simp only [utf8Middle]; exact hl acc n t
    | succ more ih =>
      intro acc n t
      cases t with
      | nil => simp [utf8Middle]
      | cons b t =>
        simp only [utf8Middle]
        split
        · exact ih _ _ _
        · simp
  have hs : ∀ b0 o l hi n t, utf8Second b0 o l hi n t ≠ MbResult.null := by
    intro b0 o l hi n t
    cases t with
    | nil => simp [utf8Second]
    | cons b t =>
      simp only [utf8Second]
      split
      · exact hm _ _ _ _
      · simp
  simp only [utf8Decode, c0, if_false] at h
  split_ifs at h
  all_goals first
    | exact hl _ _ _ h
    | exact hs _ _ _ _ _ _ h

theorem utf8_quoteIsByte : QuoteIsByte utf8 := by
  intro s wide width h hw
  unfold extractWide at h
  simp only [utf8] at h
  split at h
  · injection h with h; injection h with h1 h2; exact absurd h2.symm hw
  · cases h
  · rename_i hn
    injection h with h; injection h with h1 h2
    subst h1 h2
    rcases s with _ | ⟨b0, rest⟩
    · cases hn
    · have : b0 = 0 := utf8Decode_null b0 rest hn
      subst this
      simp
  · rename_i w wd hc
    injection h with h; injection h with h1 h2
    subst h1 h2
    rcases utf8Decode_char s _ _ hc with ⟨e1, e2, e3⟩ | ⟨e1, e2⟩
    · constructor
      · intro hq; rw [e3, hq]
      · intro hq; rw [e3]; simpa using Ne.symm hq
    · constructor
      · intro hq; omega
      · intro _ hm
        have := e2 39 hm
        omega



/-- A run of the loop of bindQuoted that ends has read complete valid
characters only. -/
theorem bindQuotedLoop_decodes (L : Locale) (length : Nat) :
    ∀ (fuel : Nat) (string : List Nat) (quote : Bool) (head tail : Nat)
      (r : List Nat × Bool × Nat),
      head ≤ tail → tail ≤ length → length ≤ string.length → length - tail ≤ fuel →
      bindQuotedLoop L length fuel string quote head tail = .ok r →
      ∃ chars, decodeChars L ((string.drop tail).take (length - tail)) = some chars := by
  intro fuel
  induction fuel with
  | zero =>
    intro string quote head tail r h1 h2 h3 h4 _
    have : length - tail = 0 := by omega
    rw [this]
    exact ⟨[], by simp [decodeChars_nil]⟩
  | succ fuel ih =>
    intro string quote head tail r h1 h2 h3 h4 hr
    by_cases ht : tail < length
    · have hl := window_length string length tail h3
      have hne : (string.drop tail).take (length - tail) ≠ [] := by
        intro h
        rw [h] at hl
        simp at hl
        omega
      rw [bindQuotedLoop] at hr
      simp only [ht, if_true] at hr
      rw [decodeChars_step L _ hne]
      cases hx : extractWide L ((string.drop tail).take (length - tail)) with
      | error e => rw [hx] at hr; cases hr
      | ok p =>
        obtain ⟨w, width⟩ := p
        rw [hx] at hr
        simp only at hr ⊢
        have hwl := extractWide_width L _ w width hne hx
        rw [hl] at hwl
        by_cases hw : width = 0
        · simp [hw] at hr
        · simp only [hw, if_false] at hr ⊢
          rw [window_drop string length tail width]
          cases quote with
          | true =>
            simp only [if_true] at hr
            by_cases hq : w = 39
            · simp only [hq, if_true] at hr
              obtain ⟨chars, hc⟩ := ih string false head (tail + width) r (by omega) (by omega)
                h3 (by omega) hr
              rw [hc]
              exact ⟨_, rfl⟩
            · simp [hq] at hr
          | false =>
            simp only [Bool.false_eq_true, if_false] at hr
            obtain ⟨chars, hc⟩ := ih _ _ (head + width) (tail + width) r (by omega) (by omega)
              (by rw [memmove_length string head tail width h1 (by omega)]; exact h3)
              (by omega) hr
            rw [memmove_drop string head tail width h1 (by omega)] at hc
            rw [hc]
            exact ⟨_, rfl⟩
    · have : length - tail = 0 := by omega
      rw [this]
      exact ⟨[], by simp [decodeChars_nil]⟩

theorem bindQuoted_decodes (L : Locale) (param : Param) (token : List Nat) (stmt : Stmt)
    (h : bindQuoted L param token = .ok stmt) :
    ∃ chars, decodeChars L ((token.drop 1).take (token.length - 2)) = some chars := by
  unfold bindQuoted at h
  split_ifs at h with c
  simp only at h
  split at h
  · cases h
  · rename_i string quote head hr
    have := bindQuotedLoop_decodes L (token.length - 2) (token.length - 2) (token.drop 1) false
      0 0 _ (Nat.le_refl _) (Nat.zero_le _) (by simp; omega) (by omega) hr
    simpa using this

theorem doubleQuotes_append (a b : List Nat) :
    doubleQuotes (a ++ b) = doubleQuotes a ++ doubleQuotes b := by
  induction a with
  | nil => rfl
  | cons x a ih =>
    by_cases hx : x = 39 <;> simp [doubleQuotes, hx, ih]

theorem doubleQuotes_plain (a : List Nat) (h : 39 ∉ a) : doubleQuotes a = a := by
  induction a with
  | nil => rfl
  | cons x a ih =>
    have hx : x ≠ 39 := fun e => h (by simp [e])
    have ha : 39 ∉ a := fun e => h (by simp [e])
    simp only [doubleQuotes, hx, if_false, ih ha]

/-- With the quote a single byte, doubling the quotes of the collapsed text
of a string with paired quotes gives the string back. -/
theorem doubleQuotes_collapse (L : Locale) (hL : QuoteIsByte L) :
    ∀ (n : Nat) (chars : List (Nat × List Nat)), chars.length ≤ n → ∀ (s : List Nat),
      decodeChars L s = some chars → quotesPaired (chars.map Prod.fst) = true →
      doubleQuotes (collapseQuotes chars) = s := by
  intro n
  induction n with
  | zero =>
    intro chars hn s hdec _
    have : chars = [] := List.eq_nil_of_length_eq_zero (by omega)
    subst this
    rw [decodeChars_nil_inv L s hdec]
    rfl
  | succ n ih =>
    intro chars hn s hdec hp
    cases chars with
    | nil =>
      rw [decodeChars_nil_inv L s hdec]
      rfl
    | cons c cs =>
      obtain ⟨w, b⟩ := c
      obtain ⟨width, hx, hw, hwl, hb, hcs⟩ := decodeChars_cons_inv L s w b cs hdec
      have hsplit : s = s.take width ++ s.drop width := (List.take_append_drop width s).symm
      obtain ⟨l1, l2⟩ := hL s w width hx hw
      by_cases hq : w = 39
      · subst hq
        cases cs with
        | nil => simp [quotesPaired] at hp
        | cons c2 cs2 =>
          obtain ⟨w2, b2⟩ := c2
          obtain ⟨width2, hx2, hw2, hwl2, hb2, hcs2⟩ :=
            decodeChars_cons_inv L _ w2 b2 cs2 hcs
          have hq2 : w2 = 39 ∧ quotesPaired (cs2.map Prod.fst) = true := by
            simpa [quotesPaired] using hp
          obtain ⟨hq2, hp2⟩ := hq2
          subst hq2
          obtain ⟨m1, _⟩ := hL _ 39 width2 hx2 hw2
          have hc : collapseQuotes ((39, b) :: (39, b2) :: cs2) = b ++ collapseQuotes cs2 := by
            simp [collapseQuotes]
          have hrest := ih cs2 (by simp at hn; omega) _ hcs2 hp2
          rw [hc, doubleQuotes_append, hrest, hb, l1 rfl]
          conv_rhs => rw [hsplit, l1 rfl]
          have hsplit2 : s.drop width
              = (s.drop width).take width2 ++ (s.drop width).drop width2 :=
            (List.take_append_drop width2 _).symm
          conv_rhs => rw [hsplit2, m1 rfl]
          simp [doubleQuotes]
      · rw [collapseQuotes_other w b cs hq, doubleQuotes_append]
        rw [List.map_cons, quotesPaired_other w _ hq] at hp
        rw [ih cs (by simp at hn; omega) _ hcs hp, hb, doubleQuotes_plain _ (l2 hq)]
        exact hsplit.symm

theorem bindOrDie_inv (e : Fatal) (param : Param) (v v1 : Value)
    (h : bindOrDie e param v = .ok (bound param.stmt param.index v1)) : v = v1 := by
  unfold bindOrDie sqlite3_bind bound at h
  split_ifs at h
  simp only at h
  injection h with h
  injection h with h1 h2
  have := List.append_cancel_left h2
  injection this with h3
  injection h3 with h4 h5

theorem token_frame (token : List Nat) (h1 : 2 ≤ token.length)
    (h2 : token.head? = some 39) (h3 : token.getLast? = some 39) :
    token = 39 :: (token.drop 1).take (token.length - 2) ++ [39] := by
  have e := List.dropLast_append_getLast? 39 (by rw [h3]; exact rfl : 39 ∈ token.getLast?)
  cases token with
  | nil => simp at h1
  | cons a t =>
    simp only [List.head?_cons, Option.some.injEq] at h2
    subst h2
    simp only [List.length_cons] at h1
    cases t with
    | nil => simp at h1
    | cons b t =>
      rw [List.dropLast_cons₂, List.dropLast_eq_take] at e
      conv_lhs => rw [← e]
      simp

/-- C9, as stated, fails on a text with a NUL byte: the token made of a quote,
`a`, NUL, `b` and a quote is accepted by bindQuoted in the UTF-8 locale with
the value `a`, NUL, `b`, and printText, which reads its argument as a C
string, writes `'a'` for it and not the normalized quoting. -/
theorem printText_stops_at_nul :
    bindQuoted utf8 ⟨⟨1, []⟩, 1⟩ [39, 97, 0, 98, 39]
      = .ok (bound ⟨1, []⟩ 1 (.text [97, 0, 98])) ∧
    printText [97, 0, 98] = [39, 97, 39] ∧
    printText [97, 0, 98] ≠ normalQuote [97, 0, 98] := by
  decide

/-- C9, amended: for every token accepted by bindQuoted whose decoded text
holds no NUL byte, printText writes the normalized quoting of that text (an
opening quote, the text with every quote doubled, a closing quote); when the
quote of the locale is the single byte 39 and the token starts with it, what
is written is the token itself. -/
theorem printText_requotes (L : Locale) (param : Param) (token value : List Nat)
    (hacc : bindQuoted L param token = .ok (bound param.stmt param.index (.text value)))
    (hnul : 0 ∉ value) :
    printText value = normalQuote value ∧
    (QuoteIsByte L → token.head? = some 39 → printText value = token) := by
  refine ⟨printText_normal value hnul, ?_⟩
  intro hL hhead
  obtain ⟨chars, hchars⟩ := bindQuoted_decodes L param token _ hacc
  have hq := bindQuoted_chars L param token chars hchars
  rw [hacc] at hq
  split_ifs at hq with c1 c2
  · have hv := bindOrDie_inv _ _ _ _ hq.symm
    injection hv with hv
    have hlen : 2 ≤ token.length := by
      by_contra h
      exact c1 (Or.inl (by omega))
    have hlast : token.getLast? = some 39 := by
      by_contra h
      exact c1 (Or.inr h)
    have hd := doubleQuotes_collapse L hL chars.length chars (Nat.le_refl _) _ hchars c2
    rw [printText_normal value hnul, normalQuote, ← hv, hd]
    exact (token_frame token hlen hhead hlast).symm

/-- C9, amended, at the token `'it''s'` in the UTF-8 locale. -/
theorem printText_requotes_witness :
    bindQuoted utf8 ⟨⟨1, []⟩, 1⟩ [39, 105, 116, 39, 39, 115, 39]
      = .ok (bound ⟨1, []⟩ 1 (.text [105, 116, 39, 115])) ∧
    0 ∉ ([105, 116, 39, 115] : List Nat) ∧
    printText [105, 116, 39, 115] = normalQuote [105, 116, 39, 115] ∧
    printText [105, 116, 39, 115] = [39, 105, 116, 39, 39, 115, 39] :=
  ⟨by decide, by decide,
    (printText_requotes utf8 ⟨⟨1, []⟩, 1⟩ [39, 105, 116, 39, 39, 115, 39] [105, 116, 39, 115]
      (by decide) (by decide)).1,
    (printText_requotes utf8 ⟨⟨1, []⟩, 1⟩ [39, 105, 116, 39, 39, 115, 39] [105, 116, 39, 115]
      (by decide) (by decide)).2 utf8_quoteIsByte rfl⟩



/-! ## Streaming binder: the scanning loops follow the lexer -/

theorem drop_done (done pending rest : List Nat) :
    (done ++ (pending ++ rest)).drop (done.length + pending.length) = rest := by
  rw [← List.append_assoc]
  exact List.drop_left' (by simp)

theorem slice_done (done pending rest : List Nat) :
    ((done ++ (pending ++ rest)).drop done.length).take (done.length + pending.length
      - done.length) = pending := by
  rw [List.drop_left' rfl, Nat.add_sub_cancel_left]
  exact List.take_left' rfl

theorem set_at_length (a : List Nat) (b x : Nat) (t : List Nat) :
    (a ++ b :: t).set a.length x = a ++ x :: t := by
  induction a with
  | nil => rfl
  | cons y a ih => simp [ih]

/-- One round of the scanning loop on a complete character follows the
lexer. -/
theorem scanLine_step (L : Locale) (S : Symbols) (offset : Nat) (c : Nat × List Nat)
    (hc : ValidChar L c) (s : Scan) (rest : List Nat) (quote : Bool) (pending : List Nat)
    (iter : Nat) (stmt : Stmt) (hs : s.Stands (c.2 ++ rest) quote pending iter stmt)
    (fuel : Nat) :
    match (lexChar L quote pending c).2.2 with
    | none =>
      ∃ s1, s1.Stands rest (lexChar L quote pending c).1 (lexChar L quote pending c).2.1
          iter stmt ∧
        scanLine L S offset (fuel + 1) s = scanLine L S offset fuel s1
    | some t =>
      match bindToken L S ⟨stmt, iter + 1 + offset⟩ t with
      | .error e => scanLine L S offset (fuel + 1) s = .error (.die e)
      | .ok stmt1 =>
        ∃ s1, s1.Stands rest (lexChar L quote pending c).1 (lexChar L quote pending c).2.1
            (iter + 1) stmt1 ∧
          scanLine L S offset (fuel + 1) s = scanLine L S offset fuel s1 := by
  obtain ⟨w, b⟩ := c
  obtain ⟨hne, -, hx⟩ := hc
  simp only at hne hx hs
  obtain ⟨done, h1, h2, h3, h4, h5, h6⟩ := hs
  obtain ⟨string, q, head, tail, it, st⟩ := s
  simp only at h1 h2 h3 h4 h5 h6
  subst h1 h2 h3 h4 h5 h6
  obtain ⟨b0, bs, rfl⟩ := List.exists_cons_of_ne_nil hne
  have hlt : done.length + pending.length
      < (done ++ (pending ++ (b0 :: bs ++ rest))).length := by
    simp only [List.length_append, List.length_cons]; omega
  have hdrop := drop_done done pending (b0 :: bs ++ rest)
  have hwide := hx rest
  have hw0 : (b0 :: bs).length ≠ 0 := by simp
  have hbase : scanLine L S offset (fuel + 1)
      ⟨done ++ (pending ++ (b0 :: bs ++ rest)), q, done.length,
        done.length + pending.length, it, st⟩ = _ := rfl
  by_cases hq : q = true
  · -- inside a quote
    subst hq
    simp only [lexChar, if_true]
    refine ⟨⟨done ++ (pending ++ (b0 :: bs ++ rest)), if w = 39 then false else true,
      done.length, done.length + pending.length + (b0 :: bs).length, it, st⟩, ?_, ?_⟩
    · refine ⟨done, ?_, rfl, ?_, rfl, rfl, rfl⟩
      · simp
      · simp only [List.length_append]; omega
    · rw [scanLine]
      simp only [hlt, if_true, hdrop, hwide, hw0, if_false]
  · have hq : q = false := by simpa using hq
    subst hq
    by_cases h39 : w = 39
    · subst h39
      simp only [lexChar, Bool.false_eq_true, if_false, if_true]
      refine ⟨⟨done ++ (pending ++ (b0 :: bs ++ rest)), true,
        done.length, done.length + pending.length + (b0 :: bs).length, it, st⟩, ?_, ?_⟩
      · refine ⟨done, ?_, rfl, ?_, rfl, rfl, rfl⟩
        · simp
        · simp only [List.length_append]; omega
      · rw [scanLine]
        simp only [hlt, if_true, hdrop, hwide, hw0, if_false, Bool.false_eq_true]
    · by_cases hb : (L.iswcntrl w || L.iswspace w) = true
      · by_cases hp : pending = []
        · have hhead : ¬ done.length < done.length + pending.length := by
            rw [hp]; simp
          have hl : lexChar L false pending (w, b0 :: bs) = (false, [], none) := by
            simp [lexChar, h39, hb, hp]
          rw [hl]
          simp only
          refine ⟨⟨done ++ (pending ++ (b0 :: bs ++ rest)), false,
            done.length + pending.length + (b0 :: bs).length,
            done.length + pending.length + (b0 :: bs).length, it, st⟩, ?_, ?_⟩
          · refine ⟨done ++ pending ++ b0 :: bs, ?_, ?_, ?_, rfl, rfl, rfl⟩
            · simp
            · simp only [List.length_append, List.length_cons]
            · simp only [List.length_append, List.length_cons, List.length_nil, Nat.add_zero]
          · rw [scanLine]
            simp only [hlt, if_true, hdrop, hwide, hw0, if_false, Bool.false_eq_true, h39, hb,
              hhead]
        · simp only [lexChar, Bool.false_eq_true, if_false, h39, hb, if_true, hp]
          have hhead : done.length < done.length + pending.length := by
            have := List.length_pos.mpr hp
            omega
          have hset : (done ++ (pending ++ (b0 :: bs ++ rest))).set
              (done.length + pending.length) 0 = (done ++ pending) ++ 0 :: (bs ++ rest) := by
            have := set_at_length (done ++ pending) b0 0 (bs ++ rest)
            simp only [List.length_append, List.append_assoc, List.cons_append] at this ⊢
            exact this
          have htok : (((done ++ pending) ++ 0 :: (bs ++ rest)).drop done.length).take
              (done.length + pending.length - done.length) = pending := by
            rw [List.append_assoc]
            exact slice_done done pending (0 :: (bs ++ rest))
          have hstep : scanLine L S offset (fuel + 1)
              ⟨done ++ (pending ++ (b0 :: bs ++ rest)), false, done.length,
                done.length + pending.length, it, st⟩
              = match bindToken L S ⟨st, it + 1 + offset⟩ pending with
                | .error e => .error (.die e)
                | .ok stmt1 =>
                  scanLine L S offset fuel
                    ⟨(done ++ pending) ++ 0 :: (bs ++ rest), false,
                      done.length + pending.length + (b0 :: bs).length,
                      done.length + pending.length + (b0 :: bs).length, it + 1, stmt1⟩ := by
            rw [scanLine]
            simp only [hlt, if_true, hdrop, hwide, hw0, if_false, Bool.false_eq_true, h39, hb,
              hhead, hset, htok]
          rw [hstep]
          cases hbt : bindToken L S ⟨st, it + 1 + offset⟩ pending with
          | error e => rfl
          | ok stmt1 =>
            simp only
            refine ⟨_, ⟨done ++ pending ++ 0 :: bs, ?_, ?_, ?_, rfl, rfl, rfl⟩, rfl⟩
            · simp
            · simp only [List.length_append, List.length_cons]
            · simp only [List.length_append, List.length_cons, List.length_nil, Nat.add_zero]
      · have hb : (L.iswcntrl w || L.iswspace w) = false := by simpa using hb
        simp only [lexChar, Bool.false_eq_true, if_false, h39, hb]
        refine ⟨⟨done ++ (pending ++ (b0 :: bs ++ rest)), false,
          done.length, done.length + pending.length + (b0 :: bs).length, it, st⟩, ?_, ?_⟩
        · refine ⟨done, ?_, rfl, ?_, rfl, rfl, rfl⟩
          · simp
          · simp only [List.length_append]; omega
        · rw [scanLine]
          simp only [hlt, if_true, hdrop, hwide, hw0, if_false, Bool.false_eq_true, h39, hb]

theorem scanLine_done (L : Locale) (S : Symbols) (offset fuel : Nat) (s : Scan)
    (quote : Bool) (pending : List Nat) (iter : Nat) (stmt : Stmt)
    (hs : s.Stands [] quote pending iter stmt) : scanLine L S offset fuel s = .ok s := by
  obtain ⟨done, h1, h2, h3, -⟩ := hs
  have : ¬ s.tail < s.string.length := by
    rw [h1, h3]; simp
  cases fuel with
  | zero => rfl
  | succ f => rw [scanLine]; simp only [this, if_false]

/-- The scanning loop over a run of complete characters follows the lexer:
the tokens the lexer completes are bound in order. -/
theorem scanLine_chars (L : Locale) (S : Symbols) (offset : Nat) :
    ∀ (cs : List (Nat × List Nat)), (∀ c ∈ cs, ValidChar L c) →
    ∀ (fuel : Nat) (s : Scan) (rest : List Nat) (quote : Bool) (pending : List Nat)
      (iter : Nat) (stmt : Stmt),
      s.Stands (bytesOf cs ++ rest) quote pending iter stmt → cs.length ≤ fuel →
      match bindTokens L S offset (lexChars L quote pending cs).1 iter stmt with
      | .error e => scanLine L S offset fuel s = .error (.die e)
      | .ok stmt1 =>
        ∃ s1, s1.Stands rest (lexChars L quote pending cs).2.1
            (lexChars L quote pending cs).2.2
            (iter + (lexChars L quote pending cs).1.length) stmt1 ∧
          scanLine L S offset fuel s = scanLine L S offset (fuel - cs.length) s1 := by
  intro cs
  induction cs with
  | nil =>
    intro _ fuel s rest quote pending iter stmt hs _
    simp only [lexChars, bindTokens]
    exact ⟨s, by simpa [bytesOf] using hs, rfl⟩
  | cons c cs ih =>
    intro hv fuel s rest quote pending iter stmt hs hf
    obtain ⟨f, rfl⟩ : ∃ f, fuel = f + 1 := ⟨fuel - 1, by simp at hf; omega⟩
    have hs1 : s.Stands (c.2 ++ (bytesOf cs ++ rest)) quote pending iter stmt := by
      simpa [bytesOf, List.append_assoc] using hs
    have hstep := scanLine_step L S offset c (hv c (by simp)) s _ quote pending iter stmt hs1 f
    have hvs : ∀ c ∈ cs, ValidChar L c := fun x hx => hv x (by simp [hx])
    have hfl : cs.length ≤ f := by simp at hf; omega
    rw [lexChars]
    cases hemit : (lexChar L quote pending c).2.2 with
    | none =>
      rw [hemit] at hstep
      simp only at hstep ⊢
      obtain ⟨s1, hst, heq⟩ := hstep
      have := ih hvs f s1 rest _ _ iter stmt hst hfl
      rw [heq]
      simpa using this
    | some t =>
      rw [hemit] at hstep
      simp only at hstep ⊢
      rw [bindTokens]
      cases hb : bindToken L S ⟨stmt, iter + 1 + offset⟩ t with
      | error e =>
        rw [hb] at hstep
        exact hstep
      | ok stmt1 =>
        rw [hb] at hstep
        simp only at hstep ⊢
        obtain ⟨s1, hst, heq⟩ := hstep
        have := ih hvs f s1 rest _ _ (iter + 1) stmt1 hst hfl
        rw [heq]
        have e : iter + ((lexChars L (lexChar L quote pending c).1
            (lexChar L quote pending c).2.1 cs).1.length + 1)
            = iter + 1 + (lexChars L (lexChar L quote pending c).1
              (lexChar L quote pending c).2.1 cs).1.length := by omega
        simp only [List.length_cons, e]
        simpa using this

theorem bytesOf_append (a b : List (Nat × List Nat)) :
    bytesOf (a ++ b) = bytesOf a ++ bytesOf b := by
  induction a with
  | nil => rfl
  | cons c a ih => simp [bytesOf, ih]

theorem length_le_bytesOf (L : Locale) (cs : List (Nat × List Nat))
    (hv : ∀ c ∈ cs, ValidChar L c) : cs.length ≤ (bytesOf cs).length := by
  induction cs with
  | nil => simp
  | cons c cs ih =>
    have h1 := (hv c (by simp)).1
    have h2 := ih (fun x hx => hv x (by simp [hx]))
    have h3 := List.length_pos.mpr h1
    simp only [bytesOf, List.length_cons, List.length_append]
    omega

theorem no_newline_bytes (L : Locale) (cs : List (Nat × List Nat))
    (hv : ∀ c ∈ cs, ValidChar L c) (hn : ∀ c ∈ cs, c.2 ≠ [10]) : 10 ∉ bytesOf cs := by
  induction cs with
  | nil => simp [bytesOf]
  | cons c cs ih =>
    simp only [bytesOf, List.mem_append, not_or]
    refine ⟨?_, ih (fun x hx => hv x (by simp [hx])) (fun x hx => hn x (by simp [hx]))⟩
    intro h
    exact hn c (by simp) ((hv c (by simp)).2.1 h)

theorem getline_newline (body rest : List Nat) (h : 10 ∉ body) :
    getline (body ++ 10 :: rest) = (body ++ [10], rest, true) := by
  induction body with
  | nil => simp [getline]
  | cons b body ih =>
    have hb : b ≠ 10 := fun e => h (by simp [e])
    have := ih (fun e => h (by simp [e]))
    simp [getline, hb, this]

theorem getline_end (body : List Nat) (h : 10 ∉ body) :
    getline body = (body, [], false) := by
  induction body with
  | nil => simp [getline]
  | cons b body ih =>
    have hb : b ≠ 10 := fun e => h (by simp [e])
    have := ih (fun e => h (by simp [e]))
    simp [getline, hb, this]

theorem split_newline (cs : List (Nat × List Nat)) :
    (∀ c ∈ cs, c.2 ≠ [10]) ∨
    ∃ pre nl more, cs = pre ++ nl :: more ∧ nl.2 = [10] ∧ ∀ c ∈ pre, c.2 ≠ [10] := by
  induction cs with
  | nil => left; simp
  | cons c cs ih =>
    by_cases hc : c.2 = [10]
    · right
      exact ⟨[], c, cs, rfl, hc, by simp⟩
    · rcases ih with h | ⟨pre, nl, more, h1, h2, h3⟩
      · left
        intro x hx
        simp only [List.mem_cons] at hx
        rcases hx with rfl | hx
        · exact hc
        · exact h x hx
      · right
        refine ⟨c :: pre, nl, more, by simp [h1], h2, ?_⟩
        intro x hx
        simp only [List.mem_cons] at hx
        rcases hx with rfl | hx
        · exact hc
        · exact h3 x hx

theorem lexRecord_plain (L : Locale) : ∀ (cs : List (Nat × List Nat)) (q : Bool)
    (p : List Nat), (∀ c ∈ cs, c.2 ≠ [10]) →
    lexRecord L q p cs
      = ⟨(lexChars L q p cs).1, (lexChars L q p cs).2.1, (lexChars L q p cs).2.2, false, []⟩ := by
  intro cs
  induction cs with
  | nil => intro q p _; rfl
  | cons c cs ih =>
    intro q p hn
    have hc : c.2 ≠ [10] := hn c (by simp)
    rw [lexRecord, lexChars]
    simp only [hc, false_and, if_false]
    rw [ih _ _ (fun x hx => hn x (by simp [hx]))]
    cases (lexChar L q p c).2.2 <;> rfl

theorem lexRecord_line (L : Locale) : ∀ (pre : List (Nat × List Nat)) (q : Bool)
    (p : List Nat) (nl : Nat × List Nat) (more : List (Nat × List Nat)),
    (∀ c ∈ pre, c.2 ≠ [10]) → nl.2 = [10] →
    lexRecord L q p (pre ++ nl :: more)
      = if (lexChars L q p (pre ++ [nl])).2.1 = false then
          ⟨(lexChars L q p (pre ++ [nl])).1, false, (lexChars L q p (pre ++ [nl])).2.2, true,
            more⟩
        else
          ⟨(lexChars L q p (pre ++ [nl])).1
              ++ (lexRecord L true (lexChars L q p (pre ++ [nl])).2.2 more).tokens,
            (lexRecord L true (lexChars L q p (pre ++ [nl])).2.2 more).quote,
            (lexRecord L true (lexChars L q p (pre ++ [nl])).2.2 more).pending,
            (lexRecord L true (lexChars L q p (pre ++ [nl])).2.2 more).ret,
            (lexRecord L true (lexChars L q p (pre ++ [nl])).2.2 more).rest⟩ := by
  intro pre
  induction pre with
  | nil =>
    intro q p nl more _ hnl
    simp only [List.nil_append]
    rw [lexRecord, lexChars]
    simp only [hnl, true_and, lexChars]
    cases h1 : (lexChar L q p nl).1 <;> cases (lexChar L q p nl).2.2 <;>
      simp [Lexed.push]
  | cons c pre ih =>
    intro q p nl more hn hnl
    have hc : c.2 ≠ [10] := hn c (by simp)
    simp only [List.cons_append]
    rw [lexRecord, lexChars]
    simp only [hc, false_and, if_false]
    rw [ih _ _ nl more (fun x hx => hn x (by simp [hx])) hnl]
    cases (lexChar L q p c).2.2 with
    | none => rfl
    | some t =>
      simp only [Lexed.push]
      split_ifs <;> simp

theorem bindTokens_append (L : Locale) (S : Symbols) (offset : Nat) :
    ∀ (a b : List (List Nat)) (iter : Nat) (stmt : Stmt),
    bindTokens L S offset (a ++ b) iter stmt
      = match bindTokens L S offset a iter stmt with
        | .error e => .error e
        | .ok stmt1 => bindTokens L S offset b (iter + a.length) stmt1 := by
  intro a
  induction a with
  | nil => intro b iter stmt; simp [bindTokens]
  | cons t a ih =>
    intro b iter stmt
    rw [List.cons_append, bindTokens, bindTokens]
    cases bindToken L S ⟨stmt, iter + 1 + offset⟩ t with
    | error e => rfl
    | ok stmt1 =>
      simp only
      rw [ih]
      have : iter + 1 + a.length = iter + (a.length + 1) := by omega
      simp only [List.length_cons, this]

theorem stands_extend (s : Scan) (line : List Nat) (q : Bool) (p : List Nat) (i : Nat)
    (st : Stmt) (hs : s.Stands [] q p i st) :
    (Scan.mk (s.string ++ line) s.quote s.head s.tail s.iter s.stmt).Stands line q p i st := by
  obtain ⟨done, h1, h2, h3, h4, h5, h6⟩ := hs
  refine ⟨done, ?_, h2, h3, h4, h5, h6⟩
  simp only [h1, List.append_nil, List.append_assoc]

/-- The outer loop of bindStream on input made of complete characters
follows the lexer over one record. -/
theorem readLines_lex (L : Locale) (S : Symbols) (offset : Nat) :
    ∀ (n : Nat) (cs : List (Nat × List Nat)), cs.length ≤ n → (∀ c ∈ cs, ValidChar L c) →
    ∀ (fuel : Nat) (s : Scan) (q : Bool) (p : List Nat) (i : Nat) (st : Stmt),
      s.Stands [] q p i st → (bytesOf cs).length + 1 ≤ fuel →
      match bindTokens L S offset (lexRecord L q p cs).tokens i st with
      | .error e => readLines L S offset fuel s (bytesOf cs) = .error (.die e)
      | .ok st1 =>
        ∃ s1, readLines L S offset fuel s (bytesOf cs)
            = .ok ((lexRecord L q p cs).ret, s1, bytesOf (lexRecord L q p cs).rest) ∧
          s1.quote = (lexRecord L q p cs).quote ∧
          s1.iter = i + (lexRecord L q p cs).tokens.length ∧ s1.stmt = st1 := by
  intro n
  induction n with
  | zero =>
    intro cs hn _ fuel s q p i st hs hf
    have : cs = [] := List.eq_nil_of_length_eq_zero (by omega)
    subst this
    obtain ⟨f, rfl⟩ : ∃ f, fuel = f + 1 := ⟨fuel - 1, by omega⟩
    simp only [lexRecord, bindTokens, bytesOf]
    refine ⟨s, ?_, hs.choose_spec.2.2.2.1, by simpa using hs.choose_spec.2.2.2.2.1,
      hs.choose_spec.2.2.2.2.2⟩
    rw [readLines]
    simp only [getline, List.append_nil]
    rw [scanLine_done L S offset _ _ q p i st (by simpa using hs)]
    simp
  | succ n ih =>
    intro cs hn hv fuel s q p i st hs hf
    obtain ⟨f, rfl⟩ : ∃ f, fuel = f + 1 := ⟨fuel - 1, by omega⟩
    rcases split_newline cs with hno | ⟨pre, nl, more, rfl, hnl, hpre⟩
    · -- the input ends before any newline
      have hg := getline_end (bytesOf cs) (no_newline_bytes L cs hv hno)
      have hs1 := stands_extend s (bytesOf cs) q p i st hs
      have hsc := scanLine_chars L S offset cs hv (s.string ++ bytesOf cs).length _ []
        q p i st (by simpa using hs1)
        (by have := length_le_bytesOf L cs hv; simp only [List.length_append]; omega)
      rw [lexRecord_plain L cs q p hno]
      simp only
      cases hb : bindTokens L S offset (lexChars L q p cs).1 i st with
      | error e =>
        rw [hb] at hsc
        simp only at hsc ⊢
        rw [readLines]
        simp only [hg, hsc]
      | ok st1 =>
        rw [hb] at hsc
        simp only at hsc ⊢
        obtain ⟨s1, hst, heq⟩ := hsc
        refine ⟨s1, ?_, hst.choose_spec.2.2.2.1, hst.choose_spec.2.2.2.2.1,
          hst.choose_spec.2.2.2.2.2⟩
        rw [readLines]
        simp only [hg, heq, scanLine_done L S offset _ s1 _ _ _ _ hst, bytesOf,
          Bool.false_and, Bool.false_eq_true, if_false]
    · -- a line ended by a newline
      have hvpre : ∀ c ∈ pre, ValidChar L c := fun x hx => hv x (by simp [hx])
      have hvnl : ValidChar L nl := hv nl (by simp)
      have hvmore : ∀ c ∈ more, ValidChar L c := fun x hx => hv x (by simp [hx])
      have hvchunk : ∀ c ∈ pre ++ [nl], ValidChar L c := by
        intro x hx
        simp only [List.mem_append, List.mem_singleton] at hx
        rcases hx with hx | rfl
        · exact hvpre x hx
        · exact hvnl
      have hbytes : bytesOf (pre ++ nl :: more) = bytesOf pre ++ 10 :: bytesOf more := by
        simp [bytesOf_append, bytesOf, hnl]
      have hchunk : bytesOf (pre ++ [nl]) = bytesOf pre ++ [10] := by
        simp [bytesOf_append, bytesOf, hnl]
      have hg := getline_newline (bytesOf pre) (bytesOf more)
        (no_newline_bytes L pre hvpre hpre)
      have hs1 := stands_extend s (bytesOf pre ++ [10]) q p i st hs
      have hsc := scanLine_chars L S offset (pre ++ [nl]) hvchunk
        (s.string ++ (bytesOf pre ++ [10])).length _ [] q p i st
        (by rw [hchunk]; simpa using hs1)
        (by
          have := length_le_bytesOf L (pre ++ [nl]) hvchunk
          rw [hchunk] at this
          simp only [List.length_append] at this ⊢
          omega)
      rw [lexRecord_line L pre q p nl more hpre hnl, hbytes]
      cases hq : (lexChars L q p (pre ++ [nl])).2.1 with
      | false =>
        simp only [if_true]
        cases hb : bindTokens L S offset (lexChars L q p (pre ++ [nl])).1 i st with
        | error e =>
          rw [hb] at hsc
          simp only at hsc ⊢
          rw [readLines]
          simp only [hg, hsc]
        | ok st1 =>
          rw [hb] at hsc
          simp only at hsc ⊢
          obtain ⟨s1, hst, heq⟩ := hsc
          have hq1 : s1.quote = false := by rw [hst.choose_spec.2.2.2.1, hq]
          refine ⟨s1, ?_, hq1, hst.choose_spec.2.2.2.2.1, hst.choose_spec.2.2.2.2.2⟩
          rw [readLines]
          simp only [hg, heq, scanLine_done L S offset _ s1 _ _ _ _ hst, hq1,
            Bool.and_false, Bool.false_eq_true, if_false]
      | true =>
        simp only [Bool.true_eq_false, if_false]
        rw [bindTokens_append]
        cases hb : bindTokens L S offset (lexChars L q p (pre ++ [nl])).1 i st with
        | error e =>
          rw [hb] at hsc
          simp only at hsc ⊢
          rw [readLines]
          simp only [hg, hsc]
        | ok st1 =>
          rw [hb] at hsc
          simp only at hsc ⊢
          obtain ⟨s1, hst, heq⟩ := hsc
          have hq1 : s1.quote = true := by rw [hst.choose_spec.2.2.2.1, hq]
          have hstep : readLines L S offset (f + 1) s (bytesOf pre ++ 10 :: bytesOf more)
              = readLines L S offset f s1 (bytesOf more) := by
            rw [readLines]
            simp only [hg, heq, scanLine_done L S offset _ s1 _ _ _ _ hst, hq1,
              Bool.and_true, if_true]
          rw [hstep]
          have hrec := ih more (by simp at hn; omega) hvmore f s1 true
            (lexChars L q p (pre ++ [nl])).2.2
            (i + (lexChars L q p (pre ++ [nl])).1.length) st1
            (by rw [← hq]; exact hst)
            (by rw [hbytes] at hf; simp only [List.length_append, List.length_cons] at hf; omega)
          cases hb2 : bindTokens L S offset
              (lexRecord L true (lexChars L q p (pre ++ [nl])).2.2 more).tokens
              (i + (lexChars L q p (pre ++ [nl])).1.length) st1 with
          | error e =>
            rw [hb2] at hrec
            exact hrec
          | ok st2 =>
            rw [hb2] at hrec
            simp only at hrec ⊢
            obtain ⟨s2, e1, e2, e3, e4⟩ := hrec
            refine ⟨s2, e1, e2, ?_, e4⟩
            rw [e3, List.length_append]
            omega

/-- On input made of complete characters bindStream is the stream source of
the specification: it binds the tokens the lexer finds in one record, dies
on a quote left open, and sets the slots left to null. -/
theorem bindStream_lex (L : Locale) (S : Symbols) (stmt : Stmt) (offset number : Nat)
    (cs : List (Nat × List Nat)) (hv : ∀ c ∈ cs, ValidChar L c) :
    bindStream L S stmt offset number (bytesOf cs) = streamRecord L S stmt offset number cs := by
  have h := readLines_lex L S offset cs.length cs (Nat.le_refl _) hv
    ((bytesOf cs).length + 1) ⟨[], false, 0, 0, 0, stmt⟩ false [] 0 stmt
    ⟨[], rfl, rfl, rfl, rfl, rfl, rfl⟩ (Nat.le_refl _)
  unfold bindStream streamRecord
  cases hb : bindTokens L S offset (lexRecord L false [] cs).tokens 0 stmt with
  | error e =>
    rw [hb] at h
    simp only at h ⊢
    rw [h]
  | ok st1 =>
    rw [hb] at h
    simp only at h ⊢
    obtain ⟨s1, e1, e2, e3, e4⟩ := h
    rw [e1]
    simp only [e2, e3, e4, Nat.zero_add]



/-! ## Streaming binder: values, padding and lines of tokens -/

theorem bindQuoted_factor (L : Locale) (t : List Nat) :
    (∃ e, ∀ param, bindQuoted L param t = .error e) ∨
    (∃ e v, ∀ param, bindQuoted L param t = bindOrDie e param v) := by
  unfold bindQuoted
  split_ifs
  · exact Or.inl ⟨_, fun _ => rfl⟩
  · simp only
    cases bindQuotedLoop L (t.length - 2) (t.length - 2) (t.drop 1) false 0 0 with
    | error e => exact Or.inl ⟨e, fun _ => rfl⟩
    | ok r =>
      obtain ⟨string, quote, head⟩ := r
      cases quote with
      | true => exact Or.inl ⟨_, fun _ => rfl⟩
      | false => exact Or.inr ⟨_, _, fun _ => rfl⟩

theorem bindBlob_factor (t : List Nat) :
    (∃ e, ∀ param, bindBlob param t = .error e) ∨
    (∃ e v, ∀ param, bindBlob param t = bindOrDie e param v) := by
  unfold bindBlob
  cases blobValue t with
  | error e => exact Or.inl ⟨e, fun _ => rfl⟩
  | ok b => exact Or.inr ⟨_, _, fun _ => rfl⟩

theorem bindZero_factor (t : List Nat) :
    (∃ e, ∀ param, bindZero param t = .error e) ∨
    (∃ e v, ∀ param, bindZero param t = bindOrDie e param v) := by
  by_cases c1 : (t.length < 2 ∨ t.getD (t.length - 1) 0 ≠ 93)
  · refine Or.inl ⟨Fatal.noClosingBracket, fun param => ?_⟩
    rw [bindZero, if_pos c1]
  · by_cases c2 : (strtoul (t.drop 1)).2.1 ≠ t.length - 2
    · refine Or.inl ⟨Fatal.invalidZeroLength, fun param => ?_⟩
      rw [bindZero, if_neg c1]
      simp only [c2, ne_eq, not_false_eq_true, if_true]
    · by_cases c3 : (strtoul (t.drop 1)).1 > allOnes
      · refine Or.inl ⟨Fatal.zeroLengthRange, fun param => ?_⟩
        rw [bindZero, if_neg c1]
        simp only [c2, c3, if_true, if_false]
      · refine Or.inr ⟨Fatal.bindZero, Value.zeroblob (toInt32 (strtoul (t.drop 1)).1),
          fun param => ?_⟩
        rw [bindZero, if_neg c1]
        simp only [c2, c3, if_false]

theorem bindNumeric_factor (L : Locale) (t : List Nat) :
    (∃ e, ∀ param, bindNumeric L param t = .error e) ∨
    (∃ e v, ∀ param, bindNumeric L param t = bindOrDie e param v) := by
  unfold bindNumeric
  simp only
  split_ifs
  all_goals first
    | exact Or.inr ⟨_, _, fun _ => rfl⟩
    | exact Or.inl ⟨_, fun _ => rfl⟩

theorem bindKeyword_factor (t : List Nat) :
    (∃ e, ∀ param, bindKeyword param t = .error e) ∨
    (∃ e v, ∀ param, bindKeyword param t = bindOrDie e param v) := by
  unfold bindKeyword
  split_ifs
  all_goals exact Or.inr ⟨_, _, fun _ => rfl⟩

/-- The statement and the slot enter bindToken only through the bind call at
its end. -/
theorem bindToken_factor (L : Locale) (S : Symbols) (t : List Nat) :
    (∃ e, ∀ param, bindToken L S param t = .error e) ∨
    (∃ e v, ∀ param, bindToken L S param t = bindOrDie e param v) := by
  unfold bindToken
  cases extractWide L t with
  | error e => exact Or.inl ⟨e, fun _ => rfl⟩
  | ok r =>
    obtain ⟨wide, width⟩ := r
    simp only
    split_ifs
    · exact Or.inl ⟨_, fun _ => rfl⟩
    · exact bindQuoted_factor L t
    · exact bindBlob_factor t
    · exact bindZero_factor t
    · exact bindNumeric_factor L t
    · exact bindKeyword_factor t
    · exact Or.inl ⟨_, fun _ => rfl⟩

/-- A token that stands for a value is bound as that value to any slot the
statement has. -/
theorem bindToken_value (L : Locale) (S : Symbols) (t : List Nat) (v : Value)
    (h : tokenValue L S t = .ok v) (param : Param) (hlo : 1 ≤ param.index)
    (hhi : param.index ≤ param.stmt.needed) :
    bindToken L S param t = .ok (bound param.stmt param.index v) := by
  rcases bindToken_factor L S t with ⟨e, he⟩ | ⟨e, v1, he⟩
  · unfold tokenValue at h
    rw [he] at h
    cases h
  · unfold tokenValue at h
    rw [he] at h
    have : bindOrDie e ⟨⟨1, []⟩, 1⟩ v1 = .ok ⟨1, [Event.bind 1 v1]⟩ := by
      simp [bindOrDie, sqlite3_bind]
    rw [this] at h
    simp only at h
    injection h with h
    subst h
    rw [he]
    exact bindOrDie_ok e param v1 hlo hhi

/-- No token is bound to a slot the statement does not have. -/
theorem bindToken_refused (L : Locale) (S : Symbols) (t : List Nat) (param : Param)
    (h : param.stmt.needed < param.index) : ∃ e, bindToken L S param t = .error e := by
  rcases bindToken_factor L S t with ⟨e, he⟩ | ⟨e, v1, he⟩
  · exact ⟨e, he param⟩
  · refine ⟨e, ?_⟩
    rw [he]
    have : ¬ (1 ≤ param.index ∧ param.index ≤ param.stmt.needed) := by omega
    simp [bindOrDie, sqlite3_bind, this]

theorem bindEvents_append (first : Nat) (a b : List Value) :
    bindEvents first (a ++ b) = bindEvents first a ++ bindEvents (first + a.length) b := by
  induction a generalizing first with
  | nil => simp [bindEvents]
  | cons v a ih =>
    rw [List.cons_append, bindEvents, bindEvents, ih, List.length_cons]
    have : first + 1 + a.length = first + (a.length + 1) := by omega
    rw [this]
    rfl

/-- Tokens that stand for values are bound in order to consecutive slots. -/
theorem bindTokens_values (L : Locale) (S : Symbols) (offset : Nat) :
    ∀ (ts : List (List Nat)) (vs : List Value) (iter : Nat) (stmt : Stmt),
    ts.map (tokenValue L S) = vs.map Except.ok → iter + ts.length + offset ≤ stmt.needed →
    bindTokens L S offset ts iter stmt
      = .ok ⟨stmt.needed, stmt.trace ++ bindEvents (iter + 1 + offset) vs⟩ := by
  intro ts
  induction ts with
  | nil =>
    intro vs iter stmt hv _
    cases vs with
    | nil => simp [bindTokens, bindEvents]
    | cons v vs => simp at hv
  | cons t ts ih =>
    intro vs iter stmt hv hn
    cases vs with
    | nil => simp at hv
    | cons v vs =>
      simp only [List.map_cons, List.cons.injEq] at hv
      simp only [List.length_cons] at hn
      rw [bindTokens, bindToken_value L S t v hv.1 ⟨stmt, iter + 1 + offset⟩
        (by simp only; omega) (by simp only; omega)]
      simp only
      rw [ih vs (iter + 1) _ hv.2 (by simp only [bound]; omega)]
      have e : iter + 1 + 1 + offset = iter + 1 + offset + 1 := by omega
      simp [bound, bindEvents, e]

theorem padNull_ok (offset : Nat) : ∀ (count iter : Nat) (stmt : Stmt),
    iter + count + offset ≤ stmt.needed →
    padNull offset count iter stmt
      = .ok ⟨stmt.needed, stmt.trace ++ nullEvents (iter + 1 + offset) count⟩ := by
  intro count
  induction count with
  | zero => intro iter stmt _; simp [padNull, nullEvents, bindEvents]
  | succ count ih =>
    intro iter stmt hn
    rw [padNull, bindOrDie_ok _ _ _ (by simp only; omega) (by simp only; omega)]
    simp only
    rw [ih (iter + 1) _ (by simp only [bound]; omega)]
    have e : iter + 1 + 1 + offset = iter + 1 + offset + 1 := by omega
    simp [bound, nullEvents, bindEvents, List.replicate_succ, e]


theorem lexChar_gap (L : Locale) (p : List Nat) (c : Nat × List Nat)
    (h : isGapChar L c = true) :
    lexChar L false p c = (false, [], if p = [] then none else some p) := by
  unfold isGapChar at h
  simp only [Bool.and_eq_true, bne_iff_ne, ne_eq] at h
  simp only [lexChar, Bool.false_eq_true, if_false, h.1, h.2, if_true]

theorem lexChar_plain (L : Locale) (p : List Nat) (c : Nat × List Nat)
    (h : isPlainChar L c = true) : lexChar L false p c = (false, p ++ c.2, none) := by
  unfold isPlainChar at h
  simp only [Bool.and_eq_true, bne_iff_ne, ne_eq, Bool.not_eq_true'] at h
  simp only [lexChar, Bool.false_eq_true, if_false, h.1, h.2]

theorem lexChars_gaps (L : Locale) : ∀ (g rest : List (Nat × List Nat)),
    (∀ c ∈ g, isGapChar L c = true) →
    lexChars L false [] (g ++ rest) = lexChars L false [] rest := by
  intro g
  induction g with
  | nil => intro rest _; rfl
  | cons c g ih =>
    intro rest hg
    rw [List.cons_append, lexChars, lexChar_gap L [] c (hg c (by simp))]
    simp only [if_true]
    exact ih rest (fun x hx => hg x (by simp [hx]))

theorem lexChars_plains (L : Locale) : ∀ (t rest : List (Nat × List Nat)) (p : List Nat),
    (∀ c ∈ t, isPlainChar L c = true) →
    lexChars L false p (t ++ rest) = lexChars L false (p ++ bytesOf t) rest := by
  intro t
  induction t with
  | nil => intro rest p _; simp [bytesOf]
  | cons c t ih =>
    intro rest p ht
    rw [List.cons_append, lexChars, lexChar_plain L p c (ht c (by simp))]
    simp only
    rw [ih rest _ (fun x hx => ht x (by simp [hx]))]
    simp [bytesOf]

theorem bytesOf_ne_nil (t : List (Nat × List Nat)) (h : t ≠ [])
    (hb : ∀ c ∈ t, c.2 ≠ []) : bytesOf t ≠ [] := by
  obtain ⟨c, t, rfl⟩ := List.exists_cons_of_ne_nil h
  simp only [bytesOf, ne_eq, List.append_eq_nil, not_and]
  intro h1
  exact absurd h1 (hb c (by simp))

theorem lexChars_field (L : Locale) (S : Symbols) (f : Field) (rest : List (Nat × List Nat))
    (hf : f.Ok L S) (hb : ∀ c ∈ f.token, c.2 ≠ []) :
    lexChars L false [] (f.token ++ (f.gap ++ rest))
      = (bytesOf f.token :: (lexChars L false [] rest).1, (lexChars L false [] rest).2) := by
  obtain ⟨h1, h2, h3, h4, -⟩ := hf
  obtain ⟨g, gs, hg⟩ := List.exists_cons_of_ne_nil h3
  rw [lexChars_plains L f.token _ [] h2, hg, List.cons_append, lexChars,
    lexChar_gap L _ g (h4 g (by simp [hg]))]
  simp only [List.nil_append, bytesOf_ne_nil f.token h1 hb, if_false]
  rw [lexChars_gaps L gs rest (fun x hx => h4 x (by simp [hg, hx]))]

theorem lexChars_fields (L : Locale) (S : Symbols) :
    ∀ (fs : List Field) (rest : List (Nat × List Nat)),
    (∀ f ∈ fs, f.Ok L S) → (∀ c ∈ fieldsChars fs, c.2 ≠ []) →
    lexChars L false [] (fieldsChars fs ++ rest)
      = (fs.map (fun f => bytesOf f.token) ++ (lexChars L false [] rest).1,
          (lexChars L false [] rest).2) := by
  intro fs
  induction fs with
  | nil => intro rest _ _; simp [fieldsChars]
  | cons f fs ih =>
    intro rest hf hb
    have e : fieldsChars (f :: fs) ++ rest = f.token ++ (f.gap ++ (fieldsChars fs ++ rest)) := by
      simp [fieldsChars, List.append_assoc]
    rw [e, lexChars_field L S f _ (hf f (by simp))
      (fun c hc => hb c (by simp [fieldsChars, hc])),
      ih rest (fun x hx => hf x (by simp [hx]))
        (fun c hc => hb c (by simp [fieldsChars, hc]))]
    simp

/-- The lexer finds in a line of whitespace-separated unquoted tokens exactly
the tokens of its fields. -/
theorem lexChars_line (L : Locale) (S : Symbols) (l : Line) (hl : l.Ok L S)
    (hv : ∀ c ∈ l.chars, ValidChar L c) :
    lexChars L false [] l.chars = (l.fields.map (fun f => bytesOf f.token), false, []) := by
  have hb : ∀ c ∈ fieldsChars l.fields, c.2 ≠ [] :=
    fun c hc => (hv c (by simp [Line.chars, hc])).1
  have := lexChars_fields L S l.fields [] hl.2 hb
  simp only [List.append_nil] at this
  rw [Line.chars, lexChars_gaps L l.lead _ hl.1, this]
  simp [lexChars]

theorem line_values (L : Locale) (S : Symbols) (l : Line) (hl : l.Ok L S) :
    (l.fields.map (fun f => bytesOf f.token)).map (tokenValue L S)
      = l.values.map Except.ok := by
  simp only [Line.values, List.map_map]
  apply List.map_congr_left
  intro f hf
  exact (hl.2 f hf).2.2.2.2

theorem ended_split (l : Line) (h : l.Ended) :
    ∃ nl, l.chars = l.chars.dropLast ++ [nl] ∧ nl.2 = [10] := by
  obtain ⟨h1, -⟩ := h
  cases hg : l.chars.getLast? with
  | none => rw [hg] at h1; cases h1
  | some nl =>
    rw [hg] at h1
    simp only [Option.map_some', Option.some.injEq] at h1
    exact ⟨nl, (List.dropLast_append_getLast? nl (by rw [hg]; rfl)).symm, h1⟩

/-- A line ended by a newline is one record: its tokens, no quote open, the
input after it left. -/
theorem lexRecord_ended (L : Locale) (S : Symbols) (l : Line) (more : List (Nat × List Nat))
    (hl : l.Ok L S) (he : l.Ended) (hv : ∀ c ∈ l.chars, ValidChar L c) :
    lexRecord L false [] (l.chars ++ more)
      = ⟨l.fields.map (fun f => bytesOf f.token), false, [], true, more⟩ := by
  obtain ⟨nl, h1, h2⟩ := ended_split l he
  have h3 := lexRecord_line L l.chars.dropLast false [] nl more he.2 h2
  have h4 := lexChars_line L S l hl hv
  rw [← h1] at h3
  have e : l.chars ++ more = l.chars.dropLast ++ nl :: more := by
    conv_lhs => rw [h1]
    simp
  rw [e, h3, h4]
  simp

/-- A last line without newline is one record that ends with the input. -/
theorem lexRecord_open (L : Locale) (S : Symbols) (l : Line)
    (hl : l.Ok L S) (ho : l.Open) (hv : ∀ c ∈ l.chars, ValidChar L c) :
    lexRecord L false [] l.chars
      = ⟨l.fields.map (fun f => bytesOf f.token), false, [], false, []⟩ := by
  rw [lexRecord_plain L l.chars false [] ho, lexChars_line L S l hl hv]

theorem utf8_valid_ascii (s : List Nat) (h : ∀ b ∈ s, b < 128) :
    ∀ c ∈ ascii s, ValidChar utf8 c := by
  intro c hc
  simp only [ascii, List.mem_map] at hc
  obtain ⟨b, hb, rfl⟩ := hc
  have hlt := h b hb
  refine ⟨by simp, by simp; exact fun e => e.symm, ?_⟩
  intro rest
  by_cases h0 : b = 0
  · subst h0
    rfl
  · simp [extractWide, utf8, utf8Decode, h0, hlt]

/-! ## The execution driver on lines of tokens -/

theorem nullEvents_zero (first : Nat) : nullEvents first 0 = [] := rfl

/-- One call of bindStream on a line ended by a newline. -/
theorem bindStream_ended (L : Locale) (S : Symbols) (stmt : Stmt) (offset number : Nat)
    (l : Line) (more : List (Nat × List Nat)) (hl : l.Ok L S) (he : l.Ended)
    (hv : ∀ c ∈ l.chars ++ more, ValidChar L c)
    (h1 : offset + l.fields.length ≤ stmt.needed) (h2 : offset + number ≤ stmt.needed) :
    bindStream L S stmt offset number (bytesOf (l.chars ++ more))
      = .ok (true, ⟨stmt.needed, stmt.trace ++ bindEvents (offset + 1) l.values
          ++ nullEvents (offset + l.fields.length + 1) (number - l.fields.length)⟩,
        bytesOf more) := by
  rw [bindStream_lex L S stmt offset number _ hv]
  unfold streamRecord
  rw [lexRecord_ended L S l more hl he (fun c hc => hv c (by simp [hc]))]
  simp only [List.length_map, Bool.false_eq_true, if_false]
  rw [bindTokens_values L S offset _ l.values 0 stmt (line_values L S l hl)
    (by simp only [List.length_map]; omega)]
  simp only
  rw [padNull_ok offset _ _ _ (by simp only; omega)]
  simp only [Nat.zero_add, List.append_assoc]
  have e1 : 1 + offset = offset + 1 := by omega
  have e2 : l.fields.length + 1 + offset = offset + l.fields.length + 1 := by omega
  rw [e1, e2]

/-- One call of bindStream on a last line without newline. -/
theorem bindStream_open (L : Locale) (S : Symbols) (stmt : Stmt) (offset number : Nat)
    (l : Line) (hl : l.Ok L S) (ho : l.Open)
    (hv : ∀ c ∈ l.chars, ValidChar L c)
    (h1 : offset + l.fields.length ≤ stmt.needed) (h2 : offset + number ≤ stmt.needed) :
    bindStream L S stmt offset number (bytesOf l.chars)
      = .ok (false, ⟨stmt.needed, stmt.trace ++ bindEvents (offset + 1) l.values
          ++ nullEvents (offset + l.fields.length + 1) (number - l.fields.length)⟩, []) := by
  rw [bindStream_lex L S stmt offset number _ hv]
  unfold streamRecord
  rw [lexRecord_open L S l hl ho hv]
  simp only [List.length_map, Bool.false_eq_true, if_false]
  rw [bindTokens_values L S offset _ l.values 0 stmt (line_values L S l hl)
    (by simp only [List.length_map]; omega)]
  simp only
  rw [padNull_ok offset _ _ _ (by simp only; omega)]
  simp only [Nat.zero_add, List.append_assoc, bytesOf]
  have e1 : 1 + offset = offset + 1 := by omega
  have e2 : l.fields.length + 1 + offset = offset + l.fields.length + 1 := by omega
  rw [e1, e2]

/-- The loop of sqlWalk over lines ended by a newline and a last line without
one: one execution for each line ended by a newline, none for the last. -/
theorem sqlWalkLoop_lines (L : Locale) (S : Symbols) (number k : Nat) :
    ∀ (lines : List Line) (last : Line) (fuel : Nat) (stmt : Stmt),
    stmt.needed = number + k →
    (∀ l ∈ lines, l.Ok L S ∧ l.Ended ∧ l.fields.length = k) →
    last.Ok L S → last.Open → last.fields.length ≤ k →
    (∀ c ∈ linesChars lines ++ last.chars, ValidChar L c) → lines.length + 1 ≤ fuel →
    sqlWalkLoop L S number fuel stmt (bytesOf (linesChars lines ++ last.chars))
      = .ok (⟨stmt.needed, stmt.trace ++ walkEvents number lines
          ++ (bindEvents (number + 1) last.values
            ++ nullEvents (number + last.fields.length + 1) (k - last.fields.length))⟩,
        []) := by
  intro lines
  induction lines with
  | nil =>
    intro last fuel stmt hk _ hlast hopen hm hv hf
    obtain ⟨f, rfl⟩ : ∃ f, fuel = f + 1 := ⟨fuel - 1, by omega⟩
    simp only [linesChars, List.nil_append] at hv ⊢
    rw [sqlWalkLoop, bindStream_open L S stmt number _ last hlast hopen hv (by omega)
      (by omega)]
    have : stmt.needed - number = k := by omega
    simp only [this, Bool.false_eq_true, if_false, walkEvents, List.append_nil,
      List.append_assoc]
  | cons l ls ih =>
    intro last fuel stmt hk hlines hlast hopen hm hv hf
    obtain ⟨f, rfl⟩ : ∃ f, fuel = f + 1 := ⟨fuel - 1, by omega⟩
    obtain ⟨hl, he, hlk⟩ := hlines l (by simp)
    have e : linesChars (l :: ls) ++ last.chars = l.chars ++ (linesChars ls ++ last.chars) := by
      simp [linesChars, List.append_assoc]
    rw [e] at hv ⊢
    rw [sqlWalkLoop, bindStream_ended L S stmt number _ l _ hl he hv (by omega) (by omega)]
    have hz : stmt.needed - number - l.fields.length = 0 := by omega
    simp only [hz, nullEvents_zero, List.append_nil, if_true]
    rw [ih last f _ (by simp only [sqlite3_reset, fetchRows]; exact hk)
      (fun x hx => hlines x (by simp [hx])) hlast hopen hm
      (fun c hc => hv c (by simp only [List.mem_append] at hc ⊢; right; exact hc))
      (by simp at hf; omega)]
    simp [sqlite3_reset, fetchRows, walkEvents, recordEvents, List.append_assoc]

theorem ended_ne_nil (l : Line) (h : l.Ended) : l.chars ≠ [] := by
  intro e
  have := h.1
  rw [e] at this
  cases this

theorem lines_le_chars : ∀ (lines : List Line), (∀ l ∈ lines, l.Ended) →
    lines.length ≤ (linesChars lines).length := by
  intro lines
  induction lines with
  | nil => intro _; simp
  | cons l ls ih =>
    intro h
    have h1 := List.length_pos.mpr (ended_ne_nil l (h l (by simp)))
    have h2 := ih (fun x hx => h x (by simp [hx]))
    simp only [linesChars, List.length_cons, List.length_append]
    omega

/-- What sqlWalk does with lines of k tokens ended by a newline, followed by
a last line without newline of at most k tokens. -/
theorem sqlWalk_trace (L : Locale) (S : Symbols) (stmt : Stmt) (number k : Nat)
    (lines : List Line) (last : Line) (hk : stmt.needed = number + k) (hpos : 0 < k)
    (hlines : ∀ l ∈ lines, l.Ok L S ∧ l.Ended ∧ l.fields.length = k)
    (hlast : last.Ok L S) (hopen : last.Open) (hm : last.fields.length ≤ k)
    (hv : ∀ c ∈ linesChars lines ++ last.chars, ValidChar L c) :
    sqlWalk L S stmt number (bytesOf (linesChars lines ++ last.chars))
      = .ok (⟨stmt.needed, stmt.trace ++ walkEvents number lines
          ++ (bindEvents (number + 1) last.values
            ++ nullEvents (number + last.fields.length + 1) (k - last.fields.length))⟩,
        []) := by
  unfold sqlWalk
  have hgt : stmt.needed > number := by omega
  simp only [hgt, if_true]
  apply sqlWalkLoop_lines L S number k lines last _ stmt hk hlines hlast hopen hm hv
  have h1 := lines_le_chars lines (fun l hl => (hlines l hl).2.1)
  have h2 := length_le_bytesOf L _ hv
  simp only [List.length_append] at h2
  omega


theorem bindTokens_refused (L : Locale) (S : Symbols) (offset : Nat) :
    ∀ (ts : List (List Nat)) (vs : List Value) (iter : Nat) (stmt : Stmt),
    ts.map (tokenValue L S) = vs.map Except.ok → iter + offset ≤ stmt.needed →
    stmt.needed < iter + ts.length + offset →
    ∃ e, bindTokens L S offset ts iter stmt = .error e := by
  intro ts
  induction ts with
  | nil =>
    intro vs iter stmt _ h1 h2
    simp only [List.length_nil] at h2
    omega
  | cons t ts ih =>
    intro vs iter stmt hv h1 h2
    cases vs with
    | nil => simp at hv
    | cons v vs =>
      simp only [List.map_cons, List.cons.injEq] at hv
      simp only [List.length_cons] at h2
      rw [bindTokens]
      by_cases hr : stmt.needed < iter + 1 + offset
      · obtain ⟨e, he⟩ := bindToken_refused L S t ⟨stmt, iter + 1 + offset⟩ hr
        exact ⟨e, by rw [he]⟩
      · rw [bindToken_value L S t v hv.1 ⟨stmt, iter + 1 + offset⟩ (by simp only; omega)
          (by simp only; omega)]
        simp only
        exact ih vs (iter + 1) _ hv.2 (by simp only [bound]; omega)
          (by simp only [bound]; omega)

/-- C1: for every input stream made of n lines ended by a newline, each
holding exactly k whitespace-separated unquoted tokens, and a statement that
needs k parameters beyond the `number` given by the vector, sqlWalk executes
the statement exactly n times, the i-th execution right after binding the
values of the tokens of line i, in order, to the slots number+1 .. number+k.
The read that meets the end of input sets the k slots to null and is followed
by no execution. -/
theorem sqlWalk_lines (L : Locale) (S : Symbols) (stmt : Stmt) (number k : Nat)
    (lines : List Line) (hk : stmt.needed = number + k) (hpos : 0 < k)
    (hlines : ∀ l ∈ lines, l.Ok L S ∧ l.Ended ∧ l.fields.length = k)
    (hv : ∀ c ∈ linesChars lines, ValidChar L c) :
    sqlWalk L S stmt number (bytesOf (linesChars lines))
      = .ok (⟨stmt.needed, stmt.trace ++ walkEvents number lines
          ++ nullEvents (number + 1) k⟩, []) := by
  have h := sqlWalk_trace L S stmt number k lines ⟨[], []⟩ hk hpos hlines
    ⟨by simp, by simp⟩ (by simp [Line.Open, Line.chars, fieldsChars]) (Nat.zero_le _)
    (by simpa [Line.chars, fieldsChars] using hv)
  simpa [Line.chars, fieldsChars, Line.values, bindEvents] using h

/-- C1 at the lines `1 2` and `3 4` in the UTF-8 locale, for a statement with
two parameters and an empty vector: two executions, with (1, 2) and then
(3, 4). -/
theorem sqlWalk_lines_witness :
    (Stmt.mk 2 []).needed = 0 + 2 ∧ 0 < 2 ∧
    (∀ l ∈ [Line.mk [] [⟨ascii [49], .integer 1, ascii [32]⟩,
          ⟨ascii [50], .integer 2, ascii [10]⟩],
        Line.mk [] [⟨ascii [51], .integer 3, ascii [32]⟩,
          ⟨ascii [52], .integer 4, ascii [10]⟩]],
      l.Ok utf8 Symbols.initial ∧ l.Ended ∧ l.fields.length = 2) ∧
    sqlWalk utf8 Symbols.initial ⟨2, []⟩ 0 [49, 32, 50, 10, 51, 32, 52, 10]
      = .ok (⟨2, [Event.bind 1 (.integer 1), Event.bind 2 (.integer 2), Event.exec,
          Event.reset, Event.bind 1 (.integer 3), Event.bind 2 (.integer 4), Event.exec,
          Event.reset, Event.bind 1 .null, Event.bind 2 .null]⟩, []) :=
  ⟨rfl, by decide, by decide,
    sqlWalk_lines utf8 Symbols.initial ⟨2, []⟩ 0 2
      [Line.mk [] [⟨ascii [49], .integer 1, ascii [32]⟩,
          ⟨ascii [50], .integer 2, ascii [10]⟩],
        Line.mk [] [⟨ascii [51], .integer 3, ascii [32]⟩,
          ⟨ascii [52], .integer 4, ascii [10]⟩]]
      rfl (by decide) (by decide)
      (utf8_valid_ascii [49, 32, 50, 10, 51, 32, 52, 10] (by decide))⟩

/-- C7, as stated, fails: on the input `1 2`, newline, `3 4`, space, with no
final newline, the last record (3, 4) is bound and sqlWalk ends without
executing it; the statement is executed once, for the first line only. -/
theorem sqlWalk_drops_last_record :
    sqlWalk utf8 Symbols.initial ⟨2, []⟩ 0 [49, 32, 50, 10, 51, 32, 52, 32]
      = .ok (⟨2, [Event.bind 1 (.integer 1), Event.bind 2 (.integer 2), Event.exec,
          Event.reset, Event.bind 1 (.integer 3), Event.bind 2 (.integer 4)]⟩, []) := by
  decide

/-- C7, amended: in the streaming loop a record is executed only when the
read that ended its collection found a newline.  For every input made of
lines of k whitespace-separated unquoted tokens ended by a newline and a last
line of at most k whitespace-terminated tokens without final newline, each
line ended by a newline is bound, executed once and reset, in order, and the
tokens of the last line are bound, the slots left set to null, and sqlWalk
ends without executing them. -/
theorem sqlWalk_last_record (L : Locale) (S : Symbols) (stmt : Stmt) (number k : Nat)
    (lines : List Line) (last : Line) (hk : stmt.needed = number + k) (hpos : 0 < k)
    (hlines : ∀ l ∈ lines, l.Ok L S ∧ l.Ended ∧ l.fields.length = k)
    (hlast : last.Ok L S) (hopen : last.Open) (hm : last.fields.length ≤ k)
    (hv : ∀ c ∈ linesChars lines ++ last.chars, ValidChar L c) :
    sqlWalk L S stmt number (bytesOf (linesChars lines ++ last.chars))
      = .ok (⟨stmt.needed, stmt.trace ++ walkEvents number lines
          ++ (bindEvents (number + 1) last.values
            ++ nullEvents (number + last.fields.length + 1) (k - last.fields.length))⟩,
        []) :=
  sqlWalk_trace L S stmt number k lines last hk hpos hlines hlast hopen hm hv

/-- C7, amended, at the line `1 2` and the last line `3 4`, space, without
newline. -/
theorem sqlWalk_last_record_witness :
    (Stmt.mk 2 []).needed = 0 + 2 ∧ 0 < 2 ∧
    (∀ l ∈ [Line.mk [] [⟨ascii [49], .integer 1, ascii [32]⟩,
          ⟨ascii [50], .integer 2, ascii [10]⟩]],
      l.Ok utf8 Symbols.initial ∧ l.Ended ∧ l.fields.length = 2) ∧
    (Line.mk [] [⟨ascii [51], .integer 3, ascii [32]⟩,
        ⟨ascii [52], .integer 4, ascii [32]⟩]).Ok utf8 Symbols.initial ∧
    (Line.mk [] [⟨ascii [51], .integer 3, ascii [32]⟩,
        ⟨ascii [52], .integer 4, ascii [32]⟩]).Open ∧
    sqlWalk utf8 Symbols.initial ⟨2, []⟩ 0 [49, 32, 50, 10, 51, 32, 52, 32]
      = .ok (⟨2, [Event.bind 1 (.integer 1), Event.bind 2 (.integer 2), Event.exec,
          Event.reset, Event.bind 1 (.integer 3), Event.bind 2 (.integer 4)]⟩, []) :=
  ⟨rfl, by decide, by decide, by decide, by decide,
    sqlWalk_last_record utf8 Symbols.initial ⟨2, []⟩ 0 2
      [Line.mk [] [⟨ascii [49], .integer 1, ascii [32]⟩,
          ⟨ascii [50], .integer 2, ascii [10]⟩]]
      (Line.mk [] [⟨ascii [51], .integer 3, ascii [32]⟩,
        ⟨ascii [52], .integer 4, ascii [32]⟩])
      rfl (by decide) (by decide) (by decide) (by decide) (by decide)
      (utf8_valid_ascii [49, 32, 50, 10, 51, 32, 52, 32] (by decide))⟩

/-- C8: for every record, of input made of complete characters, whose
collection ends with no quote open after only k < number tokens were
produced, bindStream binds the values of those k tokens to the slots
offset+1 .. offset+k in input order and then null to each of the slots
offset+k+1 .. offset+number, each slot once. -/
theorem bindStream_pads (L : Locale) (S : Symbols) (stmt : Stmt) (offset number : Nat)
    (cs : List (Nat × List Nat)) (vs : List Value) (hv : ∀ c ∈ cs, ValidChar L c)
    (hq : (lexRecord L false [] cs).quote = false)
    (hvals : (lexRecord L false [] cs).tokens.map (tokenValue L S) = vs.map Except.ok)
    (hk : vs.length < number) (hn : offset + number ≤ stmt.needed) :
    bindStream L S stmt offset number (bytesOf cs)
      = .ok ((lexRecord L false [] cs).ret,
          ⟨stmt.needed, stmt.trace ++ bindEvents (offset + 1) vs
            ++ nullEvents (offset + vs.length + 1) (number - vs.length)⟩,
          bytesOf (lexRecord L false [] cs).rest) := by
  have hlen : (lexRecord L false [] cs).tokens.length = vs.length := by
    have := congrArg List.length hvals
    simpa using this
  rw [bindStream_lex L S stmt offset number _ hv]
  unfold streamRecord
  rw [bindTokens_values L S offset _ vs 0 stmt hvals (by omega)]
  simp only [hq, Bool.false_eq_true, if_false, hlen]
  rw [padNull_ok offset _ _ _ (by simp only; omega)]
  simp only [Nat.zero_add, List.append_assoc]
  have e1 : 1 + offset = offset + 1 := by omega
  have e2 : vs.length + 1 + offset = offset + vs.length + 1 := by omega
  rw [e1, e2]

/-- C8 at the token `[5]` followed by a space and the end of the input, with
three slots to fill: a zero blob of length 5 goes to the first slot and null
to the other two. -/
theorem bindStream_pads_witness :
    (lexRecord utf8 false [] (ascii [91, 53, 93, 32])).quote = false ∧
    (lexRecord utf8 false [] (ascii [91, 53, 93, 32])).tokens.map
        (tokenValue utf8 Symbols.initial) = [Value.zeroblob 5].map Except.ok ∧
    [Value.zeroblob 5].length < 3 ∧
    bindStream utf8 Symbols.initial ⟨3, []⟩ 0 3 [91, 53, 93, 32]
      = .ok (false, ⟨3, [Event.bind 1 (.zeroblob 5), Event.bind 2 .null,
          Event.bind 3 .null]⟩, []) :=
  ⟨by decide, by decide, by decide,
    bindStream_pads utf8 Symbols.initial ⟨3, []⟩ 0 3 (ascii [91, 53, 93, 32])
      [Value.zeroblob 5] (utf8_valid_ascii [91, 53, 93, 32] (by decide)) (by decide)
      (by decide) (by decide) (by decide)⟩

/-! ## Malformed blob tokens -/

theorem scanNibble_other (c : Nat) (h : ¬ IsHexDigit c) :
    scanNibble c = .error .invalidNibble := by
  unfold IsHexDigit at h
  have e : scan_fromhex c = -1 := by
    unfold scan_fromhex
    split_ifs <;> first | rfl | omega
  simp [scanNibble, e]

theorem scanOctet_other (a b : Nat) (h : ¬ IsHexDigit a ∨ ¬ IsHexDigit b) :
    scanOctet a b = .error .invalidNibble := by
  unfold scanOctet
  by_cases ha : IsHexDigit a
  · rw [scanNibble_hex a ha]
    rcases h with h | h
    · exact absurd ha h
    · simp only [scanNibble_other b h]
  · simp only [scanNibble_other a ha]

/-- The loop of bindBlob ends with the nibble diagnosis when a byte it has yet
to read is no hexadecimal digit. -/
theorem bindBlobLoop_other : ∀ (count iter : Nat) (buf : List Nat),
    (∃ j, 2 * iter + 1 ≤ j ∧ j ≤ 2 * (iter + count) ∧ ¬ IsHexDigit (buf.getD j 0)) →
    bindBlobLoop count iter buf = .error .invalidNibble := by
  intro count
  induction count with
  | zero =>
    intro iter buf h
    obtain ⟨j, h1, h2, _⟩ := h
    omega
  | succ count ih =>
    intro iter buf h
    obtain ⟨j, h1, h2, h3⟩ := h
    unfold bindBlobLoop
    by_cases hbad : ¬ IsHexDigit (buf.getD (iter * 2 + 1) 0) ∨
        ¬ IsHexDigit (buf.getD (iter * 2 + 2) 0)
    · simp only [scanOctet_other _ _ hbad]
    · have ha : IsHexDigit (buf.getD (iter * 2 + 1) 0) := by
        by_contra hc; exact hbad (Or.inl hc)
      have hb : IsHexDigit (buf.getD (iter * 2 + 2) 0) := by
        by_contra hc; exact hbad (Or.inr hc)
      rw [scanOctet_hex _ _ ha hb]
      simp only
      apply ih
      have hj1 : j ≠ iter * 2 + 1 := by
        intro e; rw [e] at h3; exact h3 ha
      have hj2 : j ≠ iter * 2 + 2 := by
        intro e; rw [e] at h3; exact h3 hb
      refine ⟨j, by omega, by omega, ?_⟩
      rw [getD_set_ne _ _ _ _ (by omega)]
      exact h3

/-- A list of two or more bytes is its first byte, the bytes between, and its
last byte. -/
theorem frame (token : List Nat) (z : Nat) (h1 : 2 ≤ token.length)
    (h3 : token.getLast? = some z) :
    token = token.getD 0 0 :: (token.drop 1).take (token.length - 2) ++ [z] := by
  have e := List.dropLast_append_getLast? z (by rw [h3]; exact rfl : z ∈ token.getLast?)
  cases token with
  | nil => simp at h1
  | cons a t =>
    simp only [List.length_cons] at h1
    cases t with
    | nil => simp at h1
    | cons b t =>
      rw [List.dropLast_cons₂, List.dropLast_eq_take] at e
      conv_lhs => rw [← e]
      simp

theorem mem_interior (token : List Nat) (c : Nat) (h2 : 2 ≤ token.length)
    (hc : c ∈ (token.drop 1).take (token.length - 2)) :
    ∃ j, 1 ≤ j ∧ j ≤ token.length - 2 ∧ token.getD j 0 = c := by
  obtain ⟨i, hi, e⟩ := List.getElem_of_mem hc
  simp only [List.length_take, List.length_drop] at hi
  refine ⟨i + 1, by omega, by omega, ?_⟩
  rw [List.getElem_take, List.getElem_drop] at e
  rw [List.getD_eq_getElem?_getD, List.getElem?_eq_getElem (by omega)]
  simp only [Option.getD_some]
  rw [← e]
  congr 1
  omega

/-- C11: bindBlob is fatal, in the part before its bind call and so with
nothing bound, for every token whose length is odd or below 2, whose last
byte is not the closing brace, or that has a byte other than a hexadecimal
digit between its first and last byte; for every other token it binds a blob,
on every statement that has the slot. -/
theorem bindBlob_fatal_iff (token : List Nat) :
    (BlobMalformed token →
      ∃ e, blobValue token = .error e ∧ ∀ param, bindBlob param token = .error e) ∧
    (¬ BlobMalformed token → ∀ param : Param, 1 ≤ param.index →
      param.index ≤ param.stmt.needed →
      ∃ bytes, bindBlob param token = .ok (bound param.stmt param.index (.blob bytes))) := by
  constructor
  · intro h
    have key : ∃ e, blobValue token = .error e := by
      unfold BlobMalformed at h
      unfold blobValue
      by_cases c1 : token.length % 2 ≠ 0
      · exact ⟨_, if_pos c1⟩
      · rw [if_neg c1]
        by_cases c2 : token.length < 2 ∨ token.getD (token.length - 1) 0 ≠ 125
        · exact ⟨_, if_pos c2⟩
        · rw [if_neg c2]
          have hlen : 2 ≤ token.length := by omega
          have hne : token ≠ [] := by
            intro e; subst e; simp at hlen
          have hlast : token.getLast? = some 125 := by
            rw [getLast_eq_getD token hne]
            have : token.getD (token.length - 1) 0 = 125 := by
              by_contra hc; exact c2 (Or.inr hc)
            rw [this]
          rcases h with h | h | h | ⟨c, hc, hbad⟩
          · omega
          · omega
          · exact absurd hlast h
          · obtain ⟨j, j1, j2, je⟩ := mem_interior token c hlen hc
            have hloop := bindBlobLoop_other (token.length / 2 - 1) 0 token
              ⟨j, by omega, by omega, by rw [je]; exact hbad⟩
            simp only [hloop]
            exact ⟨_, rfl⟩
    obtain ⟨e, he⟩ := key
    refine ⟨e, he, ?_⟩
    intro param
    unfold bindBlob
    simp only [he]
  · intro h param hlo hhi
    unfold BlobMalformed at h
    have h1 : ¬ token.length % 2 = 1 := fun c => h (Or.inl c)
    have h2 : ¬ token.length < 2 := fun c => h (Or.inr (Or.inl c))
    have h3 : token.getLast? = some 125 := by
      by_contra c; exact h (Or.inr (Or.inr (Or.inl c)))
    have h4 : ∀ c ∈ (token.drop 1).take (token.length - 2), IsHexDigit c := by
      intro c hc
      by_contra hbad
      exact h (Or.inr (Or.inr (Or.inr ⟨c, hc, hbad⟩)))
    have hf := frame token 125 (by omega) h3
    obtain ⟨bytes, hv, _, _⟩ := blobValue_hex (token.getD 0 0)
      ((token.drop 1).take (token.length - 2)) (token.length / 2 - 1)
      (by simp only [List.length_take, List.length_drop]; omega) h4
    rw [← hf] at hv
    refine ⟨bytes, ?_⟩
    unfold bindBlob
    rw [hv]
    exact bindOrDie_ok _ _ _ hlo hhi

/-- C11 at the tokens `{0A` (no closing brace, odd length) and `{0}` (odd
length), which are fatal, and at `{0A}`, which is bound. -/
theorem bindBlob_fatal_iff_witness :
    BlobMalformed [123, 48, 65] ∧ BlobMalformed [123, 48, 125] ∧
    ¬ BlobMalformed [123, 48, 65, 125] ∧
    (∃ e, blobValue [123, 48, 65] = .error e ∧
      ∀ param, bindBlob param [123, 48, 65] = .error e) ∧
    (∃ e, blobValue [123, 48, 125] = .error e ∧
      ∀ param, bindBlob param [123, 48, 125] = .error e) ∧
    ∃ bytes, bindBlob ⟨⟨1, []⟩, 1⟩ [123, 48, 65, 125]
      = .ok (bound ⟨1, []⟩ 1 (.blob bytes)) :=
  ⟨by decide, by decide, by decide,
    (bindBlob_fatal_iff [123, 48, 65]).1 (by decide),
    (bindBlob_fatal_iff [123, 48, 125]).1 (by decide),
    (bindBlob_fatal_iff [123, 48, 65, 125]).2 (by decide) ⟨⟨1, []⟩, 1⟩ (by decide)
      (by decide)⟩

/-! ## Zero blob tokens: what the conversion accepts -/

theorem drop_takeWhile (p : Nat → Bool) : ∀ (u : List Nat),
    u.drop (u.takeWhile p).length = u.dropWhile p := by
  intro u
  induction u with
  | nil => rfl
  | cons a u ih =>
    by_cases h : p a = true
    · simp [List.takeWhile_cons, List.dropWhile_cons, h, ih]
    · simp [List.takeWhile_cons, List.dropWhile_cons, h]

theorem take_takeWhile (p : Nat → Bool) : ∀ (u : List Nat),
    u.take (u.takeWhile p).length = u.takeWhile p := by
  intro u
  induction u with
  | nil => rfl
  | cons a u ih =>
    by_cases h : p a = true
    · simp [List.takeWhile_cons, h, ih]
    · simp [List.takeWhile_cons, h]

/-- What a run of the digit scan has read: `n` bytes, all digits of the
base. -/
theorem scanDigits_read (base : Nat) : ∀ (t : List Nat) (acc k : Nat),
    ∃ n, (scanDigits base t acc k).2 = k + n ∧ n ≤ t.length ∧
      ∀ c ∈ t.take n, digitValue c < base := by
  intro t
  induction t with
  | nil =>
    intro acc k
    exact ⟨0, by simp [scanDigits], by simp, by simp⟩
  | cons a t ih =>
    intro acc k
    by_cases h : digitValue a < base
    · obtain ⟨n, h1, h2, h3⟩ := ih (acc * base + digitValue a) (k + 1)
      refine ⟨n + 1, ?_, by simp; omega, ?_⟩
      · simp only [scanDigits, h, if_true, h1]
        omega
      · intro c hc
        simp only [List.take_succ_cons, List.mem_cons] at hc
        rcases hc with rfl | hc
        · exact h
        · exact h3 c hc
    · exact ⟨0, by simp [scanDigits, h], by simp, by simp⟩

theorem digitValue_lt_dec (c : Nat) (h : digitValue c < 10) : 48 ≤ c ∧ c ≤ 57 := by
  unfold digitValue at h
  split_ifs at h <;> omega

theorem digitValue_lt_oct (c : Nat) (h : digitValue c < 8) : 48 ≤ c ∧ c ≤ 55 := by
  unfold digitValue at h
  split_ifs at h <;> omega

theorem digitValue_lt_hex (c : Nat) (h : digitValue c < 16) : IsHexDigit c := by
  unfold digitValue at h
  unfold IsHexDigit
  split_ifs at h <;> omega

/-- What the digits of a conversion have read, when they have read something,
is the text of a well-formed literal without sign. -/
theorem scanBody_read (t : List Nat) (h : (scanBody t).2 ≠ 0) :
    ∃ form digits, (IntLiteral.mk Sign.none form digits).WellFormed ∧
      (scanBody t).2 ≤ t.length ∧ t.take (scanBody t).2 = form.intro ++ digits := by
  by_cases hx : hexIntro t = true
  · -- hexadecimal
    have hx2 := hx
    unfold hexIntro at hx2
    split at hx2
    · rename_i x d u
      simp only [Bool.and_eq_true, Bool.or_eq_true, beq_iff_eq, decide_eq_true_eq] at hx2
      obtain ⟨n, h1, h2, h3⟩ := scanDigits_read 16 (d :: u) 0 0
      have hb : scanBody (48 :: x :: d :: u)
          = if n = 0 then (0, 0) else ((scanDigits 16 (d :: u) 0 0).1, 2 + n) := by
        simp only [scanBody, hx, if_true, List.drop_succ_cons, List.drop_zero, h1, Nat.zero_add]
      rw [hb] at h ⊢
      have hn : n ≠ 0 := by
        intro e; simp [e] at h
      simp only [hn, if_false]
      have hd : ∀ c ∈ (d :: u).take n, IsHexDigit c := fun c hc => digitValue_lt_hex c (h3 c hc)
      have hne : (d :: u).take n ≠ [] := by
        cases n with
        | zero => exact absurd rfl hn
        | succ n => simp
      rcases hx2.1 with rfl | rfl
      · refine ⟨.hexLower, (d :: u).take n, ⟨hne, hd⟩, ?_, ?_⟩
        · simp only [List.length_cons] at h2 ⊢; omega
        · have e : 2 + n = n + 1 + 1 := by omega
          rw [e]
          rfl
      · refine ⟨.hexUpper, (d :: u).take n, ⟨hne, hd⟩, ?_, ?_⟩
        · simp only [List.length_cons] at h2 ⊢; omega
        · have e : 2 + n = n + 1 + 1 := by omega
          rw [e]
          rfl
    · cases hx2
  · have hx3 : hexIntro t = false := by simpa using hx
    by_cases h0 : t.head? = some 48
    · -- octal
      obtain ⟨n, h1, h2, h3⟩ := scanDigits_read 8 t 0 0
      have hb : scanBody t = if n = 0 then (0, 0) else ((scanDigits 8 t 0 0).1, n) := by
        simp [scanBody, hx3, h0, h1]
      rw [hb] at h ⊢
      have hn : n ≠ 0 := by
        intro e; simp [e] at h
      simp only [hn, if_false]
      cases t with
      | nil => simp at h0
      | cons a u =>
        simp only [List.head?_cons, Option.some.injEq] at h0
        subst h0
        obtain ⟨m, rfl⟩ : ∃ m, n = m + 1 := ⟨n - 1, by omega⟩
        refine ⟨.octal, u.take m, ?_, h2, rfl⟩
        intro c hc
        exact digitValue_lt_oct c (h3 c (by simp [hc]))
    · -- decimal
      obtain ⟨n, h1, h2, h3⟩ := scanDigits_read 10 t 0 0
      have hb : scanBody t = if n = 0 then (0, 0) else ((scanDigits 10 t 0 0).1, n) := by
        simp [scanBody, hx3, h0, h1]
      rw [hb] at h ⊢
      have hn : n ≠ 0 := by
        intro e; simp [e] at h
      simp only [hn, if_false]
      refine ⟨.decimal, t.take n, ⟨?_, ?_, ?_⟩, h2, rfl⟩
      · cases t with
        | nil => simp at h2; exact absurd h2 hn
        | cons a u =>
          cases n with
          | zero => exact absurd rfl hn
          | succ n => simp
      · cases t with
        | nil => simp
        | cons a u =>
          cases n with
          | zero => exact absurd rfl hn
          | succ n => simpa using h0
      · intro c hc
        exact digitValue_lt_dec c (h3 c hc)

theorem wellFormed_any_sign (sign : Sign) (form : LitForm) (digits : List Nat)
    (hwf : (IntLiteral.mk Sign.none form digits).WellFormed) :
    (IntLiteral.mk sign form digits).WellFormed := by
  unfold IntLiteral.WellFormed at hwf ⊢
  exact hwf

/-- What a conversion has read, when it has read something, is white space
and then the text of a well-formed literal. -/
theorem scanInteger_read (u : List Nat) (h : (scanInteger u).stop ≠ 0) :
    ∃ ws lit, (∀ c ∈ ws, isspace c = true) ∧ IntLiteral.WellFormed lit ∧
      (scanInteger u).stop ≤ u.length ∧ u.take (scanInteger u).stop = ws ++ lit.text := by
  have hu : u = u.takeWhile isspace ++ u.dropWhile isspace :=
    (List.takeWhile_append_dropWhile isspace u).symm
  have hws : ∀ c ∈ u.takeWhile isspace, isspace c = true :=
    fun c hc => List.mem_takeWhile_imp hc
  have hd := drop_takeWhile isspace u
  generalize hwsdef : u.takeWhile isspace = ws at hu hws hd
  generalize hs1def : u.dropWhile isspace = s1 at hu hd
  have key : ∀ (sign : Sign) (body : List Nat), s1 = sign.text ++ body →
      ((scanInteger u).stop = if (scanBody body).2 = 0 then 0
        else ws.length + sign.text.length + (scanBody body).2) →
      ∃ ws lit, (∀ c ∈ ws, isspace c = true) ∧ IntLiteral.WellFormed lit ∧
        (scanInteger u).stop ≤ u.length ∧ u.take (scanInteger u).stop = ws ++ lit.text := by
    intro sign body hs1 hstop
    have hr : (scanBody body).2 ≠ 0 := by
      intro e
      rw [hstop, if_pos e] at h
      exact h rfl
    rw [hstop, if_neg hr]
    obtain ⟨form, digits, hwf, hle, htake⟩ := scanBody_read body hr
    refine ⟨ws, ⟨sign, form, digits⟩, hws, wellFormed_any_sign sign form digits hwf, ?_, ?_⟩
    · rw [hu, hs1]
      simp only [List.length_append]
      omega
    · rw [hu, hs1]
      simp only [IntLiteral.text]
      rw [Nat.add_assoc, List.take_append, List.take_append, htake]
  cases s1 with
  | nil =>
    exact key Sign.none [] rfl (by simp [scanInteger, hwsdef, hd, Sign.text]; split_ifs <;> rfl)
  | cons a t =>
    by_cases h45 : a = 45
    · subst h45
      exact key Sign.minus t rfl (by simp [scanInteger, hwsdef, hd, Sign.text]; split_ifs <;> rfl)
    · by_cases h43 : a = 43
      · subst h43
        exact key Sign.plus t rfl (by simp [scanInteger, hwsdef, hd, Sign.text]; split_ifs <;> rfl)
      · exact key Sign.none (a :: t) rfl
          (by simp [scanInteger, hwsdef, hd, Sign.text, h45, h43]; split_ifs <;> rfl)

/-- A conversion that reads the whole of a non-empty string, whatever comes
after it, has read white space and then a well-formed literal. -/
theorem scanInteger_whole (s rest : List Nat) (hs : s ≠ [])
    (h : (scanInteger (s ++ rest)).stop = s.length) :
    ∃ ws lit, (∀ c ∈ ws, isspace c = true) ∧ IntLiteral.WellFormed lit ∧ s = ws ++ lit.text := by
  have hne : (scanInteger (s ++ rest)).stop ≠ 0 := by
    rw [h]
    intro e
    exact hs (List.length_eq_zero.mp e)
  obtain ⟨ws, lit, h1, h2, _, h4⟩ := scanInteger_read (s ++ rest) hne
  rw [h, List.take_left] at h4
  exact ⟨ws, lit, h1, h2, h4⟩

/-- The digits of a well-formed literal are read to their end when a byte
that is no letter and no digit, or nothing, comes after them. -/
theorem scanBody_then (form : LitForm) (digits rest : List Nat)
    (hwf : (IntLiteral.mk Sign.none form digits).WellFormed)
    (hr : ∀ c, rest.head? = some c → digitValue c = 36) :
    scanBody (form.intro ++ digits ++ rest)
      = (digitsValue form.radix digits, (form.intro ++ digits).length) := by
  have hr2 : ∀ base, base ≤ 16 → ∀ c, rest.head? = some c → ¬ digitValue c < base := by
    intro base hb c hc
    have := hr c hc
    omega
  unfold IntLiteral.WellFormed at hwf
  cases form
  · simp only at hwf
    obtain ⟨hne, h0, hd⟩ := hwf
    obtain ⟨d, ds, rfl⟩ := List.exists_cons_of_ne_nil hne
    have hd48 : d ≠ 48 := by simpa using h0
    have hrun := scanDigits_run 10 (d :: ds) rest 0 0 (fun c hc => digitValue_dec c (hd c hc))
      (hr2 10 (by omega))
    have hx : hexIntro (d :: ds ++ rest) = false := by
      unfold hexIntro
      split
      · rename_i heq; simp at heq; omega
      · rfl
    simp only [List.cons_append] at hrun hx
    simp [scanBody, LitForm.intro, LitForm.radix, hx, hd48, hrun, digitsValue]
  · simp only at hwf
    have hrun := scanDigits_run 8 (48 :: digits) rest 0 0
      (fun c hc => digitValue_oct c (by
        simp only [List.mem_cons] at hc
        rcases hc with rfl | hc
        · omega
        · exact hwf c hc))
      (hr2 8 (by omega))
    have hx : hexIntro (48 :: digits ++ rest) = false := by
      unfold hexIntro
      split
      · rename_i x d t heq
        simp only [List.cons_append, List.cons.injEq, true_and] at heq
        cases digits with
        | nil =>
          have := hr x (by rw [List.nil_append] at heq; rw [heq]; rfl)
          have e1 : digitValue 120 = 33 := by decide
          have e2 : digitValue 88 = 33 := by decide
          have hx1 : x ≠ 120 := by intro e; rw [e] at this; omega
          have hx2 : x ≠ 88 := by intro e; rw [e] at this; omega
          simp [hx1, hx2]
        | cons y ys =>
          simp only [List.cons_append, List.cons.injEq] at heq
          have := hwf x (by simp [heq.1])
          simp; omega
      · rfl
    simp only [List.cons_append] at hrun hx
    simp [scanBody, LitForm.intro, LitForm.radix, hx, hrun, digitsValue, hexDigit]
  · simp only at hwf
    obtain ⟨hne, hd⟩ := hwf
    obtain ⟨d, ds, rfl⟩ := List.exists_cons_of_ne_nil hne
    have hrun := scanDigits_run 16 (d :: ds) rest 0 0 (fun c hc => digitValue_hex c (hd c hc))
      (hr2 16 (by omega))
    have hx : hexIntro (48 :: 120 :: d :: ds ++ rest) = true := by
      simp [hexIntro, (digitValue_hex d (hd d (by simp))).1]
    simp only [List.cons_append] at hrun hx
    simp [scanBody, LitForm.intro, LitForm.radix, hx, hrun, digitsValue]
    omega
  · simp only at hwf
    obtain ⟨hne, hd⟩ := hwf
    obtain ⟨d, ds, rfl⟩ := List.exists_cons_of_ne_nil hne
    have hrun := scanDigits_run 16 (d :: ds) rest 0 0 (fun c hc => digitValue_hex c (hd c hc))
      (hr2 16 (by omega))
    have hx : hexIntro (48 :: 88 :: d :: ds ++ rest) = true := by
      simp [hexIntro, (digitValue_hex d (hd d (by simp))).1]
    simp only [List.cons_append] at hrun hx
    simp [scanBody, LitForm.intro, LitForm.radix, hx, hrun, digitsValue]
    omega

/-- The conversion of the text of a well-formed literal reads all of it and
no more when a byte that is no letter and no digit, or nothing, comes after
it. -/
theorem scanInteger_then (lit : IntLiteral) (rest : List Nat) (hwf : lit.WellFormed)
    (hr : ∀ c, rest.head? = some c → digitValue c = 36) :
    scanInteger (lit.text ++ rest)
      = ⟨decide (lit.sign = Sign.minus), digitsValue lit.form.radix lit.digits,
          lit.text.length⟩ := by
  have hb := scanBody_then lit.form lit.digits rest (wellFormed_sign lit hwf) hr
  obtain ⟨_, d, more, hcons, hd1, hd2⟩ :=
    scanBody_literal lit.form lit.digits (wellFormed_sign lit hwf)
  have hsp : isspace d = false := by
    unfold isspace; simp; omega
  have hd45 : d ≠ 45 := by omega
  have hd43 : d ≠ 43 := by omega
  have hlen : (lit.form.intro ++ lit.digits).length ≠ 0 := by rw [hcons]; simp
  obtain ⟨sign, form, digits⟩ := lit
  simp only at hb hcons hlen
  have hr : digitsValue form.radix digits
      = digitsValue (IntLiteral.mk sign form digits).form.radix
          (IntLiteral.mk sign form digits).digits := rfl
  rw [← hr]
  simp only [IntLiteral.text]
  generalize form.intro ++ digits = body at hb hcons hlen
  subst hcons
  cases sign
  · simp only [Sign.text, List.nil_append, scanInteger]
    simp only [List.cons_append] at hb ⊢
    simp [List.takeWhile, hsp, hd45, hd43, hb]
  · simp only [Sign.text, scanInteger]
    simp only [List.cons_append, List.nil_append] at hb ⊢
    simp [List.takeWhile, isspace, hb]
    omega
  · simp only [Sign.text, scanInteger]
    simp only [List.cons_append, List.nil_append] at hb ⊢
    simp [List.takeWhile, isspace, hb]
    omega

theorem strtoul_stop (s : List Nat) : (strtoul s).2.1 = (scanInteger s).stop := by
  unfold strtoul
  dsimp only
  split_ifs <;> rfl

theorem inside (a z : Nat) (s : List Nat) :
    (a :: s ++ [z]).drop 1 = s ++ [z] ∧ (a :: s ++ [z]).length - 2 = s.length := by
  constructor
  · rfl
  · simp

theorem closed_by (a z : Nat) (s : List Nat) :
    ¬ ((a :: s ++ [z]).length < 2 ∨ (a :: s ++ [z]).getD ((a :: s ++ [z]).length - 1) 0 ≠ z) := by
  have h := getLast_eq_getD (a :: s ++ [z]) (by simp)
  have h2 : (a :: s ++ [z]).getLast? = some z := by
    rw [List.getLast?_append]
    rfl
  rw [h2] at h
  simp only [Option.some.injEq] at h
  intro hc
  rcases hc with hc | hc
  · simp at hc
    omega
  · exact hc h.symm

/-- C12, as stated, fails: the token `[]`, with no digit at all, binds a zero
blob of length 0, and the token `[+5]`, with a sign, binds one of length 5;
neither is fatal. -/
theorem bindZero_takes_sign_and_empty :
    bindZero ⟨⟨1, []⟩, 1⟩ [91, 93] = .ok (bound ⟨1, []⟩ 1 (.zeroblob 0)) ∧
    bindZero ⟨⟨1, []⟩, 1⟩ [91, 43, 53, 93] = .ok (bound ⟨1, []⟩ 1 (.zeroblob 5)) := by
  decide

/-- C12, amended: bindZero parses the interior of `[`...`]` with strtoul and
requires the parse to end exactly where the interior ends.  A token `[`d`]`
with d a well-formed literal (decimal, 0x-hexadecimal or 0-octal), with or
without a `+` before it, of value N below 2^31 binds a zero blob of length
exactly N; the token `[]` binds a zero blob of length 0; and every token
whose interior is not empty and is not, after white space, entirely a
literal with or without sign is fatal with "invalid zero blob length". -/
theorem bindZero_consumes (param : Param) (hlo : 1 ≤ param.index)
    (hhi : param.index ≤ param.stmt.needed) :
    (∀ lit : IntLiteral, lit.WellFormed → lit.sign ≠ Sign.minus → lit.value < 2 ^ 31 →
      bindZero param (91 :: lit.text ++ [93])
        = .ok (bound param.stmt param.index (.zeroblob lit.value))) ∧
    bindZero param [91, 93] = .ok (bound param.stmt param.index (.zeroblob 0)) ∧
    ∀ s : List Nat, s ≠ [] →
      (¬ ∃ ws lit, (∀ c ∈ ws, isspace c = true) ∧ IntLiteral.WellFormed lit ∧
        s = ws ++ lit.text) →
      bindZero param (91 :: s ++ [93]) = .error .invalidZeroLength := by
  have ha : allOnes = 2 ^ 64 - 1 := by decide
  refine ⟨?_, ?_, ?_⟩
  · intro lit hwf hsign hval
    have hs := scanInteger_then lit [93] hwf (by
      intro c hc
      simp only [List.head?_cons, Option.some.injEq] at hc
      subst hc
      decide)
    have hneg : decide (lit.sign = Sign.minus) = false := by simpa using hsign
    have hv : lit.value = (digitsValue lit.form.radix lit.digits : Int) := by
      unfold IntLiteral.value
      cases hsg : lit.sign
      · rfl
      · rfl
      · exact absurd hsg hsign
    rw [hv] at hval ⊢
    have hm : digitsValue lit.form.radix lit.digits < 2 ^ 31 := by exact_mod_cast hval
    have hst : strtoul (lit.text ++ [93])
        = (digitsValue lit.form.radix lit.digits, lit.text.length, false) := by
      unfold strtoul
      rw [hs, hneg]
      simp only [ULONG_MAX, Bool.false_eq_true, if_false]
      rw [if_neg (by omega)]
    unfold bindZero
    rw [if_neg (closed_by 91 93 lit.text)]
    simp only [(inside 91 93 lit.text).1, (inside 91 93 lit.text).2, hst]
    rw [if_neg (by simp), if_neg (by rw [ha]; omega)]
    have h32 : toInt32 (digitsValue lit.form.radix lit.digits)
        = (digitsValue lit.form.radix lit.digits : Int) := by
      unfold toInt32
      have e : digitsValue lit.form.radix lit.digits % 2 ^ 32
          = digitsValue lit.form.radix lit.digits := Nat.mod_eq_of_lt (by omega)
      rw [e, if_pos hm]
    rw [h32]
    exact bindOrDie_ok _ _ _ hlo hhi
  · have e : bindZero param [91, 93] = bindOrDie .bindZero param (.zeroblob 0) := by
      unfold bindZero
      rfl
    rw [e]
    exact bindOrDie_ok _ _ _ hlo hhi
  · intro s hs hnot
    have hstop : (strtoul (s ++ [93])).2.1 ≠ s.length := by
      rw [strtoul_stop]
      intro hc
      exact hnot (scanInteger_whole s [93] hs hc)
    unfold bindZero
    rw [if_neg (closed_by 91 93 s)]
    simp only [(inside 91 93 s).1, (inside 91 93 s).2]
    rw [if_pos hstop]

/-- C12, amended, on a statement with one parameter: `[0x10]` binds a zero
blob of length 16, and `[5x]` is fatal. -/
theorem bindZero_consumes_witness :
    (IntLiteral.mk Sign.none LitForm.hexLower [49, 48]).WellFormed ∧
    bindZero ⟨⟨1, []⟩, 1⟩ [91, 48, 120, 49, 48, 93]
      = .ok (bound ⟨1, []⟩ 1 (.zeroblob 16)) ∧
    bindZero ⟨⟨1, []⟩, 1⟩ [91, 53, 120, 93] = .error .invalidZeroLength :=
  ⟨by decide,
    (bindZero_consumes ⟨⟨1, []⟩, 1⟩ (by decide) (by decide)).1
      (IntLiteral.mk Sign.none LitForm.hexLower [49, 48]) (by decide) (by decide) (by decide),
    (bindZero_consumes ⟨⟨1, []⟩, 1⟩ (by decide) (by decide)).2.2 [53, 120] (by decide)
      (by
        rintro ⟨ws, lit, hws, hwf, he⟩
        cases ws with
        | cons a ws =>
          simp only [List.cons_append, List.cons.injEq] at he
          have h1 := hws a (by simp)
          rw [← he.1] at h1
          exact absurd h1 (by decide)
        | nil =>
          obtain ⟨sign, form, digits⟩ := lit
          cases sign <;> cases form <;>
            simp [IntLiteral.text, Sign.text, LitForm.intro, IntLiteral.WellFormed] at he hwf
          subst he
          simp at hwf)⟩

/-! ## Numeric tokens that are no literal -/

theorem strtoll_stop (s : List Nat) : (strtoll s).2.1 = (scanInteger s).stop := by
  unfold strtoll
  dsimp only
  split_ifs <;> rfl

/-- C13: for every token given to bindNumeric (not empty, its first byte no
white space) that is neither in its entirety an integer literal nor consumed
in its entirety by the floating-point parse of the locale, bindNumeric is
fatal with "invalid numeric value" and nothing is bound; so a numeric prefix
followed by other characters is never bound as the value of the prefix. -/
theorem bindNumeric_rejects (L : Locale) (param : Param) (token : List Nat)
    (hne : token ≠ []) (hsp : ∀ b, token.head? = some b → isspace b = false)
    (hint : ¬ ∃ lit : IntLiteral, lit.WellFormed ∧ token = lit.text)
    (hflt : (L.strtod token).1 ≠ token.length) :
    bindNumeric L param token = .error .invalidNumeric := by
  have hstop : (strtoll token).2.1 ≠ token.length := by
    rw [strtoll_stop]
    intro hc
    have hc2 : (scanInteger (token ++ [])).stop = token.length := by
      rw [List.append_nil]; exact hc
    obtain ⟨ws, lit, hws, hwf, he⟩ := scanInteger_whole token [] hne hc2
    cases ws with
    | nil => exact hint ⟨lit, hwf, by simpa using he⟩
    | cons a ws =>
      have h1 := hws a (by simp)
      have h2 := hsp a (by rw [he]; rfl)
      rw [h1] at h2
      cases h2
  unfold bindNumeric
  dsimp only
  rw [if_pos hstop, if_pos hflt]

/-- C13 at the token `12abc` in the UTF-8 locale with the number formats of
the C locale. -/
theorem bindNumeric_rejects_witness :
    bindNumeric utf8 ⟨⟨1, []⟩, 1⟩ [49, 50, 97, 98, 99] = .error .invalidNumeric :=
  bindNumeric_rejects utf8 ⟨⟨1, []⟩, 1⟩ [49, 50, 97, 98, 99] (by decide) (by decide)
    (by
      rintro ⟨lit, hwf, he⟩
      obtain ⟨sign, form, digits⟩ := lit
      cases sign <;> cases form <;>
        simp [IntLiteral.text, Sign.text, LitForm.intro, IntLiteral.WellFormed] at he hwf
      subst he
      simp at hwf)
    (by decide)

/-! ## Token dispatch -/

/-- C14: bindToken chooses the parser from the first character of the token
alone.  When the first character decodes, the token is handed to the parser
the classifier names for that character: the quote to bindQuoted, `{` to
bindBlob, `[` to bindZero, a digit or the radix, positive-sign or
negative-sign symbol to bindNumeric, another alphabetic character to
bindKeyword, and any other character is fatal with "unknown token".  When it
does not decode, because the token is empty or its first character is cut
off or invalid, bindToken is fatal. -/
theorem bindToken_dispatch (L : Locale) (S : Symbols) (param : Param) (token : List Nat) :
    (∀ wide width, L.mbrtowc token = .char wide width →
      bindToken L S param token = parse L (classify L S wide) param token) ∧
    (L.mbrtowc token = .null →
      bindToken L S param token = parse L (classify L S 0) param token) ∧
    (L.mbrtowc token = .incomplete →
      bindToken L S param token = .error .incompleteAtTokenEnd) ∧
    (L.mbrtowc token = .invalid → bindToken L S param token = .error .invalidMultibyte) ∧
    bindToken L S param [] = .error .incompleteAtTokenEnd := by
  have key : ∀ wide width, width ≠ 0 → extractWide L token = .ok (wide, width) →
      bindToken L S param token = parse L (classify L S wide) param token := by
    intro wide width hw he
    unfold bindToken classify
    rw [he]
    simp only [hw, if_false]
    by_cases c1 : wide = 39
    · simp only [c1, if_true, parse]
    · by_cases c2 : wide = 123
      · simp only [c2, if_true, parse]; rfl
      · by_cases c3 : wide = 91
        · simp only [c3, if_true, parse]; rfl
        · simp only [c1, c2, c3, if_false]
          by_cases c4 : L.iswdigit wide = true ∨ wide = S.radix ∨ wide = S.psign ∨
              wide = S.nsign
          · have c4b : (L.iswdigit wide || wide == S.radix || wide == S.psign
                || wide == S.nsign) = true := by
              simpa [or_assoc] using c4
            rw [if_pos c4b, if_pos c4]
            rfl
          · have c4b : ¬ (L.iswdigit wide || wide == S.radix || wide == S.psign
                || wide == S.nsign) = true := by
              simpa [or_assoc] using c4
            rw [if_neg c4b, if_neg c4]
            by_cases c5 : L.iswalpha wide = true
            · rw [if_pos c5, if_pos c5]; rfl
            · rw [if_neg c5, if_neg c5]; rfl
  refine ⟨?_, ?_, ?_, ?_, ?_⟩
  · intro wide width h
    have hw := (L.mbrtowc_width token wide width h).1
    exact key wide width (by omega) (by simp only [extractWide, h])
  · intro h
    exact key 0 1 (by omega) (by simp only [extractWide, h])
  · intro h
    simp only [bindToken, extractWide, h, if_true]
  · intro h
    simp only [bindToken, extractWide, h]
  · simp only [bindToken, extractWide, L.mbrtowc_nil, if_true]

/-- C14 at the token `nil` in the UTF-8 locale: its first character is
alphabetic and the token goes to bindKeyword. -/
theorem bindToken_dispatch_witness :
    utf8.mbrtowc [110, 105, 108] = .char 110 1 ∧
    classify utf8 Symbols.initial 110 = .keyword ∧
    bindToken utf8 Symbols.initial ⟨⟨1, []⟩, 1⟩ [110, 105, 108]
      = parse utf8 (classify utf8 Symbols.initial 110) ⟨⟨1, []⟩, 1⟩ [110, 105, 108] :=
  ⟨by decide, by decide,
    (bindToken_dispatch utf8 Symbols.initial ⟨⟨1, []⟩, 1⟩ [110, 105, 108]).1 110 1
      (by decide)⟩

/-! ## Keyword tokens -/

theorem cstr_plain (s : List Nat) (h : 0 ∉ s) : cstr s = s := by
  unfold cstr
  rw [List.takeWhile_eq_self_iff]
  intro b hb
  have : b ≠ 0 := fun e => h (e ▸ hb)
  simpa using this

/-- C15: for every token without a NUL byte, bindKeyword binds null exactly
when the token is the three bytes `nil`, which are the bytes printNull writes
for a null column, and for every other token it binds the text whose bytes
are the bytes of the token, all of them and unchanged. -/
theorem bindKeyword_spec (L : Locale) (param : Param) (token : List Nat) (hnul : 0 ∉ token)
    (hlo : 1 ≤ param.index) (hhi : param.index ≤ param.stmt.needed) :
    bindKeyword param token
      = .ok (bound param.stmt param.index
          (if token = [110, 105, 108] then Value.null else Value.text token)) ∧
    printValue L Value.null = [110, 105, 108] ∧
    bindKeyword param (printValue L Value.null)
      = .ok (bound param.stmt param.index Value.null) := by
  have hk : ∀ t : List Nat, 0 ∉ t → bindKeyword param t
      = .ok (bound param.stmt param.index
          (if t = [110, 105, 108] then Value.null else Value.text t)) := by
    intro t ht
    have e : str_equal t [110, 105, 108] = decide (t = [110, 105, 108]) := by
      unfold str_equal
      rw [cstr_plain t ht, cstr_plain [110, 105, 108] (by decide)]
      by_cases c : t = [110, 105, 108]
      · simp [c]
      · simp [c]
    unfold bindKeyword
    rw [e]
    by_cases c : t = [110, 105, 108]
    · simp only [c, decide_True, if_true]
      exact bindOrDie_ok _ _ _ hlo hhi
    · simp only [c, decide_False, Bool.false_eq_true, if_false]
      exact bindOrDie_ok _ _ _ hlo hhi
  refine ⟨hk token hnul, rfl, ?_⟩
  have := hk [110, 105, 108] (by decide)
  simpa [printValue, printNull] using this

/-- C15 at the token `null`, which is bound as text, on a statement with one
parameter. -/
theorem bindKeyword_spec_witness :
    bindKeyword ⟨⟨1, []⟩, 1⟩ [110, 117, 108, 108]
      = .ok (bound ⟨1, []⟩ 1 (Value.text [110, 117, 108, 108])) ∧
    printValue utf8 Value.null = [110, 105, 108] ∧
    bindKeyword ⟨⟨1, []⟩, 1⟩ (printValue utf8 Value.null)
      = .ok (bound ⟨1, []⟩ 1 Value.null) :=
  bindKeyword_spec utf8 ⟨⟨1, []⟩, 1⟩ [110, 117, 108, 108] (by decide) (by decide) (by decide)

/-! ## An open quote at the end of input -/

/-- C16: for every input, made of complete characters, that ends while a
quote of the current record is open, bindStream is fatal: it returns nothing
and pads nothing.  When the tokens completed before the end are bound without
error the diagnosis is "unmatched quotation mark", and sqlWalk ends with it
too, without executing the statement for that record. -/
theorem bindStream_unmatched (L : Locale) (S : Symbols) (stmt : Stmt) (offset number : Nat)
    (cs : List (Nat × List Nat)) (hv : ∀ c ∈ cs, ValidChar L c)
    (hq : (lexRecord L false [] cs).quote = true) :
    (∃ e, bindStream L S stmt offset number (bytesOf cs) = .error (.die e)) ∧
    ∀ vs : List Value,
      (lexRecord L false [] cs).tokens.map (tokenValue L S) = vs.map Except.ok →
      offset + vs.length ≤ stmt.needed →
      bindStream L S stmt offset number (bytesOf cs) = .error (.die .unmatchedQuote) ∧
      (number = stmt.needed - offset → offset < stmt.needed →
        sqlWalk L S stmt offset (bytesOf cs) = .error (.die .unmatchedQuote)) := by
  have hE : ∀ e, bindTokens L S offset (lexRecord L false [] cs).tokens 0 stmt = .error e →
      bindStream L S stmt offset number (bytesOf cs) = .error (.die e) := by
    intro e he
    rw [bindStream_lex L S stmt offset number cs hv]
    unfold streamRecord
    rw [he]
  have hO : ∀ s1, bindTokens L S offset (lexRecord L false [] cs).tokens 0 stmt = .ok s1 →
      bindStream L S stmt offset number (bytesOf cs) = .error (.die .unmatchedQuote) := by
    intro s1 h1
    rw [bindStream_lex L S stmt offset number cs hv]
    unfold streamRecord
    rw [h1]
    simp only [hq, if_true]
  constructor
  · cases hb : bindTokens L S offset (lexRecord L false [] cs).tokens 0 stmt with
    | error e => exact ⟨e, hE e hb⟩
    | ok s1 => exact ⟨_, hO s1 hb⟩
  · intro vs hvals hslots
    have hlen : (lexRecord L false [] cs).tokens.length = vs.length := by
      have := congrArg List.length hvals
      simpa using this
    have hb := bindTokens_values L S offset _ vs 0 stmt hvals (by omega)
    have h1 := hO _ hb
    refine ⟨h1, ?_⟩
    intro hnum hlt
    unfold sqlWalk
    rw [if_pos hlt]
    unfold sqlWalkLoop
    rw [← hnum, h1]

/-- C16 at the input `1 'a`, newline, and the end of input, on a statement
with two parameters. -/
theorem bindStream_unmatched_witness :
    (lexRecord utf8 false [] (ascii [49, 32, 39, 97, 10])).quote = true ∧
    bindStream utf8 Symbols.initial ⟨2, []⟩ 0 2 [49, 32, 39, 97, 10]
      = .error (.die .unmatchedQuote) ∧
    sqlWalk utf8 Symbols.initial ⟨2, []⟩ 0 [49, 32, 39, 97, 10]
      = .error (.die .unmatchedQuote) :=
  ⟨by decide,
    ((bindStream_unmatched utf8 Symbols.initial ⟨2, []⟩ 0 2 (ascii [49, 32, 39, 97, 10])
      (utf8_valid_ascii [49, 32, 39, 97, 10] (by decide)) (by decide)).2
        [Value.integer 1] (by decide) (by decide)).1,
    ((bindStream_unmatched utf8 Symbols.initial ⟨2, []⟩ 0 2 (ascii [49, 32, 39, 97, 10])
      (utf8_valid_ascii [49, 32, 39, 97, 10] (by decide)) (by decide)).2
        [Value.integer 1] (by decide) (by decide)).2 (by decide) (by decide)⟩

/-! ## One record through the lexer -/

/-- One call of bindStream on a record whose tokens stand for values and
whose end finds no quote open: the values go to the slots after `offset` in
order, null to the slots left up to `offset + number`. -/
theorem bindStream_record (L : Locale) (S : Symbols) (stmt : Stmt) (offset number : Nat)
    (cs : List (Nat × List Nat)) (vs : List Value) (hv : ∀ c ∈ cs, ValidChar L c)
    (hq : (lexRecord L false [] cs).quote = false)
    (hvals : (lexRecord L false [] cs).tokens.map (tokenValue L S) = vs.map Except.ok)
    (hk : offset + vs.length ≤ stmt.needed) (hn : offset + number ≤ stmt.needed) :
    bindStream L S stmt offset number (bytesOf cs)
      = .ok ((lexRecord L false [] cs).ret,
          ⟨stmt.needed, stmt.trace ++ bindEvents (offset + 1) vs
            ++ nullEvents (offset + vs.length + 1) (number - vs.length)⟩,
          bytesOf (lexRecord L false [] cs).rest) := by
  have hlen : (lexRecord L false [] cs).tokens.length = vs.length := by
    have := congrArg List.length hvals
    simpa using this
  rw [bindStream_lex L S stmt offset number _ hv]
  unfold streamRecord
  rw [bindTokens_values L S offset _ vs 0 stmt hvals (by omega)]
  simp only [hq, Bool.false_eq_true, if_false, hlen]
  rw [padNull_ok offset _ _ _ (by simp only; omega)]
  simp only [Nat.zero_add, List.append_assoc]
  have e1 : 1 + offset = offset + 1 := by omega
  have e2 : vs.length + 1 + offset = offset + vs.length + 1 := by omega
  rw [e1, e2]

theorem decodeChars_bytesOf (L : Locale) : ∀ (cs : List (Nat × List Nat)),
    (∀ c ∈ cs, ValidChar L c) → decodeChars L (bytesOf cs) = some cs := by
  intro cs
  induction cs with
  | nil => intro _; exact decodeChars_nil L
  | cons c cs ih =>
    intro hv
    obtain ⟨h1, _, h3⟩ := hv c (by simp)
    have hne : bytesOf (c :: cs) ≠ [] := by
      simp only [bytesOf]
      intro e
      exact h1 (List.append_eq_nil.mp e).1
    rw [decodeChars_step L _ hne]
    simp only [bytesOf, h3 (bytesOf cs)]
    have hw : c.2.length ≠ 0 := fun e => h1 (List.length_eq_zero.mp e)
    simp only [hw, if_false, List.drop_left, List.take_left, ih (fun x hx => hv x (by simp [hx]))]

/-! ## A last token without terminator -/

theorem lexChars_line_then (L : Locale) (S : Symbols) (l : Line) (t : List (Nat × List Nat))
    (hl : l.Ok L S) (hv : ∀ c ∈ l.chars, ValidChar L c) :
    lexChars L false [] (l.chars ++ t)
      = (l.fields.map (fun f => bytesOf f.token) ++ (lexChars L false [] t).1,
          (lexChars L false [] t).2) := by
  have hb : ∀ c ∈ fieldsChars l.fields, c.2 ≠ [] :=
    fun c hc => (hv c (by simp [Line.chars, hc])).1
  rw [Line.chars, List.append_assoc, lexChars_gaps L l.lead _ hl.1,
    lexChars_fields L S l.fields t hl.2 hb]

/-- C18: a token is bound only when a white space or control character
follows it.  For every input whose last line is a run of
whitespace-terminated unquoted tokens followed by final characters, without
newline, in which no token is completed and no quote is left open, bindStream
binds the tokens before, binds the final token to no slot, reports no error,
and the padding step binds null to the slot the final token would have
filled and to the slots after it. -/
theorem bindStream_drops_trailing (L : Locale) (S : Symbols) (stmt : Stmt)
    (offset number : Nat) (l : Line) (t : List (Nat × List Nat))
    (hl : l.Ok L S) (ho : l.Open) (hv : ∀ c ∈ l.chars ++ t, ValidChar L c)
    (hnl : ∀ c ∈ t, c.2 ≠ [10])
    (ht : (lexChars L false [] t).1 = [] ∧ (lexChars L false [] t).2.1 = false)
    (hk : l.fields.length < number) (hn : offset + number ≤ stmt.needed) :
    bindStream L S stmt offset number (bytesOf (l.chars ++ t))
      = .ok (false,
          ⟨stmt.needed, stmt.trace ++ bindEvents (offset + 1) l.values
            ++ Event.bind (offset + l.fields.length + 1) Value.null
              :: nullEvents (offset + l.fields.length + 2) (number - l.fields.length - 1)⟩,
          []) := by
  have hvl : ∀ c ∈ l.chars, ValidChar L c := fun c hc => hv c (by simp [hc])
  have hplain : ∀ c ∈ l.chars ++ t, c.2 ≠ [10] := by
    intro c hc
    rcases List.mem_append.mp hc with h | h
    · exact ho c h
    · exact hnl c h
  have hlex : lexRecord L false [] (l.chars ++ t)
      = ⟨l.fields.map (fun f => bytesOf f.token), false, (lexChars L false [] t).2.2, false,
          []⟩ := by
    rw [lexRecord_plain L _ false [] hplain, lexChars_line_then L S l t hl hvl, ht.1, ht.2]
    simp
  have hrec := bindStream_record L S stmt offset number (l.chars ++ t) l.values hv
    (by rw [hlex]) (by rw [hlex]; exact line_values L S l hl)
    (by simp only [Line.values, List.length_map]; omega) hn
  rw [hrec, hlex]
  simp only [Line.values, List.length_map, bytesOf]
  obtain ⟨m, hm⟩ : ∃ m, number - l.fields.length = m + 1 :=
    ⟨number - l.fields.length - 1, by omega⟩
  rw [hm]
  simp [nullEvents, List.replicate_succ, bindEvents]

/-- C18 at the input `1 {zz` without final newline, on a statement with two
parameters: 1 is bound to the first slot, the token `{zz` is neither bound
nor reported, and the second slot is set to null. -/
theorem bindStream_drops_trailing_witness :
    (Line.mk [] [⟨ascii [49], .integer 1, ascii [32]⟩]).Ok utf8 Symbols.initial ∧
    bindStream utf8 Symbols.initial ⟨2, []⟩ 0 2 [49, 32, 123, 122, 122]
      = .ok (false, ⟨2, [Event.bind 1 (.integer 1), Event.bind 2 .null]⟩, []) :=
  ⟨by decide,
    bindStream_drops_trailing utf8 Symbols.initial ⟨2, []⟩ 0 2
      (Line.mk [] [⟨ascii [49], .integer 1, ascii [32]⟩]) (ascii [123, 122, 122])
      (by decide) (by decide) (utf8_valid_ascii [49, 32, 123, 122, 122] (by decide))
      (by decide) (by decide) (by decide) (by decide)⟩

/-! ## Row encoder and token dispatch: the round trip -/

theorem digitsValue_append (radix : Nat) (ds : List Nat) (d : Nat) :
    digitsValue radix (ds ++ [d]) = digitsValue radix ds * radix + hexDigit d := by
  simp [digitsValue, List.foldl_append]

/-- The digits written for a positive number are a decimal literal of that
value without leading zero. -/
theorem fmtDigits_literal : ∀ (fuel n : Nat), 0 < n → n < 10 ^ fuel →
    fmtDigits fuel n ≠ [] ∧ (fmtDigits fuel n).head? ≠ some 48 ∧
    (∀ c ∈ fmtDigits fuel n, 48 ≤ c ∧ c ≤ 57) ∧ digitsValue 10 (fmtDigits fuel n) = n := by
  intro fuel
  induction fuel with
  | zero =>
    intro n h0 h1
    simp at h1
    omega
  | succ fuel ih =>
    intro n h0 h1
    unfold fmtDigits
    by_cases hn : n < 10
    · rw [if_pos hn]
      refine ⟨by simp, ?_, ?_, ?_⟩
      · simp; omega
      · intro c hc
        simp only [List.mem_singleton] at hc
        omega
      · simp only [digitsValue, List.foldl_cons, List.foldl_nil, hexDigit]
        rw [if_pos (by omega)]
        omega
    · rw [if_neg hn]
      have hlt : n / 10 < 10 ^ fuel := by
        rw [Nat.div_lt_iff_lt_mul (by omega)]
        rw [pow_succ] at h1
        exact h1
      obtain ⟨i1, i2, i3, i4⟩ := ih (n / 10) (by omega) hlt
      refine ⟨by simp, ?_, ?_, ?_⟩
      · obtain ⟨d, ds, hd⟩ := List.exists_cons_of_ne_nil i1
        rw [hd] at i2 ⊢
        simpa using i2
      · intro c hc
        simp only [List.mem_append, List.mem_singleton] at hc
        rcases hc with hc | hc
        · exact i3 c hc
        · omega
      · rw [digitsValue_append, i4]
        simp only [hexDigit]
        rw [if_pos (by omega)]
        omega

/-- The text written for an integer of 64 bits is a well-formed literal of
that value. -/
theorem fmt_longlong_literal (v : Int) (hlo : LLONG_MIN ≤ v) (hhi : v ≤ LLONG_MAX) :
    ∃ lit : IntLiteral, lit.WellFormed ∧ lit.text = fmt_longlong v ∧ lit.value = v ∧
      ∃ d rest, fmt_longlong v = d :: rest ∧ (d = 45 ∨ (48 ≤ d ∧ d ≤ 57)) := by
  simp only [LLONG_MIN, LLONG_MAX] at hlo hhi
  unfold fmt_longlong fmt_ulonglong
  by_cases hneg : v < 0
  · rw [if_pos hneg]
    have hpos : 0 < (-v).toNat := by omega
    have hlt : (-v).toNat < 10 ^ 20 := by
      have : (-v).toNat ≤ 2 ^ 63 := by omega
      have h2 : (2 : Nat) ^ 63 < 10 ^ 20 := by norm_num
      omega
    obtain ⟨i1, i2, i3, i4⟩ := fmtDigits_literal 20 (-v).toNat hpos hlt
    refine ⟨⟨.minus, .decimal, fmtDigits 20 (-v).toNat⟩, ⟨i1, i2, i3⟩, rfl, ?_, 45, _, rfl,
      Or.inl rfl⟩
    simp only [IntLiteral.value, LitForm.radix, i4]
    omega
  · rw [if_neg hneg]
    by_cases hz : v = 0
    · subst hz
      refine ⟨⟨.none, .octal, []⟩, ?_, rfl, rfl, 48, [], rfl, Or.inr (by omega)⟩
      intro c hc
      simp at hc
    · have hpos : 0 < v.toNat := by omega
      have hlt : v.toNat < 10 ^ 20 := by
        have : v.toNat < 2 ^ 63 := by omega
        have h2 : (2 : Nat) ^ 63 < 10 ^ 20 := by norm_num
        omega
      obtain ⟨i1, i2, i3, i4⟩ := fmtDigits_literal 20 v.toNat hpos hlt
      obtain ⟨d, ds, hd⟩ := List.exists_cons_of_ne_nil i1
      refine ⟨⟨.none, .decimal, fmtDigits 20 v.toNat⟩, ⟨i1, i2, i3⟩, rfl, ?_, d, ds, hd,
        Or.inr (i3 d (by rw [hd]; simp))⟩
      simp only [IntLiteral.value, LitForm.radix, i4]
      omega

/-- An integer literal whose value is an integer of 64 bits is bound as that
integer. -/
theorem bindNumeric_value (L : Locale) (lit : IntLiteral) (param : Param)
    (hwf : lit.WellFormed) (h1 : LLONG_MIN ≤ lit.value) (h2 : lit.value ≤ LLONG_MAX)
    (hlo : 1 ≤ param.index) (hhi : param.index ≤ param.stmt.needed) :
    bindNumeric L param lit.text = .ok (bound param.stmt param.index (.integer lit.value)) := by
  have hs := scanInteger_literal lit hwf
  have hb := bindOrDie_ok Fatal.bindInteger param
  revert h1 h2
  unfold bindNumeric strtoll
  rw [hs]
  simp only [LLONG_MAX, LLONG_MIN, IntLiteral.value]
  cases hsg : lit.sign <;>
    simp only [decide_False, decide_True, Bool.false_eq_true, if_false, if_true,
      reduceCtorEq] <;>
    intro h1 h2 <;>
    split_ifs <;> (try dsimp only at *) <;>
    first
      | omega
      | exact hb _ hlo hhi

theorem ascii_extract (L : Locale) (hA : L.Ascii) (b : Nat) (rest : List Nat) (h1 : 1 ≤ b)
    (h2 : b < 128) : extractWide L (b :: rest) = .ok (b, 1) := by
  simp only [extractWide, hA.1 b rest h1 h2]

theorem ascii_quote (L : Locale) (hA : L.Ascii) : ValidChar L (39, [39]) :=
  ⟨by simp, by simp, fun rest => ascii_extract L hA 39 rest (by omega) (by omega)⟩

theorem decodeChars_cons (L : Locale) (c : Nat × List Nat) (s : List Nat)
    (chars : List (Nat × List Nat)) (hc : ValidChar L c)
    (hs : decodeChars L s = some chars) :
    decodeChars L (c.2 ++ s) = some (c :: chars) := by
  obtain ⟨h1, _, h3⟩ := hc
  have hne : c.2 ++ s ≠ [] := fun e => h1 (List.append_eq_nil.mp e).1
  rw [decodeChars_step L _ hne]
  simp only [h3 s]
  have hw : c.2.length ≠ 0 := fun e => h1 (List.length_eq_zero.mp e)
  simp only [hw, if_false, List.drop_left, List.take_left, hs]

/-- A text of complete characters with its quotes doubled is again made of
complete characters; its quotes come in pairs, and leaving out the second of
each pair gives the text back. -/
theorem doubleQuotes_chars (L : Locale) (hQ : QuoteIsByte L) :
    ∀ (cs : List (Nat × List Nat)), (∀ c ∈ cs, ValidChar L c) →
    ∃ chars, decodeChars L (doubleQuotes (bytesOf cs)) = some chars ∧
      quotesPaired (chars.map Prod.fst) = true ∧ collapseQuotes chars = bytesOf cs := by
  intro cs
  induction cs with
  | nil =>
    intro _
    exact ⟨[], decodeChars_nil L, rfl, rfl⟩
  | cons c cs ih =>
    intro hv
    obtain ⟨chars, i1, i2, i3⟩ := ih (fun x hx => hv x (by simp [hx]))
    have hc := hv c (by simp)
    have hq := hQ (c.2 ++ []) c.1 c.2.length (hc.2.2 [])
      (fun e => hc.1 (List.length_eq_zero.mp e))
    simp only [List.append_nil, List.take_length] at hq
    obtain ⟨w, b⟩ := c
    simp only at hq hc
    by_cases h39 : w = 39
    · subst h39
      have hb : b = [39] := hq.1 rfl
      subst hb
      refine ⟨(39, [39]) :: (39, [39]) :: chars, ?_, ?_, ?_⟩
      · have e : doubleQuotes (bytesOf ((39, [39]) :: cs))
            = [39] ++ ([39] ++ doubleQuotes (bytesOf cs)) := by
          simp [bytesOf, doubleQuotes]
        have d1 : decodeChars L ([39] ++ doubleQuotes (bytesOf cs))
            = some ((39, [39]) :: chars) := decodeChars_cons L (39, [39]) _ _ hc i1
        have d2 : decodeChars L ([39] ++ ([39] ++ doubleQuotes (bytesOf cs)))
            = some ((39, [39]) :: (39, [39]) :: chars) :=
          decodeChars_cons L (39, [39]) _ _ hc d1
        rw [e]
        exact d2
      · simp only [List.map_cons, quotesPaired, if_true, beq_self_eq_true, Bool.true_and]
        exact i2
      · simp only [collapseQuotes, if_true, bytesOf, i3]
    · have hb : 39 ∉ b := hq.2 h39
      refine ⟨(w, b) :: chars, ?_, ?_, ?_⟩
      · have e : doubleQuotes (bytesOf ((w, b) :: cs))
            = b ++ doubleQuotes (bytesOf cs) := by
          simp only [bytesOf]
          rw [doubleQuotes_append, doubleQuotes_plain b hb]
        have d1 : decodeChars L (b ++ doubleQuotes (bytesOf cs))
            = some ((w, b) :: chars) := decodeChars_cons L (w, b) _ _ hc i1
        rw [e]
        exact d1
      · rw [List.map_cons, quotesPaired_other _ _ h39]
        exact i2
      · rw [collapseQuotes_other _ _ _ h39, i3]
        rfl

/-- The normalized quoting of a text of complete characters is bound as that
text. -/
theorem bindQuoted_normalQuote (L : Locale) (hQ : QuoteIsByte L) (param : Param)
    (cs : List (Nat × List Nat)) (hv : ∀ c ∈ cs, ValidChar L c)
    (hlo : 1 ≤ param.index) (hhi : param.index ≤ param.stmt.needed) :
    bindQuoted L param (normalQuote (bytesOf cs))
      = .ok (bound param.stmt param.index (.text (bytesOf cs))) := by
  obtain ⟨chars, h1, h2, h3⟩ := doubleQuotes_chars L hQ cs hv
  unfold normalQuote
  have hin := inside 39 39 (doubleQuotes (bytesOf cs))
  have hd : decodeChars L (((39 :: doubleQuotes (bytesOf cs) ++ [39]).drop 1).take
      ((39 :: doubleQuotes (bytesOf cs) ++ [39]).length - 2)) = some chars := by
    rw [hin.1, hin.2, List.take_left]
    exact h1
  have hlast : (39 :: doubleQuotes (bytesOf cs) ++ [39]).getLast? = some 39 := by
    rw [List.getLast?_append]
    rfl
  have hcl : ¬ ((39 :: doubleQuotes (bytesOf cs) ++ [39]).length < 2
      ∨ (39 :: doubleQuotes (bytesOf cs) ++ [39]).getLast? ≠ some 39) := by
    intro hc
    rcases hc with hc | hc
    · simp at hc
      omega
    · exact hc hlast
  rw [bindQuoted_chars L param _ chars hd, if_neg hcl, h2, if_pos rfl, h3]
  exact bindOrDie_ok _ _ _ hlo hhi

/-- What printBlob writes for a run of bytes is bound as those bytes. -/
theorem bindBlob_printBlob (value : List Nat) (param : Param) (hval : ∀ b ∈ value, b < 256)
    (hlo : 1 ≤ param.index) (hhi : param.index ≤ param.stmt.needed) :
    bindBlob param (printBlob value value.length)
      = .ok (bound param.stmt param.index (.blob value)) := by
  obtain ⟨p1, p2, p3⟩ := printBlobLoop_hex value hval
  obtain ⟨bytes, hv, hl, hb⟩ :=
    blobValue_hex 123 (printBlobLoop value.length value) value.length p1 p2
  have e : bytes = value := by
    apply list_eq_of_getD _ _ hl
    intro i hi
    rw [hb i (by omega), p3 i (by omega)]
  subst e
  unfold bindBlob printBlob
  have e2 : [123] ++ printBlobLoop bytes.length bytes ++ [125]
      = 123 :: printBlobLoop bytes.length bytes ++ [125] := by simp
  rw [e2, hv]
  exact bindOrDie_ok _ _ _ hlo hhi

/-- C19: with the default symbols, in a locale that reads the bytes below 128
as themselves and whose quote is the byte 39 alone, for every value that is
null, an integer of 64 bits, a text of complete characters without NUL byte,
or a blob, bindToken on the text printValue writes for the value succeeds and
binds a value of the same variant, equal to it. -/
theorem printValue_roundtrip (L : Locale) (hA : L.Ascii) (hQ : QuoteIsByte L) (param : Param)
    (v : Value) (hv : v.Plain L) (hlo : 1 ≤ param.index)
    (hhi : param.index ≤ param.stmt.needed) :
    bindToken L Symbols.initial param (printValue L v)
      = .ok (bound param.stmt param.index v) := by
  cases v with
  | null =>
    have hw := ascii_extract L hA 110 [105, 108] (by omega) (by omega)
    have hk : bindKeyword param [110, 105, 108] = bindOrDie .bindNull param .null := rfl
    simp only [printValue, printNull, bindToken, hw, Symbols.initial, hA.2.2.1, hA.2.2.2, hk]
    simp only [one_ne_zero, if_false, if_true, Nat.reduceEqDiff, Nat.reduceBEq, Bool.or_self,
      Bool.false_eq_true]
    exact bindOrDie_ok _ _ _ hlo hhi
  | integer i =>
    obtain ⟨h1, h2⟩ := hv
    obtain ⟨lit, hwf, htext, hval, d, rest, hcons, hd⟩ := fmt_longlong_literal i h1 h2
    have hb := bindNumeric_value L lit param hwf (by rw [hval]; exact h1)
      (by rw [hval]; exact h2) hlo hhi
    rw [htext, hval, hcons] at hb
    have hw := ascii_extract L hA d rest (by omega) (by omega)
    have hnum : (L.iswdigit d || d == Symbols.initial.radix || d == Symbols.initial.psign
        || d == Symbols.initial.nsign) = true := by
      rcases hd with rfl | hd
      · simp [Symbols.initial]
      · simp [hA.2.1 d hd.1 hd.2]
    have h39 : d ≠ 39 := by omega
    have h123 : d ≠ 123 := by omega
    have h91 : d ≠ 91 := by omega
    simp only [printValue, printInteger, hcons, bindToken, hw, one_ne_zero, if_false, h39, h123,
      h91, hnum, if_true, hb]
  | float bits => exact absurd hv (by simp [Value.Plain])
  | text bytes =>
    obtain ⟨hnul, cs, rfl, hcs⟩ := hv
    have hb := bindQuoted_normalQuote L hQ param cs hcs hlo hhi
    have hw := ascii_extract L hA 39 (doubleQuotes (bytesOf cs) ++ [39]) (by omega) (by omega)
    have hn : normalQuote (bytesOf cs) = 39 :: (doubleQuotes (bytesOf cs) ++ [39]) := rfl
    rw [hn] at hb
    simp only [printValue, printText_normal _ hnul, hn, bindToken, hw, one_ne_zero, if_false,
      if_true, hb]
  | blob bytes =>
    have hb := bindBlob_printBlob bytes param hv hlo hhi
    have hp : printBlob bytes bytes.length
        = 123 :: (printBlobLoop bytes.length bytes ++ [125]) := rfl
    rw [hp] at hb
    have hw := ascii_extract L hA 123 (printBlobLoop bytes.length bytes ++ [125]) (by omega)
      (by omega)
    simp only [printValue, hp, bindToken, hw, one_ne_zero, if_false, if_true, hb]
    simp
  | zeroblob n => exact absurd hv (by simp [Value.Plain])

theorem utf8_ascii : utf8.Ascii := by
  refine ⟨?_, ?_, by decide, by decide⟩
  · intro b rest h1 h2
    simp only [utf8, utf8Decode]
    rw [if_neg (by omega), if_pos h2]
  · intro c h1 h2
    simp [utf8, h1, h2]

/-- C19 in the UTF-8 locale at the text value `nil`, which is written as
`'nil'` and comes back as text, not null, and at the smallest integer of 64
bits. -/
theorem printValue_roundtrip_witness :
    printValue utf8 (.text [110, 105, 108]) = [39, 110, 105, 108, 39] ∧
    bindToken utf8 Symbols.initial ⟨⟨1, []⟩, 1⟩ (printValue utf8 (.text [110, 105, 108]))
      = .ok (bound ⟨1, []⟩ 1 (.text [110, 105, 108])) ∧
    bindToken utf8 Symbols.initial ⟨⟨1, []⟩, 1⟩
        (printValue utf8 (.integer (-9223372036854775808)))
      = .ok (bound ⟨1, []⟩ 1 (.integer (-9223372036854775808))) :=
  ⟨by decide,
    printValue_roundtrip utf8 utf8_ascii utf8_quoteIsByte ⟨⟨1, []⟩, 1⟩ (.text [110, 105, 108])
      ⟨by decide, ascii [110, 105, 108], rfl, utf8_valid_ascii [110, 105, 108] (by decide)⟩
      (by decide) (by decide),
    printValue_roundtrip utf8 utf8_ascii utf8_quoteIsByte ⟨⟨1, []⟩, 1⟩
      (.integer (-9223372036854775808)) ⟨by decide, by decide⟩ (by decide) (by decide)⟩

/-! ## Progress of the scanning loop -/

/-- C20, the code on an input that ends inside a multi-byte character, in the
UTF-8 locale: for the only byte 195, the first of a two-byte character,
extractWide reports width 0 and the round of the scanning loop leaves `tail`
at 0, below the length 1: that round does not move the cursor.  The same at
the cursor 1 of the bytes 97, 195, after the complete character `a`. -/
theorem scan_round_without_advance :
    extractWide utf8 [195] = .ok (0, 0) ∧
    nextTail utf8 ⟨[195], false, 0, 0, 0, ⟨1, []⟩⟩ = .ok 0 ∧
    extractWide utf8 ([97, 195].drop 1) = .ok (0, 0) ∧
    nextTail utf8 ⟨[97, 195], false, 0, 1, 0, ⟨1, []⟩⟩ = .ok 1 := by
  decide

/-! ## Lines with more tokens than slots -/

theorem bindBlob_kind (t : List Nat) :
    (∃ e, ∀ param, bindBlob param t = .error e) ∨
    (∃ v, ∀ param, bindBlob param t = bindOrDie (refusal v) param v) := by
  unfold bindBlob
  cases blobValue t with
  | error e => exact Or.inl ⟨e, fun _ => rfl⟩
  | ok b => exact Or.inr ⟨.blob b, fun _ => rfl⟩

theorem bindZero_kind (t : List Nat) :
    (∃ e, ∀ param, bindZero param t = .error e) ∨
    (∃ v, ∀ param, bindZero param t = bindOrDie (refusal v) param v) := by
  by_cases c1 : (t.length < 2 ∨ t.getD (t.length - 1) 0 ≠ 93)
  · refine Or.inl ⟨Fatal.noClosingBracket, fun param => ?_⟩
    rw [bindZero, if_pos c1]
  · by_cases c2 : (strtoul (t.drop 1)).2.1 ≠ t.length - 2
    · refine Or.inl ⟨Fatal.invalidZeroLength, fun param => ?_⟩
      rw [bindZero, if_neg c1]
      simp only [c2, ne_eq, not_false_eq_true, if_true]
    · by_cases c3 : (strtoul (t.drop 1)).1 > allOnes
      · refine Or.inl ⟨Fatal.zeroLengthRange, fun param => ?_⟩
        rw [bindZero, if_neg c1]
        simp only [c2, c3, if_true, if_false]
      · refine Or.inr ⟨Value.zeroblob (toInt32 (strtoul (t.drop 1)).1), fun param => ?_⟩
        rw [bindZero, if_neg c1]
        simp only [c2, c3, if_false, refusal]

theorem bindNumeric_kind (L : Locale) (t : List Nat) :
    (∃ e, ∀ param, bindNumeric L param t = .error e) ∨
    (∃ v, ∀ param, bindNumeric L param t = bindOrDie (refusal v) param v) := by
  unfold bindNumeric
  simp only
  split_ifs
  all_goals first
    | exact Or.inl ⟨_, fun _ => rfl⟩
    | exact Or.inr ⟨.float _, fun _ => rfl⟩
    | exact Or.inr ⟨.integer _, fun _ => rfl⟩

theorem bindKeyword_kind (t : List Nat) :
    (∃ e, ∀ param, bindKeyword param t = .error e) ∨
    (∃ v, ∀ param, bindKeyword param t = bindOrDie (refusal v) param v) := by
  unfold bindKeyword
  split_ifs
  · exact Or.inr ⟨.null, fun _ => rfl⟩
  · exact Or.inr ⟨.text t, fun _ => rfl⟩

/-- A token whose first character is no quote is fatal on every statement, or
it ends in the bind call of one value with the diagnostic of that value. -/
theorem bindToken_kind (L : Locale) (S : Symbols) (t : List Nat) (w width : Nat)
    (hw : extractWide L t = .ok (w, width)) (h39 : w ≠ 39) :
    (∃ e, ∀ param, bindToken L S param t = .error e) ∨
    (∃ v, ∀ param, bindToken L S param t = bindOrDie (refusal v) param v) := by
  unfold bindToken
  rw [hw]
  simp only [h39, if_false]
  split_ifs
  · exact Or.inl ⟨_, fun _ => rfl⟩
  · exact bindBlob_kind t
  · exact bindZero_kind t
  · exact bindNumeric_kind L t
  · exact bindKeyword_kind t
  · exact Or.inl ⟨_, fun _ => rfl⟩

/-- An unquoted token that stands for a value dies with the diagnostic of
that value on a slot the statement does not have. -/
theorem bindToken_refusal (L : Locale) (S : Symbols) (t : List Nat) (v : Value)
    (w width : Nat) (hw : extractWide L t = .ok (w, width)) (h39 : w ≠ 39)
    (h : tokenValue L S t = .ok v) (param : Param) (hr : param.stmt.needed < param.index) :
    bindToken L S param t = .error (refusal v) := by
  rcases bindToken_kind L S t w width hw h39 with ⟨e, he⟩ | ⟨v1, he⟩
  · unfold tokenValue at h
    rw [he] at h
    cases h
  · unfold tokenValue at h
    rw [he] at h
    have : bindOrDie (refusal v1) ⟨⟨1, []⟩, 1⟩ v1 = .ok ⟨1, [Event.bind 1 v1]⟩ := by
      simp [bindOrDie, sqlite3_bind]
    rw [this] at h
    simp only at h
    injection h with h
    subst h
    rw [he]
    have : ¬ (1 ≤ param.index ∧ param.index ≤ param.stmt.needed) := by omega
    simp [bindOrDie, sqlite3_bind, this]

/-- Unquoted tokens that stand for values, more of them than the statement has
slots left: the binds go on to the first slot the statement does not have,
and the run dies there with the diagnostic of the value of that token. -/
theorem bindTokens_refusal (L : Locale) (S : Symbols) (offset : Nat) :
    ∀ (ts : List (List Nat)) (vs : List Value) (iter : Nat) (stmt : Stmt),
    ts.map (tokenValue L S) = vs.map Except.ok →
    (∀ t ∈ ts, ∃ w width, extractWide L t = .ok (w, width) ∧ w ≠ 39) →
    iter + offset ≤ stmt.needed → stmt.needed < iter + ts.length + offset →
    ∃ v, vs.get? (stmt.needed - offset - iter) = some v ∧
      bindTokens L S offset ts iter stmt = .error (refusal v) := by
  intro ts
  induction ts with
  | nil =>
    intro vs iter stmt _ _ h1 h2
    simp only [List.length_nil] at h2
    omega
  | cons t ts ih =>
    intro vs iter stmt hv hq h1 h2
    cases vs with
    | nil => simp at hv
    | cons v vs =>
      simp only [List.map_cons, List.cons.injEq] at hv
      simp only [List.length_cons] at h2
      obtain ⟨w, width, hw, h39⟩ := hq t (by simp)
      by_cases hlast : iter + offset = stmt.needed
      · refine ⟨v, ?_, ?_⟩
        · have e : stmt.needed - offset - iter = 0 := by omega
          rw [e]
          rfl
        · rw [bindTokens, bindToken_refusal L S t v w width hw h39 hv.1 ⟨stmt, iter + 1 + offset⟩
            (by simp only; omega)]
      · rw [bindTokens, bindToken_value L S t v hv.1 ⟨stmt, iter + 1 + offset⟩
          (by simp only; omega) (by simp only; omega)]
        simp only
        obtain ⟨v1, g1, g2⟩ := ih vs (iter + 1) (bound stmt (iter + 1 + offset) v) hv.2
          (fun x hx => hq x (by simp [hx])) (by simp only [bound]; omega)
          (by simp only [bound]; omega)
        refine ⟨v1, ?_, g2⟩
        simp only [bound] at g1
        have e : stmt.needed - offset - iter = (stmt.needed - offset - (iter + 1)) + 1 := by
          omega
        rw [e]
        exact g1

theorem field_first (L : Locale) (S : Symbols) (f : Field) (hf : f.Ok L S)
    (hv : ∀ c ∈ f.token, ValidChar L c) :
    ∃ w width, extractWide L (bytesOf f.token) = .ok (w, width) ∧ w ≠ 39 := by
  obtain ⟨hne, hplain, _, _, _⟩ := hf
  obtain ⟨c, cs, hc⟩ := List.exists_cons_of_ne_nil hne
  rw [hc] at hplain hv ⊢
  have h1 := hplain c (by simp)
  have h2 := hv c (by simp)
  refine ⟨c.1, c.2.length, h2.2.2 (bytesOf cs), ?_⟩
  simp only [isPlainChar, Bool.and_eq_true, bne_iff_ne, ne_eq] at h1
  exact h1.1

theorem bindOrDie_within (e : Fatal) (param : Param) (v : Value) (s : Stmt)
    (h : bindOrDie e param v = .ok s) :
    s.needed = param.stmt.needed ∧ s.trace = param.stmt.trace ++ [Event.bind param.index v] ∧
      param.index ≤ param.stmt.needed := by
  unfold bindOrDie sqlite3_bind at h
  split_ifs at h with hc
  simp only [Except.ok.injEq] at h
  subst h
  exact ⟨rfl, rfl, hc.2⟩

theorem bindToken_within (L : Locale) (S : Symbols) (param : Param) (t : List Nat) (s : Stmt)
    (h : bindToken L S param t = .ok s) :
    s.needed = param.stmt.needed ∧
      ∃ v, s.trace = param.stmt.trace ++ [Event.bind param.index v] ∧
        param.index ≤ param.stmt.needed := by
  rcases bindToken_factor L S t with ⟨e, he⟩ | ⟨e, v, he⟩
  · rw [he] at h
    cases h
  · rw [he] at h
    obtain ⟨h1, h2, h3⟩ := bindOrDie_within e param v s h
    exact ⟨h1, v, h2, h3⟩

/-- The binds of a run of tokens stay on slots the statement has. -/
theorem bindTokens_within (L : Locale) (S : Symbols) (offset : Nat) :
    ∀ (ts : List (List Nat)) (iter : Nat) (stmt s : Stmt),
    bindTokens L S offset ts iter stmt = .ok s →
    s.needed = stmt.needed ∧
      ∀ i v, Event.bind i v ∈ s.trace → Event.bind i v ∈ stmt.trace ∨ i ≤ stmt.needed := by
  intro ts
  induction ts with
  | nil =>
    intro iter stmt s h
    simp only [bindTokens, Except.ok.injEq] at h
    subst h
    exact ⟨rfl, fun i v hm => Or.inl hm⟩
  | cons t ts ih =>
    intro iter stmt s h
    rw [bindTokens] at h
    cases hb : bindToken L S ⟨stmt, iter + 1 + offset⟩ t with
    | error e =>
      rw [hb] at h
      cases h
    | ok s1 =>
      rw [hb] at h
      simp only at h
      obtain ⟨n1, v1, t1, r1⟩ := bindToken_within L S _ t s1 hb
      simp only at n1 t1 r1
      obtain ⟨n2, t2⟩ := ih (iter + 1) s1 s h
      refine ⟨by rw [n2, n1], ?_⟩
      intro i v hm
      rcases t2 i v hm with hm1 | hm1
      · rw [t1] at hm1
        simp only [List.mem_append, List.mem_singleton, Event.bind.injEq] at hm1
        rcases hm1 with hm1 | ⟨rfl, _⟩
        · exact Or.inl hm1
        · exact Or.inr r1
      · exact Or.inr (by omega)

theorem padNull_within (offset : Nat) : ∀ (count iter : Nat) (stmt s : Stmt),
    padNull offset count iter stmt = .ok s →
    s.needed = stmt.needed ∧
      ∀ i v, Event.bind i v ∈ s.trace → Event.bind i v ∈ stmt.trace ∨ i ≤ stmt.needed := by
  intro count
  induction count with
  | zero =>
    intro iter stmt s h
    simp only [padNull, Except.ok.injEq] at h
    subst h
    exact ⟨rfl, fun i v hm => Or.inl hm⟩
  | succ count ih =>
    intro iter stmt s h
    rw [padNull] at h
    cases hb : bindOrDie .bindNull ⟨stmt, iter + 1 + offset⟩ .null with
    | error e =>
      rw [hb] at h
      cases h
    | ok s1 =>
      rw [hb] at h
      simp only at h
      obtain ⟨n1, t1, r1⟩ := bindOrDie_within _ _ _ s1 hb
      simp only at n1 t1 r1
      obtain ⟨n2, t2⟩ := ih (iter + 1) s1 s h
      refine ⟨by rw [n2, n1], ?_⟩
      intro i v hm
      rcases t2 i v hm with hm1 | hm1
      · rw [t1] at hm1
        simp only [List.mem_append, List.mem_singleton, Event.bind.injEq] at hm1
        rcases hm1 with hm1 | ⟨rfl, _⟩
        · exact Or.inl hm1
        · exact Or.inr r1
      · exact Or.inr (by omega)

/-- Every bind call of a call of bindStream that returns is on a slot the
statement has. -/
theorem bindStream_within (L : Locale) (S : Symbols) (stmt : Stmt) (offset number : Nat)
    (cs : List (Nat × List Nat)) (hv : ∀ c ∈ cs, ValidChar L c) (ret : Bool) (stmt1 : Stmt)
    (rest : List Nat)
    (h : bindStream L S stmt offset number (bytesOf cs) = .ok (ret, stmt1, rest)) :
    ∀ i v, Event.bind i v ∈ stmt1.trace → Event.bind i v ∈ stmt.trace ∨ i ≤ stmt.needed := by
  rw [bindStream_lex L S stmt offset number cs hv] at h
  unfold streamRecord at h
  cases hb : bindTokens L S offset (lexRecord L false [] cs).tokens 0 stmt with
  | error e =>
    rw [hb] at h
    cases h
  | ok s1 =>
    rw [hb] at h
    simp only at h
    split_ifs at h
    cases hp : padNull offset (number - (lexRecord L false [] cs).tokens.length)
        (lexRecord L false [] cs).tokens.length s1 with
    | error e =>
      rw [hp] at h
      cases h
    | ok s2 =>
      rw [hp] at h
      simp only [Except.ok.injEq, Prod.mk.injEq] at h
      obtain ⟨_, rfl, _⟩ := h
      obtain ⟨n1, t1⟩ := bindTokens_within L S offset _ 0 stmt s1 hb
      obtain ⟨n2, t2⟩ := padNull_within offset _ _ s1 s2 hp
      intro i v hm
      rcases t2 i v hm with hm1 | hm1
      · exact t1 i v hm1
      · exact Or.inr (by omega)

theorem mem_fieldsChars : ∀ (fs : List Field) (g : Field) (c : Nat × List Nat),
    g ∈ fs → c ∈ g.token → c ∈ fieldsChars fs := by
  intro fs
  induction fs with
  | nil => intro g c hg; cases hg
  | cons a fs ih =>
    intro g c hg hc
    simp only [fieldsChars, List.mem_append]
    rcases List.mem_cons.mp hg with rfl | hg
    · exact Or.inl hc
    · exact Or.inr (Or.inr (ih g c hg hc))

/-- C6, as stated, fails: on the input `1 2 3`, newline, `4 5`, newline, for a
statement with two parameters, none from the vector, bindStream, called as
sqlWalk calls it with two slots to fill, does not stop after two tokens and
leaves nothing for a next record: it dies at the third token, whose bind the
engine refuses, and sqlWalk with it. -/
theorem sqlWalk_dies_on_long_line :
    bindStream utf8 Symbols.initial ⟨2, []⟩ 0 2 [49, 32, 50, 32, 51, 10, 52, 32, 53, 10]
      = .error (.die .bindInteger) ∧
    sqlWalk utf8 Symbols.initial ⟨2, []⟩ 0 [49, 32, 50, 32, 51, 10, 52, 32, 53, 10]
      = .error (.die .bindInteger) := by
  decide

/-- C6, amended: bindStream is called with `number` the count of the slots
the statement has above `offset`.  For every input line that holds more
whitespace-separated unquoted tokens than `number`, it does not stop
collecting when `number` tokens have been bound and keeps no token for a next
record: it hands the next token of the line to the engine for the slot
offset+number+1, which the statement does not have, and the run ends with the
fatal "Failed to bind ..." of that token; sqlWalk ends with it too.  No
token is ever bound to a slot above offset+number: every bind call of a call
that returns is on a slot up to offset+number. -/
theorem bindStream_long_line (L : Locale) (S : Symbols) (stmt : Stmt) (offset number : Nat)
    (l : Line) (more : List (Nat × List Nat)) (f : Field) (hl : l.Ok L S) (he : l.Ended)
    (hv : ∀ c ∈ l.chars ++ more, ValidChar L c) (hf : l.fields.get? number = some f)
    (hneed : stmt.needed = offset + number) :
    bindStream L S stmt offset number (bytesOf (l.chars ++ more))
      = .error (.die (refusal f.value)) ∧
    (0 < number →
      sqlWalk L S stmt offset (bytesOf (l.chars ++ more)) = .error (.die (refusal f.value))) ∧
    ∀ (cs : List (Nat × List Nat)) (ret : Bool) (stmt1 : Stmt) (rest : List Nat),
      (∀ c ∈ cs, ValidChar L c) →
      bindStream L S stmt offset number (bytesOf cs) = .ok (ret, stmt1, rest) →
      ∀ i v, Event.bind i v ∈ stmt1.trace → Event.bind i v ∈ stmt.trace ∨ i ≤ offset + number := by
  have hm : number < l.fields.length := by
    by_contra hc
    rw [List.get?_eq_none.mpr (by omega)] at hf
    cases hf
  have hfirst : ∀ t ∈ l.fields.map (fun f => bytesOf f.token),
      ∃ w width, extractWide L t = .ok (w, width) ∧ w ≠ 39 := by
    intro t ht
    obtain ⟨g, hg, rfl⟩ := List.mem_map.mp ht
    apply field_first L S g (hl.2 g hg)
    intro c hc
    apply hv c
    have := mem_fieldsChars l.fields g c hg hc
    simp [Line.chars, this]
  have h1 : bindStream L S stmt offset number (bytesOf (l.chars ++ more))
      = .error (.die (refusal f.value)) := by
    rw [bindStream_lex L S stmt offset number _ hv]
    unfold streamRecord
    rw [lexRecord_ended L S l more hl he (fun c hc => hv c (by simp [hc]))]
    obtain ⟨v, g1, g2⟩ := bindTokens_refusal L S offset _ l.values 0 stmt
      (line_values L S l hl) hfirst (by omega) (by simp only [List.length_map]; omega)
    have e : stmt.needed - offset - 0 = number := by omega
    rw [e, Line.values, List.get?_eq_getElem?, List.getElem?_map, ← List.get?_eq_getElem?,
      hf] at g1
    simp only [Option.map_some', Option.some.injEq] at g1
    subst g1
    simp only [g2]
  refine ⟨h1, ?_, ?_⟩
  · intro hpos
    unfold sqlWalk
    rw [if_pos (by omega)]
    unfold sqlWalkLoop
    have e : stmt.needed - offset = number := by omega
    rw [e, h1]
  · intro cs ret stmt1 rest hcs hok i v hm1
    rcases bindStream_within L S stmt offset number cs hcs ret stmt1 rest hok i v hm1 with g | g
    · exact Or.inl g
    · exact Or.inr (by omega)

/-- C6, amended, at the line `1 2 3` followed by the line `4 5`, for a
statement with two parameters, none from the vector. -/
theorem bindStream_long_line_witness :
    (Line.mk [] [⟨ascii [49], .integer 1, ascii [32]⟩, ⟨ascii [50], .integer 2, ascii [32]⟩,
        ⟨ascii [51], .integer 3, ascii [10]⟩]).Ok utf8 Symbols.initial ∧
    (Line.mk [] [⟨ascii [49], .integer 1, ascii [32]⟩, ⟨ascii [50], .integer 2, ascii [32]⟩,
        ⟨ascii [51], .integer 3, ascii [10]⟩]).Ended ∧
    bindStream utf8 Symbols.initial ⟨2, []⟩ 0 2 [49, 32, 50, 32, 51, 10, 52, 32, 53, 10]
      = .error (.die .bindInteger) ∧
    sqlWalk utf8 Symbols.initial ⟨2, []⟩ 0 [49, 32, 50, 32, 51, 10, 52, 32, 53, 10]
      = .error (.die .bindInteger) :=
  ⟨by decide, by decide,
    (bindStream_long_line utf8 Symbols.initial ⟨2, []⟩ 0 2
      (Line.mk [] [⟨ascii [49], .integer 1, ascii [32]⟩, ⟨ascii [50], .integer 2, ascii [32]⟩,
        ⟨ascii [51], .integer 3, ascii [10]⟩])
      (ascii [52, 32, 53, 10]) ⟨ascii [51], .integer 3, ascii [10]⟩ (by decide) (by decide)
      (utf8_valid_ascii [49, 32, 50, 32, 51, 10, 52, 32, 53, 10] (by decide))
      rfl rfl).1,
    (bindStream_long_line utf8 Symbols.initial ⟨2, []⟩ 0 2
      (Line.mk [] [⟨ascii [49], .integer 1, ascii [32]⟩, ⟨ascii [50], .integer 2, ascii [32]⟩,
        ⟨ascii [51], .integer 3, ascii [10]⟩])
      (ascii [52, 32, 53, 10]) ⟨ascii [51], .integer 3, ascii [10]⟩ (by decide) (by decide)
      (utf8_valid_ascii [49, 32, 50, 32, 51, 10, 52, 32, 53, 10] (by decide))
      rfl rfl).2.1 (by decide)⟩

/-! ## Quoted spans that run over several lines -/

/-- The lexer over characters without newline and what follows them: the
record goes on after them in the state the lexer is in. -/
theorem lexRecord_prefix (L : Locale) : ∀ (pre : List (Nat × List Nat)) (q : Bool)
    (p : List Nat) (more : List (Nat × List Nat)), (∀ c ∈ pre, c.2 ≠ [10]) →
    lexRecord L q p (pre ++ more)
      = ⟨(lexChars L q p pre).1
            ++ (lexRecord L (lexChars L q p pre).2.1 (lexChars L q p pre).2.2 more).tokens,
          (lexRecord L (lexChars L q p pre).2.1 (lexChars L q p pre).2.2 more).quote,
          (lexRecord L (lexChars L q p pre).2.1 (lexChars L q p pre).2.2 more).pending,
          (lexRecord L (lexChars L q p pre).2.1 (lexChars L q p pre).2.2 more).ret,
          (lexRecord L (lexChars L q p pre).2.1 (lexChars L q p pre).2.2 more).rest⟩ := by
  intro pre
  induction pre with
  | nil => intro q p more _; simp [lexChars]
  | cons c pre ih =>
    intro q p more hn
    have hc : c.2 ≠ [10] := hn c (by simp)
    simp only [List.cons_append]
    rw [lexRecord, lexChars]
    simp only [hc, false_and, if_false]
    rw [ih _ _ more (fun x hx => hn x (by simp [hx]))]
    cases (lexChar L q p c).2.2 with
    | none => rfl
    | some t => simp [Lexed.push]

/-- Inside a quote the lexer takes every character into the token, the
newline too, and a doubled quote leaves it inside the quote. -/
theorem lexRecord_paired (L : Locale) : ∀ (n : Nat) (body more : List (Nat × List Nat))
    (p : List Nat), body.length ≤ n → (∀ c ∈ body, c.1 = 39 → c.2 ≠ [10]) →
    quotesPaired (body.map Prod.fst) = true →
    lexRecord L true p (body ++ more) = lexRecord L true (p ++ bytesOf body) more := by
  intro n
  induction n with
  | zero =>
    intro body more p hlen _ _
    have : body = [] := List.length_eq_zero.mp (by omega)
    subst this
    simp [bytesOf]
  | succ n ih =>
    intro body more p hlen hq hp
    cases body with
    | nil => simp [bytesOf]
    | cons c body =>
      by_cases h39 : c.1 = 39
      · cases body with
        | nil =>
          simp [quotesPaired, h39] at hp
        | cons c2 body =>
          have hp2 : c2.1 = 39 ∧ quotesPaired (body.map Prod.fst) = true := by
            simpa [quotesPaired, h39] using hp
          have hc : c.2 ≠ [10] := hq c (by simp) h39
          have hl1 : lexChar L true p c = (false, p ++ c.2, none) := by
            simp [lexChar, h39]
          have hl2 : lexChar L false (p ++ c.2) c2 = (true, p ++ c.2 ++ c2.2, none) := by
            simp [lexChar, hp2.1]
          simp only [List.cons_append]
          rw [lexRecord, hl1]
          simp only [hc, false_and, if_false, Lexed.push]
          rw [lexRecord, hl2]
          simp only [Bool.true_eq_false, and_false, if_false, Lexed.push]
          simp only [List.length_cons] at hlen
          rw [ih body more _ (by omega) (fun x hx => hq x (by simp [hx])) hp2.2]
          simp [bytesOf]
      · have hl : lexChar L true p c = (true, p ++ c.2, none) := by
          simp [lexChar, h39]
        have hp2 : quotesPaired (body.map Prod.fst) = true := by
          rw [List.map_cons, quotesPaired_other _ _ h39] at hp
          exact hp
        simp only [List.cons_append]
        rw [lexRecord, hl]
        simp only [Bool.true_eq_false, and_false, if_false, Lexed.push]
        simp only [List.length_cons] at hlen
        rw [ih body more _ (by omega) (fun x hx => hq x (by simp [hx])) hp2]
        simp [bytesOf]

/-- A blank character after a token in progress ends the token and the lexer
goes on as it does from the blank character alone. -/
theorem lexRecord_gap (L : Locale) (p : List Nat) (g : Nat × List Nat)
    (more : List (Nat × List Nat)) (hg : isGapChar L g = true) (hp : p ≠ []) :
    lexRecord L false p (g :: more) = Lexed.push (some p) (lexRecord L false [] (g :: more)) := by
  have h1 := lexChar_gap L p g hg
  have h2 := lexChar_gap L [] g hg
  simp only [hp, if_false] at h1
  simp only [if_true] at h2
  rw [lexRecord, lexRecord, h1, h2]
  simp only [Lexed.push]

/-- A quote, characters in which every quote is doubled, and a quote: the
token stands for the text between the quotes with each pair of quotes taken
as one. -/
theorem tokenValue_paired (L : Locale) (S : Symbols) (body : List (Nat × List Nat))
    (hq : ValidChar L (39, [39])) (hv : ∀ c ∈ body, ValidChar L c)
    (hp : quotesPaired (body.map Prod.fst) = true) :
    tokenValue L S (39 :: bytesOf body ++ [39]) = .ok (.text (collapseQuotes body)) := by
  have hw : extractWide L (39 :: bytesOf body ++ [39]) = .ok (39, 1) :=
    hq.2.2 (bytesOf body ++ [39])
  have hin := inside 39 39 (bytesOf body)
  have hd : decodeChars L (((39 :: bytesOf body ++ [39]).drop 1).take
      ((39 :: bytesOf body ++ [39]).length - 2)) = some body := by
    rw [hin.1, hin.2, List.take_left]
    exact decodeChars_bytesOf L body hv
  have hlast : (39 :: bytesOf body ++ [39]).getLast? = some 39 := by
    rw [List.getLast?_append]
    rfl
  have hbq := bindQuoted_chars L ⟨⟨1, []⟩, 1⟩ (39 :: bytesOf body ++ [39]) body hd
  have hcl : ¬ ((39 :: bytesOf body ++ [39]).length < 2
      ∨ (39 :: bytesOf body ++ [39]).getLast? ≠ some 39) := by
    intro hc
    rcases hc with hc | hc
    · simp at hc
      omega
    · exact hc hlast
  rw [if_neg hcl, hp, if_pos rfl, bindOrDie_ok _ _ _ (by decide) (by decide)] at hbq
  unfold tokenValue bindToken
  rw [hw]
  simp only [one_ne_zero, if_false, if_true, hbq, bound, List.nil_append]

/-- A record made of unquoted tokens, a quoted span that may run over several
lines, and unquoted tokens up to a newline: the tokens before, the span with
its quotes as one token, the tokens after. -/
theorem lexRecord_span (L : Locale) (S : Symbols) (l1 l2 : Line)
    (body more : List (Nat × List Nat)) (hQ : QuoteIsByte L)
    (h1 : l1.Ok L S) (o1 : l1.Open) (h2 : l2.Ok L S) (e2 : l2.Ended) (hlead : l2.lead ≠ [])
    (hv1 : ∀ c ∈ l1.chars, ValidChar L c) (hvb : ∀ c ∈ body, ValidChar L c)
    (hv2 : ∀ c ∈ l2.chars, ValidChar L c)
    (hp : quotesPaired (body.map Prod.fst) = true) :
    lexRecord L false [] (l1.chars ++ (39, [39]) :: body ++ (39, [39]) :: (l2.chars ++ more))
      = ⟨l1.fields.map (fun f => bytesOf f.token)
            ++ (39 :: bytesOf body ++ [39]) :: l2.fields.map (fun f => bytesOf f.token),
          false, [], true, more⟩ := by
  have hbq : ∀ c ∈ body, c.1 = 39 → c.2 ≠ [10] := by
    intro c hc h39
    have hvc := hvb c hc
    have := (hQ (c.2 ++ []) c.1 c.2.length (hvc.2.2 [])
      (fun e => hvc.1 (List.length_eq_zero.mp e))).1 h39
    simp only [List.append_nil, List.take_length] at this
    rw [this]
    decide
  obtain ⟨g, gs, hg⟩ := List.exists_cons_of_ne_nil hlead
  have hgap : isGapChar L g = true := h2.1 g (by rw [hg]; simp)
  have hl2 : l2.chars ++ more = g :: (gs ++ fieldsChars l2.fields ++ more) := by
    simp [Line.chars, hg]
  have hopen : lexChar L false [] (39, [39]) = (true, [39], none) := by
    simp [lexChar]
  have hclose : lexChar L true ([39] ++ bytesOf body) (39, [39])
      = (false, [39] ++ bytesOf body ++ [39], none) := by
    simp [lexChar]
  have hne : [39] ++ bytesOf body ++ [39] ≠ [] := by simp
  have e39 : ¬ (([39] : List Nat) = [10] ∧ false = false) := by decide
  have hshape : l1.chars ++ (39, [39]) :: body ++ (39, [39]) :: (l2.chars ++ more)
      = l1.chars ++ ((39, [39]) :: (body ++ (39, [39]) :: (l2.chars ++ more))) := by
    simp
  rw [hshape, lexRecord_prefix L l1.chars false [] _ o1, lexChars_line L S l1 h1 hv1]
  simp only
  rw [lexRecord, hopen]
  simp only [Bool.true_eq_false, and_false, if_false, Lexed.push]
  rw [lexRecord_paired L body.length body _ _ (Nat.le_refl _) hbq hp, lexRecord, hclose]
  dsimp only
  rw [if_neg e39]
  simp only [Lexed.push]
  have hrest := lexRecord_ended L S l2 more h2 e2 hv2
  rw [hl2] at hrest ⊢
  rw [lexRecord_gap L _ g _ hgap hne, hrest]
  simp [Lexed.push]

/-- The token in progress is made of the last bytes read. -/
theorem lexChars_pending (L : Locale) : ∀ (cs : List (Nat × List Nat)) (q : Bool)
    (p : List Nat), ∃ start, p ++ bytesOf cs = start ++ (lexChars L q p cs).2.2 := by
  intro cs
  induction cs with
  | nil => intro q p; exact ⟨[], by simp [lexChars, bytesOf]⟩
  | cons c cs ih =>
    intro q p
    have hstep : (lexChar L q p c).2.1 = p ++ c.2 ∨ (lexChar L q p c).2.1 = [] := by
      unfold lexChar
      split_ifs <;> simp
    have hl : (lexChars L q p (c :: cs)).2.2
        = (lexChars L (lexChar L q p c).1 (lexChar L q p c).2.1 cs).2.2 := by
      rw [lexChars]
      cases (lexChar L q p c).2.2 <;> rfl
    obtain ⟨start, hs⟩ := ih (lexChar L q p c).1 (lexChar L q p c).2.1
    rw [hl]
    rcases hstep with h | h
    · exact ⟨start, by rw [← hs, h]; simp [bytesOf]⟩
    · exact ⟨p ++ c.2 ++ start, by
        rw [List.append_assoc (p ++ c.2), ← hs, h]
        simp [bytesOf]⟩

/-- C17: while the stream lexer is inside a quote, white space, control
characters and line ends do not end the token, and a line read while a quote
is open goes on the token in progress.  First, for every record, of complete
characters, in which a quote is open at the end of a line: bindStream does
what the stream lexer of the specification does, whose token in progress at
the end of the line is made of the last bytes of the line, the newline with
them, and whose reading goes on inside the quote with that token on the
input after the line.  Second, for every record made of whitespace-separated
unquoted tokens, then a quoted span, in which every quote is doubled and
blanks and newlines may stand, then white space and unquoted tokens up to a
newline: bindStream binds, in input order, the values of the tokens before
the span, one text value made of all the characters between the quotes of the
span, newlines among them and each doubled quote once, and the values of the
tokens after the span. -/
theorem bindStream_quoted_span (L : Locale) (S : Symbols) (stmt : Stmt)
    (offset number : Nat) :
    (∀ (pre more : List (Nat × List Nat)) (nl : Nat × List Nat),
      (∀ c ∈ pre ++ nl :: more, ValidChar L c) → (∀ c ∈ pre, c.2 ≠ [10]) → nl.2 = [10] →
      (lexChars L false [] (pre ++ [nl])).2.1 = true →
      bindStream L S stmt offset number (bytesOf (pre ++ nl :: more))
        = streamRecord L S stmt offset number (pre ++ nl :: more) ∧
      (∃ start, bytesOf (pre ++ [nl]) = start ++ (lexChars L false [] (pre ++ [nl])).2.2) ∧
      lexRecord L false [] (pre ++ nl :: more)
        = ⟨(lexChars L false [] (pre ++ [nl])).1
              ++ (lexRecord L true (lexChars L false [] (pre ++ [nl])).2.2 more).tokens,
            (lexRecord L true (lexChars L false [] (pre ++ [nl])).2.2 more).quote,
            (lexRecord L true (lexChars L false [] (pre ++ [nl])).2.2 more).pending,
            (lexRecord L true (lexChars L false [] (pre ++ [nl])).2.2 more).ret,
            (lexRecord L true (lexChars L false [] (pre ++ [nl])).2.2 more).rest⟩) ∧
    ∀ (l1 l2 : Line) (body more : List (Nat × List Nat)),
      QuoteIsByte L → ValidChar L (39, [39]) →
      l1.Ok L S → l1.Open → l2.Ok L S → l2.Ended → l2.lead ≠ [] →
      (∀ c ∈ l1.chars ++ body ++ l2.chars ++ more, ValidChar L c) →
      quotesPaired (body.map Prod.fst) = true →
      offset + (l1.fields.length + 1 + l2.fields.length) ≤ stmt.needed →
      offset + number ≤ stmt.needed →
      bindStream L S stmt offset number
          (bytesOf (l1.chars ++ (39, [39]) :: body ++ (39, [39]) :: (l2.chars ++ more)))
        = .ok (true,
            ⟨stmt.needed,
              stmt.trace
                ++ bindEvents (offset + 1)
                    (l1.values ++ Value.text (collapseQuotes body) :: l2.values)
                ++ nullEvents (offset + (l1.fields.length + 1 + l2.fields.length) + 1)
                    (number - (l1.fields.length + 1 + l2.fields.length))⟩,
            bytesOf more) := by
  constructor
  · intro pre more nl hv hpre hnl hopen
    refine ⟨bindStream_lex L S stmt offset number _ hv, ?_, ?_⟩
    · have := lexChars_pending L (pre ++ [nl]) false []
      simpa using this
    · have hline := lexRecord_line L pre false [] nl more hpre hnl
      rw [if_neg (by rw [hopen]; decide)] at hline
      exact hline
  · intro l1 l2 body more hQ hq h1 o1 h2 e2 hlead hv hp hk hn
    have hv1 : ∀ c ∈ l1.chars, ValidChar L c := fun c hc => hv c (by simp [hc])
    have hvb : ∀ c ∈ body, ValidChar L c := fun c hc => hv c (by simp [hc])
    have hv2 : ∀ c ∈ l2.chars, ValidChar L c := fun c hc => hv c (by simp [hc])
    have hall : ∀ c ∈ l1.chars ++ (39, [39]) :: body ++ (39, [39]) :: (l2.chars ++ more),
        ValidChar L c := by
      intro c hc
      simp only [List.mem_append, List.mem_cons] at hc
      rcases hc with (hc | rfl | hc) | rfl | hc | hc
      · exact hv1 c hc
      · exact hq
      · exact hvb c hc
      · exact hq
      · exact hv2 c hc
      · exact hv c (by simp [hc])
    have hlex := lexRecord_span L S l1 l2 body more hQ h1 o1 h2 e2 hlead hv1 hvb hv2 hp
    have hvals : (l1.fields.map (fun f => bytesOf f.token)
          ++ (39 :: bytesOf body ++ [39]) :: l2.fields.map (fun f => bytesOf f.token)).map
            (tokenValue L S)
        = (l1.values ++ Value.text (collapseQuotes body) :: l2.values).map Except.ok := by
      rw [List.map_append, List.map_cons, line_values L S l1 h1, line_values L S l2 h2,
        tokenValue_paired L S body hq hvb hp]
      simp
    have hlen : (l1.values ++ Value.text (collapseQuotes body) :: l2.values).length
        = l1.fields.length + 1 + l2.fields.length := by
      simp [Line.values]
      omega
    have hrec := bindStream_record L S stmt offset number _
      (l1.values ++ Value.text (collapseQuotes body) :: l2.values) hall
      (by rw [hlex]) (by rw [hlex]; exact hvals) (by rw [hlen]; exact hk) hn
    rw [hrec, hlex, hlen]

/-- C17 at the two lines `1 'a` and `b'` in the UTF-8 locale: the second line
goes on the token begun in the first; 1 is bound to the first slot and the
one text value `a`, newline, `b` to the second. -/
theorem bindStream_quoted_span_witness :
    (lexChars utf8 false [] (ascii [49, 32, 39, 97] ++ [(10, [10])])).2.1 = true ∧
    bindStream utf8 Symbols.initial ⟨2, []⟩ 0 2
        (bytesOf (ascii [49, 32, 39, 97] ++ (10, [10]) :: ascii [98, 39, 10]))
      = streamRecord utf8 Symbols.initial ⟨2, []⟩ 0 2
          (ascii [49, 32, 39, 97] ++ (10, [10]) :: ascii [98, 39, 10]) ∧
    (Line.mk [] [⟨ascii [49], .integer 1, ascii [32]⟩]).Ok utf8 Symbols.initial ∧
    (Line.mk (ascii [10]) []).Ended ∧
    quotesPaired ((ascii [97, 10, 98]).map Prod.fst) = true ∧
    bindStream utf8 Symbols.initial ⟨2, []⟩ 0 2 [49, 32, 39, 97, 10, 98, 39, 10]
      = .ok (true, ⟨2, [Event.bind 1 (.integer 1), Event.bind 2 (.text [97, 10, 98])]⟩, []) :=
  ⟨by decide,
    ((bindStream_quoted_span utf8 Symbols.initial ⟨2, []⟩ 0 2).1 (ascii [49, 32, 39, 97])
      (ascii [98, 39, 10]) (10, [10])
      (utf8_valid_ascii [49, 32, 39, 97, 10, 98, 39, 10] (by decide))
      (by decide) rfl (by decide)).1,
    by decide, by decide, by decide,
    (bindStream_quoted_span utf8 Symbols.initial ⟨2, []⟩ 0 2).2
      (Line.mk [] [⟨ascii [49], .integer 1, ascii [32]⟩]) (Line.mk (ascii [10]) [])
      (ascii [97, 10, 98]) [] utf8_quoteIsByte
      (utf8_valid_ascii [39] (by decide) _ (by simp [ascii]))
      (by decide) (by decide) (by decide) (by decide) (by decide)
      (utf8_valid_ascii [49, 32, 97, 10, 98, 10] (by decide))
      (by decide) (by decide) (by decide)⟩

end Query
